import Mathlib

/-!
# Token-bucket rate limiter (package `internal/ratelimiter`)

A shallow embedding of `NewRateLimiter` and `RateLimiter.RateLimit` and the
properties of the sequential algorithm.

Modelling conventions.

* A `time.Time` obtained from `time.Now()` is represented by its clock reading in
  integer nanoseconds; `Time.Sub` is the difference of two readings, a `Duration`
  in integer nanoseconds, and `Duration.Seconds` divides it by `10^9`. The
  saturation of `Time.Sub` at durations of about 292 years is beyond the readings
  of a running process and is not modelled.
* `float64` quantities (`tokens`, `rate`, `bucketSize`, elapsed seconds) are embedded
  twice. `NewRateLimiter`, `refill`, `RateLimiter.RateLimit` and `run` keep the
  arithmetic of the source over exact rationals; they carry the properties that
  rounding does not touch (range of the balance, independence of clients, timestamps,
  frame, sanitization, the copy in `main.go`). The definitions under `F64` round every
  `float64` operation to binary64 (`fl`); they carry the properties that depend on the
  computed values (token-bucket bound, bursts, refill after a drain, the single step,
  rate and capacity, the variant that updates `L` only on allow).
* `map[string]*clientData` is a partial function from client names to bucket
  states; writing through the pointer is an update of the map entry.
* The two mutexes serialise the calls; the embedding is the sequential semantics
  of one call, with the values returned by the two `time.Now()` reads passed in.
* The copy of the two functions in the root `main.go` is embedded separately, under
  `Main`, and related to the package by `Main.RateLimiter.toPkg`.
-/

namespace Ratelimiter

/-- Clock reading of a `time.Time`, in nanoseconds. -/
abbrev Time := Int

/-- A `time.Duration`, in nanoseconds. -/
abbrev Duration := Int

/-- The duration `t.Sub(u)`, the difference `t - u` of the two readings. -/
def timeSub (t u : Time) : Duration := t - u

/-- The value of `d.Seconds()`, the duration as a number of seconds. -/
def seconds (d : Duration) : ℚ := (d : ℚ) / 1000000000

/-- State of a single client's token bucket. -/
structure clientData where
  tokens : ℚ
  lastRefillTime : Time
deriving DecidableEq

/-- The limiter: the clients map, the refill rate and the bucket capacity. -/
structure RateLimiter where
  clients : String → Option clientData
  rate : ℚ
  bucketSize : ℚ

/-- The constructor `NewRateLimiter(n)`: a non-positive `n` is replaced by 1. -/
def NewRateLimiter (n : Int) : RateLimiter :=
  let n := if n ≤ 0 then 1 else n
  { clients := fun _ => none, rate := (n : ℚ), bucketSize := (n : ℚ) }

/-- The map write `clients[clientName] = client`. -/
def setClient (clients : String → Option clientData) (clientName : String)
    (client : clientData) : String → Option clientData :=
  fun k => if k = clientName then some client else clients k

/-- Lines 40-47 of `RateLimit`: the bucket of `clientName`, created full and stamped
with the clock reading `created` when the map has none. -/
def lookupOrCreate (rl : RateLimiter) (clientName : String) (created : Time) : clientData :=
  match rl.clients clientName with
  | some client => client
  | none => { tokens := rl.bucketSize, lastRefillTime := created }

/-- Lines 55-57 of `RateLimit`: the token balance after adding `elapsed * rate`,
before the cap. -/
def refillRaw (rl : RateLimiter) (client : clientData) (now : Time) : ℚ :=
  let elapsed := seconds (timeSub now client.lastRefillTime)
  let tokensToAdd := elapsed * rl.rate
  client.tokens + tokensToAdd

/-- Lines 55-63 of `RateLimit`: the token balance after the refill and the cap at
`bucketSize`. -/
def refill (rl : RateLimiter) (client : clientData) (now : Time) : ℚ :=
  let tokens := refillRaw rl client now
  if tokens > rl.bucketSize then rl.bucketSize else tokens

/-- The method `RateLimit(clientName)`. `created` is the value of the `time.Now()`
read at bucket creation (used only when the client has no bucket) and `now` the
value of the `time.Now()` read of the refill. Returns the verdict and the new
limiter state. -/
def RateLimiter.RateLimit (rl : RateLimiter) (clientName : String) (created now : Time) :
    Bool × RateLimiter :=
  let client := lookupOrCreate rl clientName created
  let tokens := refill rl client now
  if tokens ≥ 1 then
    (true, { clients := setClient rl.clients clientName
               { tokens := tokens - 1, lastRefillTime := now },
             rate := rl.rate, bucketSize := rl.bucketSize })
  else
    (false, { clients := setClient rl.clients clientName
                { tokens := tokens, lastRefillTime := now },
              rate := rl.rate, bucketSize := rl.bucketSize })

/-- One `RateLimit` call together with the clock values it is given. -/
structure Call where
  clientName : String
  created : Time
  now : Time
deriving DecidableEq

/-- Perform one call. -/
def call (rl : RateLimiter) (c : Call) : Bool × RateLimiter :=
  rl.RateLimit c.clientName c.created c.now

/-- Perform a sequence of calls in order: the verdicts and the final state. -/
def run (rl : RateLimiter) : List Call → List Bool × RateLimiter
  | [] => ([], rl)
  | c :: cs =>
    let r := call rl c
    let rest := run r.2 cs
    (r.1 :: rest.1, rest.2)

/-- The clock values a call actually reads: the creation stamp only when the client
has no bucket yet, then the refill read. -/
def clockReads (rl : RateLimiter) (c : Call) : List Time :=
  match rl.clients c.clientName with
  | some _ => [c.now]
  | none => [c.created, c.now]

/-- All clock values read along a sequence of calls, in the order they are read. -/
def clockTrace (rl : RateLimiter) : List Call → List Time
  | [] => []
  | c :: cs => clockReads rl c ++ clockTrace (call rl c).2 cs

/-- The clock never goes backwards along the calls `cs` started in state `rl`. -/
def NonDecreasingClock (rl : RateLimiter) (cs : List Call) : Prop :=
  (clockTrace rl cs).Pairwise (fun a b => a ≤ b)

/-- The limiter states that some sequence of calls reaches from `NewRateLimiter(n)`. -/
def Reachable (n : Int) (rl : RateLimiter) : Prop :=
  ∃ cs : List Call, (run (NewRateLimiter n) cs).2 = rl

/-- Example state: rate and capacity `size`, one client `"a"` holding `tokens` tokens,
last refilled at clock value `last`. -/
def oneClient (size : ℚ) (tokens : ℚ) (last : Time) : RateLimiter :=
  { clients := fun k => if k = "a" then some { tokens := tokens, lastRefillTime := last }
                        else none,
    rate := size, bucketSize := size }

/-- The calls of `cs` made for client `a`, each with its clock values. -/
def callsOf (a : String) (cs : List Call) : List Call :=
  cs.filter (fun c => c.clientName = a)

/-- The verdicts returned to the calls for client `a` when the whole sequence `cs` is
run from `rl`. -/
def verdictsFor (a : String) (rl : RateLimiter) : List Call → List Bool
  | [] => []
  | c :: cs =>
    if c.clientName = a then (call rl c).1 :: verdictsFor a (call rl c).2 cs
    else verdictsFor a (call rl c).2 cs

/-- Two limiter states that `RateLimit` cannot tell apart on client `a`: same rate,
same capacity, same bucket for `a`. -/
def SameFor (a : String) (rl1 rl2 : RateLimiter) : Prop :=
  rl1.rate = rl2.rate ∧ rl1.bucketSize = rl2.bucketSize ∧ rl1.clients a = rl2.clients a

/-- The invariant carried along a run under a non-decreasing clock: rate and capacity
are not negative, the clock values still to be read never decrease, and every bucket
holds between 0 and `bucketSize` tokens and was last refilled no later than any clock
value still to be read. -/
def WellFormed (rl : RateLimiter) (cs : List Call) : Prop :=
  0 ≤ rl.rate ∧ 0 ≤ rl.bucketSize ∧ NonDecreasingClock rl cs ∧
  ∀ (k : String) (b : clientData), rl.clients k = some b →
    0 ≤ b.tokens ∧ b.tokens ≤ rl.bucketSize ∧
    ∀ r ∈ clockTrace rl cs, b.lastRefillTime ≤ r

/-- Steady cadence of client `k` at rate `rate`: every call for `k` reads the clock at
least `1 / rate` seconds after the previous call for `k` did (`prev` is the clock value
of that previous call, if there was one). -/
def SteadyCadence (k : String) (rate : ℚ) : Option Time → List Call → Prop
  | _, [] => True
  | prev, c :: cs =>
    if c.clientName = k then
      (match prev with
        | none => True
        | some p => 1 / rate ≤ seconds (timeSub c.now p))
        ∧ SteadyCadence k rate (some c.now) cs
    else SteadyCadence k rate prev cs

/-- The clock value `prev` of the last call made for `k`, as the limiter state records
it: no bucket when there was no call, else the bucket's `lastRefillTime`. -/
def LastCallAt (rl : RateLimiter) (k : String) : Option Time → Prop
  | none => rl.clients k = none
  | some p => ∃ b : clientData, rl.clients k = some b ∧ b.lastRefillTime = p

/-- `clientData` of the root `main.go`. -/
structure Main.clientData where
  tokens : ℚ
  lastRefillTime : Time
deriving DecidableEq

/-- `RateLimiter` of the root `main.go`. -/
structure Main.RateLimiter where
  clients : String → Option Main.clientData
  rate : ℚ
  bucketSize : ℚ

/-- `NewRateLimiter` of the root `main.go`. -/
def Main.NewRateLimiter (n : Int) : Main.RateLimiter :=
  let n := if n ≤ 0 then 1 else n
  { clients := fun _ => none, rate := (n : ℚ), bucketSize := (n : ℚ) }

/-- `RateLimit` of the root `main.go` (lines 39-73), with the values of its two
`time.Now()` reads passed in. -/
def Main.RateLimiter.RateLimit (rl : Main.RateLimiter) (clientName : String)
    (created now : Time) : Bool × Main.RateLimiter :=
  let client : Main.clientData :=
    match rl.clients clientName with
    | some client => client
    | none => { tokens := rl.bucketSize, lastRefillTime := created }
  let elapsed := seconds (timeSub now client.lastRefillTime)
  let tokensToAdd := elapsed * rl.rate
  let tokens := client.tokens + tokensToAdd
  let tokens := if tokens > rl.bucketSize then rl.bucketSize else tokens
  if tokens ≥ 1 then
    (true, { clients := fun k =>
               if k = clientName then some { tokens := tokens - 1, lastRefillTime := now }
               else rl.clients k,
             rate := rl.rate, bucketSize := rl.bucketSize })
  else
    (false, { clients := fun k =>
                if k = clientName then some { tokens := tokens, lastRefillTime := now }
                else rl.clients k,
              rate := rl.rate, bucketSize := rl.bucketSize })

/-- Perform a sequence of calls with the functions of the root `main.go`. -/
def Main.run (rl : Main.RateLimiter) : List Call → List Bool × Main.RateLimiter
  | [] => ([], rl)
  | c :: cs =>
    let r := rl.RateLimit c.clientName c.created c.now
    let rest := Main.run r.2 cs
    (r.1 :: rest.1, rest.2)

/-- A bucket of the root `main.go` read as a bucket of package `ratelimiter`. -/
def Main.clientData.toPkg (c : Main.clientData) : Ratelimiter.clientData :=
  { tokens := c.tokens, lastRefillTime := c.lastRefillTime }

/-- A limiter of the root `main.go` read as a limiter of package `ratelimiter`. -/
def Main.RateLimiter.toPkg (rl : Main.RateLimiter) : Ratelimiter.RateLimiter :=
  { clients := fun k => (rl.clients k).map Main.clientData.toPkg,
    rate := rl.rate, bucketSize := rl.bucketSize }

/-! ### binary64 arithmetic

The `float64` operations of the source, each rounded to the nearest binary64 value
with ties to even; the values are the rationals that binary64 represents. The exponent
range is not modelled: every value the program computes from `int` and `int64` inputs
lies far inside it. Each operation is rounded on its own (no fused multiply-add), as
the compiler does on amd64. -/

/-- Nearest integer, ties to the even one. -/
def roundEven (m : ℚ) : ℤ :=
  if m - ⌊m⌋ < 1 / 2 then ⌊m⌋
  else if 1 / 2 < m - ⌊m⌋ then ⌊m⌋ + 1
  else if ⌊m⌋ % 2 = 0 then ⌊m⌋ else ⌊m⌋ + 1

/-- The unit in the last place of the 53-bit significand of `x`: `2^(e-52)` where
`2^e ≤ |x| < 2^(e+1)`. -/
def ulp (x : ℚ) : ℚ := (2 : ℚ) ^ (Int.log 2 |x| - 52)

/-- Rounding of a rational to binary64: the nearest multiple of `ulp x`, ties to the
even significand. -/
def fl (x : ℚ) : ℚ := (roundEven (x / ulp x) : ℚ) * ulp x

/-- The rationals that are binary64 values. -/
def IsFloat (x : ℚ) : Prop := fl x = x

/-- The value of `d.Seconds()` in `float64`: `float64(sec) + float64(nsec)/1e9` with
`sec = d / Second` and `nsec = d % Second` (truncated division). -/
def F64.seconds (d : Duration) : ℚ :=
  fl (fl ((d.tdiv 1000000000 : Int) : ℚ) + fl (fl ((d.tmod 1000000000 : Int) : ℚ) / 1000000000))

/-- The constructor `NewRateLimiter(n)` with the conversion `float64(n)`. -/
def F64.NewRateLimiter (n : Int) : RateLimiter :=
  let n := if n ≤ 0 then 1 else n
  { clients := fun _ => none, rate := fl (n : ℚ), bucketSize := fl (n : ℚ) }

/-- Lines 55-57 of `RateLimit` in `float64`: `elapsed * rate` is rounded, then the sum
with `tokens` is rounded. -/
def F64.refillRaw (rl : RateLimiter) (client : clientData) (now : Time) : ℚ :=
  let elapsed := F64.seconds (timeSub now client.lastRefillTime)
  let tokensToAdd := fl (elapsed * rl.rate)
  fl (client.tokens + tokensToAdd)

/-- Lines 55-63 of `RateLimit` in `float64`: the balance after the refill and the cap. -/
def F64.refill (rl : RateLimiter) (client : clientData) (now : Time) : ℚ :=
  let tokens := F64.refillRaw rl client now
  if tokens > rl.bucketSize then rl.bucketSize else tokens

/-- The method `RateLimit(clientName)` in `float64`; `tokens--` is the rounded
`tokens - 1`. The clock values are passed in as for `RateLimiter.RateLimit`. -/
def F64.RateLimit (rl : RateLimiter) (clientName : String) (created now : Time) :
    Bool × RateLimiter :=
  let client := lookupOrCreate rl clientName created
  let tokens := F64.refill rl client now
  if tokens ≥ 1 then
    (true, { clients := setClient rl.clients clientName
               { tokens := fl (tokens - 1), lastRefillTime := now },
             rate := rl.rate, bucketSize := rl.bucketSize })
  else
    (false, { clients := setClient rl.clients clientName
                { tokens := tokens, lastRefillTime := now },
              rate := rl.rate, bucketSize := rl.bucketSize })

/-- Perform one call in `float64`. -/
def F64.call (rl : RateLimiter) (c : Call) : Bool × RateLimiter :=
  F64.RateLimit rl c.clientName c.created c.now

/-- Perform a sequence of calls in `float64`: the verdicts and the final state. -/
def F64.run (rl : RateLimiter) : List Call → List Bool × RateLimiter
  | [] => ([], rl)
  | c :: cs =>
    let r := F64.call rl c
    let rest := F64.run r.2 cs
    (r.1 :: rest.1, rest.2)

/-- All clock values read along a sequence of `float64` calls, in the order they are
read. -/
def F64.clockTrace (rl : RateLimiter) : List Call → List Time
  | [] => []
  | c :: cs => clockReads rl c ++ F64.clockTrace (F64.call rl c).2 cs

/-- The clock never goes backwards along the `float64` calls `cs` started in `rl`. -/
def F64.NonDecreasingClock (rl : RateLimiter) (cs : List Call) : Prop :=
  (F64.clockTrace rl cs).Pairwise (fun a b => a ≤ b)

/-- The limiter states that some sequence of `float64` calls reaches from
`NewRateLimiter(n)`. -/
def F64.Reachable (n : Int) (rl : RateLimiter) : Prop :=
  ∃ cs : List Call, (F64.run (F64.NewRateLimiter n) cs).2 = rl

/-- Number of calls of `cs` (run in `float64` from `rl`) made for client `k` whose refill
read lies in the window `[t0, t1]` and that return `true`. -/
def F64.allowedIn (k : String) (t0 t1 : Time) (rl : RateLimiter) : List Call → Nat
  | [] => 0
  | c :: cs =>
    (if c.clientName = k ∧ t0 ≤ c.now ∧ c.now ≤ t1 ∧ (F64.call rl c).1 = true then 1 else 0)
      + F64.allowedIn k t0 t1 (F64.call rl c).2 cs

/-- The invariant carried along a `float64` run under a non-decreasing clock: rate and
capacity are one float, at least 1 and at most `2^53`, the clock values still to be
read never decrease, and every bucket holds a float between 0 and `bucketSize` and was
last refilled no later than any clock value still to be read. -/
def F64.WellFormed (rl : RateLimiter) (cs : List Call) : Prop :=
  rl.rate = rl.bucketSize ∧ IsFloat rl.bucketSize ∧ 1 ≤ rl.bucketSize ∧
  rl.bucketSize ≤ (2 : ℚ) ^ (53 : ℕ) ∧ F64.NonDecreasingClock rl cs ∧
  ∀ (k : String) (b : clientData), rl.clients k = some b →
    IsFloat b.tokens ∧ 0 ≤ b.tokens ∧ b.tokens ≤ rl.bucketSize ∧
    ∀ r ∈ F64.clockTrace rl cs, b.lastRefillTime ≤ r

/-- The alternative of the design notes, "update L only on allow", in `float64`: the
lookup, the creation and the refill are those of `RateLimit`, but a denied call leaves
the bucket's `tokens` and `lastRefillTime` as they were before the call. -/
def F64.RateLimitOnAllow (rl : RateLimiter) (clientName : String) (created now : Time) :
    Bool × RateLimiter :=
  let client := lookupOrCreate rl clientName created
  let tokens := F64.refill rl client now
  if tokens ≥ 1 then
    (true, { clients := setClient rl.clients clientName
               { tokens := fl (tokens - 1), lastRefillTime := now },
             rate := rl.rate, bucketSize := rl.bucketSize })
  else
    (false, { clients := setClient rl.clients clientName client,
              rate := rl.rate, bucketSize := rl.bucketSize })

/-- Perform a sequence of calls with the "update L only on allow" variant. -/
def F64.runOnAllow (rl : RateLimiter) : List Call → List Bool × RateLimiter
  | [] => ([], rl)
  | c :: cs =>
    let r := F64.RateLimitOnAllow rl c.clientName c.created c.now
    let rest := F64.runOnAllow r.2 cs
    (r.1 :: rest.1, rest.2)

/-- The state of the `N = 5` trace after five calls of client `"a"` at clock value 0. -/
def traceDrained5 : RateLimiter :=
  (F64.run (F64.NewRateLimiter 5) (List.replicate 5 ⟨"a", 0, 0⟩)).2

/-! ## Basic facts about one call -/

theorem seconds_timeSub_self (t : Time) : seconds (timeSub t t) = 0 := by
  simp [seconds, timeSub]

theorem seconds_nonneg {d : Duration} (h : 0 ≤ d) : 0 ≤ seconds d := by
  unfold seconds
  have : (0 : ℚ) ≤ (d : ℚ) := by exact_mod_cast h
  positivity

theorem refill_eq_min (rl : RateLimiter) (client : clientData) (now : Time) :
    refill rl client now = min rl.bucketSize (refillRaw rl client now) := by
  unfold refill
  by_cases h : refillRaw rl client now > rl.bucketSize
  · simp [h, le_of_lt h]
  · simp [h, not_lt.mp h]

theorem refill_le_bucketSize (rl : RateLimiter) (client : clientData) (now : Time) :
    refill rl client now ≤ rl.bucketSize := by
  rw [refill_eq_min]; exact min_le_left _ _

theorem lookupOrCreate_some {rl : RateLimiter} {k : String} {b : clientData}
    (h : rl.clients k = some b) (created : Time) : lookupOrCreate rl k created = b := by
  simp [lookupOrCreate, h]

theorem lookupOrCreate_none {rl : RateLimiter} {k : String}
    (h : rl.clients k = none) (created : Time) :
    lookupOrCreate rl k created = { tokens := rl.bucketSize, lastRefillTime := created } := by
  simp [lookupOrCreate, h]

theorem RateLimit_fst (rl : RateLimiter) (k : String) (created now : Time) :
    (rl.RateLimit k created now).1
      = decide (1 ≤ refill rl (lookupOrCreate rl k created) now) := by
  unfold RateLimiter.RateLimit
  by_cases h : refill rl (lookupOrCreate rl k created) now ≥ 1
  · simp [h]
  · simp [h]

theorem RateLimit_rate (rl : RateLimiter) (k : String) (created now : Time) :
    (rl.RateLimit k created now).2.rate = rl.rate := by
  unfold RateLimiter.RateLimit
  by_cases h : refill rl (lookupOrCreate rl k created) now ≥ 1
  · simp [h]
  · simp [h]

theorem RateLimit_bucketSize (rl : RateLimiter) (k : String) (created now : Time) :
    (rl.RateLimit k created now).2.bucketSize = rl.bucketSize := by
  unfold RateLimiter.RateLimit
  by_cases h : refill rl (lookupOrCreate rl k created) now ≥ 1
  · simp [h]
  · simp [h]

theorem RateLimit_clients_self (rl : RateLimiter) (k : String) (created now : Time) :
    (rl.RateLimit k created now).2.clients k
      = some { tokens :=
                 if 1 ≤ refill rl (lookupOrCreate rl k created) now
                 then refill rl (lookupOrCreate rl k created) now - 1
                 else refill rl (lookupOrCreate rl k created) now,
               lastRefillTime := now } := by
  unfold RateLimiter.RateLimit
  by_cases h : refill rl (lookupOrCreate rl k created) now ≥ 1
  · have h1 : 1 ≤ refill rl (lookupOrCreate rl k created) now := h
    simp [h1, setClient]
  · have h1 : ¬ 1 ≤ refill rl (lookupOrCreate rl k created) now := h
    simp [h1, setClient]

theorem RateLimit_clients_other (rl : RateLimiter) (k : String) (created now : Time)
    {j : String} (hj : j ≠ k) :
    (rl.RateLimit k created now).2.clients j = rl.clients j := by
  unfold RateLimiter.RateLimit
  by_cases h : refill rl (lookupOrCreate rl k created) now ≥ 1
  · simp [h, setClient, hj]
  · simp [h, setClient, hj]

theorem call_rate (rl : RateLimiter) (c : Call) : (call rl c).2.rate = rl.rate :=
  RateLimit_rate rl c.clientName c.created c.now

theorem call_bucketSize (rl : RateLimiter) (c : Call) :
    (call rl c).2.bucketSize = rl.bucketSize :=
  RateLimit_bucketSize rl c.clientName c.created c.now

theorem run_rate (rl : RateLimiter) (cs : List Call) : (run rl cs).2.rate = rl.rate := by
  induction cs generalizing rl with
  | nil => rfl
  | cons c cs ih => simp [run, ih, call_rate]

theorem run_bucketSize (rl : RateLimiter) (cs : List Call) :
    (run rl cs).2.bucketSize = rl.bucketSize := by
  induction cs generalizing rl with
  | nil => rfl
  | cons c cs ih => simp [run, ih, call_bucketSize]

theorem NewRateLimiter_rate (n : Int) : (NewRateLimiter n).rate = ((max n 1 : Int) : ℚ) := by
  unfold NewRateLimiter
  by_cases h : n ≤ 0
  · have : max n 1 = 1 := max_eq_right (by omega)
    simp [h, this]
  · have : max n 1 = n := max_eq_left (by omega)
    simp [h, this]

theorem NewRateLimiter_bucketSize (n : Int) :
    (NewRateLimiter n).bucketSize = ((max n 1 : Int) : ℚ) := by
  unfold NewRateLimiter
  by_cases h : n ≤ 0
  · have : max n 1 = 1 := max_eq_right (by omega)
    simp [h, this]
  · have : max n 1 = n := max_eq_left (by omega)
    simp [h, this]

theorem Reachable.rate_eq {n : Int} {rl : RateLimiter} (h : Reachable n rl) :
    rl.rate = ((max n 1 : Int) : ℚ) := by
  obtain ⟨cs, rfl⟩ := h
  rw [run_rate, NewRateLimiter_rate]

theorem Reachable.bucketSize_eq {n : Int} {rl : RateLimiter} (h : Reachable n rl) :
    rl.bucketSize = ((max n 1 : Int) : ℚ) := by
  obtain ⟨cs, rfl⟩ := h
  rw [run_bucketSize, NewRateLimiter_bucketSize]

theorem one_le_max_cast (n : Int) : (1 : ℚ) ≤ ((max n 1 : Int) : ℚ) := by
  have : (1 : Int) ≤ max n 1 := le_max_right _ _
  exact_mod_cast this

/-! ## Two calls at one instant -/

/-- After any call the balance left in the bucket is below 1 whenever the balance the
call worked on was below 2. -/
theorem RateLimit_left_lt_one (rl : RateLimiter) (k : String) (created now : Time)
    (h : refill rl (lookupOrCreate rl k created) now < 2) :
    ∃ b : clientData, (rl.RateLimit k created now).2.clients k = some b ∧
      b.tokens < 1 ∧ b.lastRefillTime = now := by
  refine ⟨_, RateLimit_clients_self rl k created now, ?_, rfl⟩
  by_cases h1 : 1 ≤ refill rl (lookupOrCreate rl k created) now
  · simp only [if_pos h1]; linarith
  · simp only [if_neg h1]; exact not_le.mp h1

/-- A call that works on a balance below 2 is followed by a denial when the next call
for the same client reads the same clock value. -/
theorem RateLimit_twice_denied (rl : RateLimiter) (k : String) (created created2 now : Time)
    (h : refill rl (lookupOrCreate rl k created) now < 2) :
    ((rl.RateLimit k created now).2.RateLimit k created2 now).1 = false := by
  obtain ⟨b, hb, hlt, hL⟩ := RateLimit_left_lt_one rl k created now h
  rw [RateLimit_fst, lookupOrCreate_some hb, refill_eq_min]
  have hraw : refillRaw (rl.RateLimit k created now).2 b now = b.tokens := by
    simp [refillRaw, hL, seconds_timeSub_self]
  rw [hraw]
  have : ¬ (1 ≤ min (rl.RateLimit k created now).2.bucketSize b.tokens) := by
    intro h1
    have := le_trans h1 (min_le_right _ _)
    linarith
  simp [this]

/-- C10. Weak idempotence: when two consecutive calls for the same client read the same
clock value `now` and the balance the first call works on (after its refill and clamp)
is below 2, the second call returns false. -/
theorem weak_idempotence (rl : RateLimiter) (k : String) (created created2 now : Time)
    (h : refill rl (lookupOrCreate rl k created) now < 2) :
    ((rl.RateLimit k created now).2.RateLimit k created2 now).1 = false :=
  RateLimit_twice_denied rl k created created2 now h

/-- Witness for C10: with rate 1 a new client works on the balance 1, below 2, so a
second call at the same clock value is denied. -/
theorem weak_idempotence_witness :
    refill (NewRateLimiter 1) (lookupOrCreate (NewRateLimiter 1) "a" 0) 0 < 2 ∧
    (((NewRateLimiter 1).RateLimit "a" 0 0).2.RateLimit "a" 0 0).1 = false :=
  ⟨by norm_num [NewRateLimiter, lookupOrCreate, refill, refillRaw, seconds, timeSub],
   weak_idempotence (NewRateLimiter 1) "a" 0 0 0
     (by norm_num [NewRateLimiter, lookupOrCreate, refill, refillRaw, seconds, timeSub])⟩

/-! ## New clients -/

/-- The balance a call works on when it creates the bucket under a clock that does not
go backwards between the two reads is the full capacity. -/
theorem refill_new_client (rl : RateLimiter) (k : String) (created now : Time)
    (hk : rl.clients k = none) (hR : 0 ≤ rl.rate) (hclock : created ≤ now) :
    refill rl (lookupOrCreate rl k created) now = rl.bucketSize := by
  rw [lookupOrCreate_none hk, refill_eq_min]
  apply min_eq_left
  have h1 : 0 ≤ seconds (timeSub now created) := seconds_nonneg (sub_nonneg.mpr hclock)
  have h2 := mul_nonneg h1 hR
  simp only [refillRaw]
  linarith

/-- A call that creates the bucket is allowed when the capacity is at least 1, the rate
is not negative and the clock does not go backwards between its two reads. -/
theorem RateLimit_new_client_allowed (rl : RateLimiter) (k : String) (created now : Time)
    (hk : rl.clients k = none) (hR : 0 ≤ rl.rate) (hC : 1 ≤ rl.bucketSize)
    (hclock : created ≤ now) : (rl.RateLimit k created now).1 = true := by
  rw [RateLimit_fst, refill_new_client rl k created now hk hR hclock]
  exact decide_eq_true hC

/-- C5. First call always allowed: for every integer `N`, every limiter state reachable
from `NewRateLimiter(N)` and every client with no bucket in that state, `RateLimit`
returns true for every pair of values the clock returns for the creation stamp and for
the refill read of that call; the refill read comes after the creation stamp in program
order, so it is not earlier (`created ≤ now`). -/
theorem first_call_allowed (n : Int) (rl : RateLimiter) (k : String) (created now : Time)
    (hreach : Reachable n rl) (hk : rl.clients k = none) (hclock : created ≤ now) :
    (rl.RateLimit k created now).1 = true := by
  apply RateLimit_new_client_allowed rl k created now hk _ _ hclock
  · rw [hreach.rate_eq]; exact le_trans zero_le_one (one_le_max_cast n)
  · rw [hreach.bucketSize_eq]; exact one_le_max_cast n

/-- Witness for C5: the first call on `NewRateLimiter(0)`, creation stamp 5 and refill
read 7. -/
theorem first_call_allowed_witness :
    Reachable 0 (NewRateLimiter 0) ∧ (NewRateLimiter 0).clients "x" = none ∧
    (5 : Time) ≤ 7 ∧ ((NewRateLimiter 0).RateLimit "x" 5 7).1 = true :=
  ⟨⟨[], rfl⟩, rfl, by decide,
   first_call_allowed 0 (NewRateLimiter 0) "x" 5 7 ⟨[], rfl⟩ rfl (by decide)⟩

/-! ## Construction -/

theorem NewRateLimiter_of_nonpos {n : Int} (hn : n ≤ 0) :
    NewRateLimiter n = NewRateLimiter 1 := by
  simp [NewRateLimiter, hn]

/-- C7. Sanitization: for every integer `N ≤ 0`, `NewRateLimiter(N)` is the same limiter
state as `NewRateLimiter(1)`: rate and capacity 1 and an empty clients map. Hence every
sequence of calls with the same clock values returns the same verdicts and reaches the
same state on both; the first call for a client is allowed and a second call at the
same clock value is denied. -/
theorem sanitization (n : Int) (hn : n ≤ 0) :
    NewRateLimiter n = NewRateLimiter 1 ∧
    (NewRateLimiter n).rate = 1 ∧ (NewRateLimiter n).bucketSize = 1 ∧
    (∀ k : String, (NewRateLimiter n).clients k = none) ∧
    (∀ cs : List Call, run (NewRateLimiter n) cs = run (NewRateLimiter 1) cs) ∧
    (∀ (k : String) (created created2 now : Time), created ≤ now →
      (run (NewRateLimiter n) [⟨k, created, now⟩, ⟨k, created2, now⟩]).1 = [true, false]) := by
  have hR : (NewRateLimiter n).rate = 1 := by simp [NewRateLimiter, hn]
  have hC : (NewRateLimiter n).bucketSize = 1 := by simp [NewRateLimiter, hn]
  refine ⟨NewRateLimiter_of_nonpos hn, hR, hC, fun _ => rfl, ?_, ?_⟩
  · intro cs; rw [NewRateLimiter_of_nonpos hn]
  · intro k created created2 now hclock
    have hfull : refill (NewRateLimiter n) (lookupOrCreate (NewRateLimiter n) k created) now
        = 1 := by
      rw [refill_new_client _ k created now rfl (by rw [hR]; norm_num) hclock, hC]
    have h1 : ((NewRateLimiter n).RateLimit k created now).1 = true :=
      RateLimit_new_client_allowed _ k created now rfl (by rw [hR]; norm_num)
        (by rw [hC]) hclock
    have h2 := RateLimit_twice_denied (NewRateLimiter n) k created created2 now
      (by rw [hfull]; norm_num)
    simp [run, call, h1, h2]

/-- Witness for C7: `NewRateLimiter(-5)` allows the first call of `clientY` and denies
the immediate second one. -/
theorem sanitization_witness :
    (-5 : Int) ≤ 0 ∧
    (run (NewRateLimiter (-5)) [⟨"clientY", 0, 0⟩, ⟨"clientY", 0, 0⟩]).1 = [true, false] :=
  ⟨by decide, (sanitization (-5) (by decide)).2.2.2.2.2 "clientY" 0 0 0 (le_refl _)⟩

/-! ## Independence of clients -/

theorem SameFor.refl (a : String) (rl : RateLimiter) : SameFor a rl rl :=
  ⟨rfl, rfl, rfl⟩

theorem SameFor.lookupOrCreate_eq {a : String} {rl1 rl2 : RateLimiter}
    (h : SameFor a rl1 rl2) (created : Time) :
    lookupOrCreate rl1 a created = lookupOrCreate rl2 a created := by
  obtain ⟨_, hC, hcl⟩ := h
  simp [lookupOrCreate, hC, hcl]

theorem SameFor.refill_eq {a : String} {rl1 rl2 : RateLimiter}
    (h : SameFor a rl1 rl2) (created now : Time) :
    refill rl1 (lookupOrCreate rl1 a created) now
      = refill rl2 (lookupOrCreate rl2 a created) now := by
  rw [h.lookupOrCreate_eq created]
  obtain ⟨hR, hC, _⟩ := h
  simp [refill, refillRaw, hR, hC]

/-- A call for `a` gives the same verdict, and the same bucket for `a`, in two states
that agree on `a`. -/
theorem SameFor.call_self {a : String} {rl1 rl2 : RateLimiter} (h : SameFor a rl1 rl2)
    (c : Call) (hc : c.clientName = a) :
    (call rl1 c).1 = (call rl2 c).1 ∧ SameFor a (call rl1 c).2 (call rl2 c).2 := by
  subst hc
  have hr := h.refill_eq c.created c.now
  refine ⟨?_, ?_, ?_, ?_⟩
  · simp only [call, RateLimit_fst, hr]
  · simp only [call, RateLimit_rate, h.1]
  · simp only [call, RateLimit_bucketSize, h.2.1]
  · simp only [call, RateLimit_clients_self, hr]

/-- A call for another client leaves the state the same as far as `a` is concerned. -/
theorem SameFor.call_other {a : String} {rl1 rl2 : RateLimiter} (h : SameFor a rl1 rl2)
    (c : Call) (hc : c.clientName ≠ a) : SameFor a (call rl1 c).2 rl2 := by
  refine ⟨?_, ?_, ?_⟩
  · simp only [call, RateLimit_rate, h.1]
  · simp only [call, RateLimit_bucketSize, h.2.1]
  · simp only [call]
    rw [RateLimit_clients_other rl1 c.clientName c.created c.now (Ne.symm hc), h.2.2]

theorem verdictsFor_eq_run_callsOf (a : String) (cs : List Call) :
    ∀ rl1 rl2 : RateLimiter, SameFor a rl1 rl2 →
      verdictsFor a rl1 cs = (run rl2 (callsOf a cs)).1 ∧
      SameFor a (run rl1 cs).2 (run rl2 (callsOf a cs)).2 := by
  induction cs with
  | nil => intro rl1 rl2 h; exact ⟨rfl, h⟩
  | cons c cs ih =>
    intro rl1 rl2 h
    by_cases hc : c.clientName = a
    · obtain ⟨hv, hs⟩ := h.call_self c hc
      obtain ⟨ih1, ih2⟩ := ih _ _ hs
      have hf : callsOf a (c :: cs) = c :: callsOf a cs := by
        simp [callsOf, hc]
      rw [hf]
      refine ⟨?_, ?_⟩
      · simp only [verdictsFor, if_pos hc, run, ih1, hv]
      · simpa only [run] using ih2
    · have hs := h.call_other c hc
      obtain ⟨ih1, ih2⟩ := ih _ _ hs
      have hf : callsOf a (c :: cs) = callsOf a cs := by
        simp [callsOf, hc]
      rw [hf]
      refine ⟨?_, ?_⟩
      · simp only [verdictsFor, if_neg hc, ih1]
      · simpa only [run] using ih2

/-- The verdicts for `a` are the verdicts of the whole run at the positions of the
calls for `a`. -/
theorem verdictsFor_eq_filter (a : String) (cs : List Call) :
    ∀ rl : RateLimiter,
      verdictsFor a rl cs
        = ((cs.zip (run rl cs).1).filter (fun p => p.1.clientName = a)).map Prod.snd := by
  induction cs with
  | nil => intro rl; rfl
  | cons c cs ih =>
    intro rl
    by_cases hc : c.clientName = a
    · simp [verdictsFor, run, hc, ih]
    · simp [verdictsFor, run, hc, ih]

/-- C6. Client independence: for every limiter state, every sequence of calls with fixed
clock values and every client `a`, the verdicts returned to the calls for `a` and the
bucket of `a` at the end are the same as when all calls for other clients are deleted
from the sequence (the calls for `a` keeping their clock values). -/
theorem client_independence (rl : RateLimiter) (a : String) (cs : List Call) :
    verdictsFor a rl cs = (run rl (callsOf a cs)).1 ∧
    (run rl cs).2.clients a = (run rl (callsOf a cs)).2.clients a := by
  obtain ⟨h1, h2⟩ := verdictsFor_eq_run_callsOf a cs rl rl (SameFor.refl a rl)
  exact ⟨h1, h2.2.2⟩

/-! ## Runs under a non-decreasing clock -/

theorem now_mem_clockReads (rl : RateLimiter) (c : Call) : c.now ∈ clockReads rl c := by
  unfold clockReads
  cases rl.clients c.clientName <;> simp

/-- Under the invariant the elapsed time a call measures is not negative. -/
theorem WellFormed.lastRefill_le_now {rl : RateLimiter} {c : Call} {cs : List Call}
    (h : WellFormed rl (c :: cs)) :
    (lookupOrCreate rl c.clientName c.created).lastRefillTime ≤ c.now := by
  obtain ⟨_, _, hclock, hb⟩ := h
  cases hk : rl.clients c.clientName with
  | some b =>
    rw [lookupOrCreate_some hk]
    exact (hb _ b hk).2.2 c.now
      (List.mem_append_left _ (now_mem_clockReads rl c))
  | none =>
    rw [lookupOrCreate_none hk]
    have h1 : NonDecreasingClock rl (c :: cs) := hclock
    simp only [NonDecreasingClock, clockTrace, clockReads, hk] at h1
    have h2 := (List.pairwise_append.mp h1).1
    simp only [List.pairwise_cons] at h2
    exact h2.1 c.now (by simp)

/-- Under the invariant the bucket a call works on holds between 0 and `bucketSize`
tokens before the refill. -/
theorem WellFormed.lookup_range {rl : RateLimiter} {cs : List Call} (h : WellFormed rl cs)
    (k : String) (created : Time) :
    0 ≤ (lookupOrCreate rl k created).tokens ∧
      (lookupOrCreate rl k created).tokens ≤ rl.bucketSize := by
  obtain ⟨_, hC, _, hb⟩ := h
  cases hk : rl.clients k with
  | some b => rw [lookupOrCreate_some hk]; exact ⟨(hb _ b hk).1, (hb _ b hk).2.1⟩
  | none => rw [lookupOrCreate_none hk]; exact ⟨hC, le_refl _⟩

/-- Under the invariant the balance after the refill, before the cap, is at least the
balance before it. -/
theorem WellFormed.le_refillRaw {rl : RateLimiter} {c : Call} {cs : List Call}
    (h : WellFormed rl (c :: cs)) :
    (lookupOrCreate rl c.clientName c.created).tokens
      ≤ refillRaw rl (lookupOrCreate rl c.clientName c.created) c.now := by
  have h1 : 0 ≤ seconds (timeSub c.now (lookupOrCreate rl c.clientName c.created).lastRefillTime) :=
    seconds_nonneg (sub_nonneg.mpr h.lastRefill_le_now)
  have h2 := mul_nonneg h1 h.1
  simp only [refillRaw]
  linarith

/-- Under the invariant the balance a call works on is not negative. -/
theorem WellFormed.refill_nonneg {rl : RateLimiter} {c : Call} {cs : List Call}
    (h : WellFormed rl (c :: cs)) :
    0 ≤ refill rl (lookupOrCreate rl c.clientName c.created) c.now := by
  rw [refill_eq_min]
  exact le_min h.2.1 (le_trans (h.lookup_range _ _).1 h.le_refillRaw)

/-- The invariant is preserved by one call. -/
theorem WellFormed.step {rl : RateLimiter} {c : Call} {cs : List Call}
    (h : WellFormed rl (c :: cs)) : WellFormed (call rl c).2 cs := by
  have hnn := h.refill_nonneg
  have hle := refill_le_bucketSize rl (lookupOrCreate rl c.clientName c.created) c.now
  obtain ⟨hR, hC, hclock, hb⟩ := h
  have hsplit : (clockReads rl c ++ clockTrace (call rl c).2 cs).Pairwise (fun a b => a ≤ b) :=
    hclock
  obtain ⟨_, hrest, hcross⟩ := List.pairwise_append.mp hsplit
  refine ⟨by rw [call_rate]; exact hR, by rw [call_bucketSize]; exact hC, hrest, ?_⟩
  intro k b hk
  rw [call_bucketSize]
  by_cases hkc : k = c.clientName
  · subst hkc
    simp only [call, RateLimit_clients_self, Option.some.injEq] at hk
    subst hk
    refine ⟨?_, ?_, ?_⟩
    · by_cases h1 : 1 ≤ refill rl (lookupOrCreate rl c.clientName c.created) c.now
      · simp only [if_pos h1]; linarith
      · simp only [if_neg h1]; exact hnn
    · by_cases h1 : 1 ≤ refill rl (lookupOrCreate rl c.clientName c.created) c.now
      · simp only [if_pos h1]; linarith
      · simp only [if_neg h1]; exact hle
    · intro r hr
      exact hcross c.now (now_mem_clockReads rl c) r hr
  · simp only [call] at hk
    rw [RateLimit_clients_other rl c.clientName c.created c.now hkc] at hk
    obtain ⟨h0, h1, h2⟩ := hb k b hk
    exact ⟨h0, h1, fun r hr => h2 r (List.mem_append_right _ hr)⟩

/-- The invariant holds at construction for every sequence of calls whose clock values
never decrease. -/
theorem WellFormed.init (n : Int) (cs : List Call)
    (h : NonDecreasingClock (NewRateLimiter n) cs) : WellFormed (NewRateLimiter n) cs := by
  refine ⟨?_, ?_, h, ?_⟩
  · rw [NewRateLimiter_rate]; exact le_trans zero_le_one (one_le_max_cast n)
  · rw [NewRateLimiter_bucketSize]; exact le_trans zero_le_one (one_le_max_cast n)
  · intro k b hk
    simp [NewRateLimiter] at hk

/-- The invariant holds in the state a run ends in. -/
theorem WellFormed.run (cs : List Call) :
    ∀ rl : RateLimiter, WellFormed rl cs → WellFormed (run rl cs).2 [] := by
  induction cs with
  | nil => intro rl h; exact h
  | cons c cs ih => intro rl h; exact ih _ h.step

/-- C2. Token range invariant: in every limiter state reached from `NewRateLimiter(N)` by
a sequence of calls whose clock values never decrease, every bucket of the clients map
holds at least 0 and at most `bucketSize` tokens. -/
theorem token_range_invariant (n : Int) (cs : List Call)
    (hclock : NonDecreasingClock (NewRateLimiter n) cs) (k : String) (b : clientData)
    (hb : (run (NewRateLimiter n) cs).2.clients k = some b) :
    0 ≤ b.tokens ∧ b.tokens ≤ (run (NewRateLimiter n) cs).2.bucketSize := by
  have h := WellFormed.run cs _ (WellFormed.init n cs hclock)
  exact ⟨(h.2.2.2 k b hb).1, (h.2.2.2 k b hb).2.1⟩

/-- The first call of client `"a"` on `NewRateLimiter(2)` at clock value 0 leaves the
bucket `(1, 0)`. -/
theorem twoCalls_first_bucket :
    ((NewRateLimiter 2).RateLimit "a" 0 0).2.clients "a"
      = some { tokens := 1, lastRefillTime := 0 } := by
  rw [RateLimit_clients_self]
  norm_num [NewRateLimiter, lookupOrCreate, refill, refillRaw, seconds, timeSub]

/-- Two calls of client `"a"` half a second apart read the clock values 0, 0 and
`5 * 10^8`, which never decrease. -/
theorem twoCalls_clock :
    NonDecreasingClock (NewRateLimiter 2) [⟨"a", 0, 0⟩, ⟨"a", 0, 500000000⟩] := by
  simp only [NonDecreasingClock, clockTrace, clockReads, call, twoCalls_first_bucket]
  simp [NewRateLimiter]

/-- Witness for C2: after two calls of client `"a"` on `NewRateLimiter(2)`, half a second
apart, the bucket holds 1 token, between 0 and the capacity 2. -/
theorem token_range_invariant_witness :
    NonDecreasingClock (NewRateLimiter 2) [⟨"a", 0, 0⟩, ⟨"a", 0, 500000000⟩] ∧
    (run (NewRateLimiter 2) [⟨"a", 0, 0⟩, ⟨"a", 0, 500000000⟩]).2.clients "a"
      = some { tokens := 1, lastRefillTime := 500000000 } ∧
    (0 : ℚ) ≤ 1 ∧
    (1 : ℚ) ≤ (run (NewRateLimiter 2) [⟨"a", 0, 0⟩, ⟨"a", 0, 500000000⟩]).2.bucketSize := by
  have hR : ((NewRateLimiter 2).RateLimit "a" 0 0).2.rate = 2 := by
    rw [RateLimit_rate]; norm_num [NewRateLimiter]
  have hC : ((NewRateLimiter 2).RateLimit "a" 0 0).2.bucketSize = 2 := by
    rw [RateLimit_bucketSize]; norm_num [NewRateLimiter]
  have hb : (run (NewRateLimiter 2) [⟨"a", 0, 0⟩, ⟨"a", 0, 500000000⟩]).2.clients "a"
      = some { tokens := 1, lastRefillTime := 500000000 } := by
    simp only [run, call]
    rw [RateLimit_clients_self, lookupOrCreate_some twoCalls_first_bucket]
    norm_num [refill, refillRaw, seconds, timeSub, hR, hC]
  exact ⟨twoCalls_clock, hb, token_range_invariant 2 _ twoCalls_clock "a" _ hb⟩

/-! ## Elapsed seconds -/

theorem seconds_timeSub_add (a b c : Time) :
    seconds (timeSub a b) + seconds (timeSub b c) = seconds (timeSub a c) := by
  simp only [seconds, timeSub]
  push_cast
  ring

theorem seconds_timeSub_mono {a b c : Time} (h : b ≤ c) :
    seconds (timeSub a c) ≤ seconds (timeSub a b) := by
  have h3 : seconds (timeSub a b) = seconds (timeSub a c) + seconds (timeSub c b) :=
    (seconds_timeSub_add a c b).symm
  have h4 : 0 ≤ seconds (timeSub c b) := seconds_nonneg (sub_nonneg.mpr h)
  linarith

/-! ## Timestamps, frame and parameters -/

theorem run_append (cs1 cs2 : List Call) :
    ∀ rl : RateLimiter, (run rl (cs1 ++ cs2)).2 = (run (run rl cs1).2 cs2).2 := by
  induction cs1 with
  | nil => intro rl; rfl
  | cons c cs1 ih => intro rl; exact ih (call rl c).2

/-- The invariant holds after any prefix of the calls, for the calls that remain. -/
theorem WellFormed.run_prefix (cs1 cs2 : List Call) :
    ∀ rl : RateLimiter,
      WellFormed rl (cs1 ++ cs2) → WellFormed (Ratelimiter.run rl cs1).2 cs2 := by
  induction cs1 with
  | nil => intro rl h; exact h
  | cons c cs1 ih =>
    intro rl h
    have hstep : WellFormed (call rl c).2 (cs1 ++ cs2) := WellFormed.step h
    exact ih _ hstep

/-- Along a run under the invariant a bucket stays in the map and its `lastRefillTime`
does not decrease. -/
theorem WellFormed.lastRefill_mono (cs : List Call) :
    ∀ (rl : RateLimiter) (j : String) (b : clientData), WellFormed rl cs →
      rl.clients j = some b →
      ∃ b2 : clientData, (Ratelimiter.run rl cs).2.clients j = some b2 ∧
        b.lastRefillTime ≤ b2.lastRefillTime := by
  induction cs with
  | nil => intro rl j b _ hb; exact ⟨b, hb, le_refl _⟩
  | cons c cs ih =>
    intro rl j b h hb
    have hstep := h.step
    by_cases hj : j = c.clientName
    · have hle : b.lastRefillTime ≤ c.now :=
        (h.2.2.2 j b hb).2.2 c.now (List.mem_append_left _ (now_mem_clockReads rl c))
      have hself : (call rl c).2.clients j = some
          { tokens :=
              if 1 ≤ refill rl (lookupOrCreate rl c.clientName c.created) c.now
              then refill rl (lookupOrCreate rl c.clientName c.created) c.now - 1
              else refill rl (lookupOrCreate rl c.clientName c.created) c.now,
            lastRefillTime := c.now } := by
        rw [hj]; exact RateLimit_clients_self rl c.clientName c.created c.now
      obtain ⟨b2, hb2, hle2⟩ := ih _ j _ hstep hself
      exact ⟨b2, hb2, le_trans hle hle2⟩
    · have hother : (call rl c).2.clients j = some b := by
        simp only [call]
        rw [RateLimit_clients_other rl c.clientName c.created c.now hj]
        exact hb
      exact ih _ j b hstep hother

/-- C12. Last-refill timestamp: after every `RateLimit(k)` call, allowed or denied, the
bucket of `k` has `lastRefillTime` equal to the clock value the call read for the
refill; hence along every sequence of calls from `NewRateLimiter(N)` whose clock values
never decrease, the `lastRefillTime` of each bucket never decreases. -/
theorem last_refill_timestamp :
    (∀ (rl : RateLimiter) (k : String) (created now : Time),
      ∃ b : clientData, (rl.RateLimit k created now).2.clients k = some b ∧
        b.lastRefillTime = now) ∧
    (∀ (n : Int) (cs1 cs2 : List Call) (j : String) (b : clientData),
      NonDecreasingClock (NewRateLimiter n) (cs1 ++ cs2) →
      (run (NewRateLimiter n) cs1).2.clients j = some b →
      ∃ b2 : clientData, (run (NewRateLimiter n) (cs1 ++ cs2)).2.clients j = some b2 ∧
        b.lastRefillTime ≤ b2.lastRefillTime) := by
  refine ⟨fun rl k created now => ⟨_, RateLimit_clients_self rl k created now, rfl⟩, ?_⟩
  intro n cs1 cs2 j b hclock hb
  have h := WellFormed.run_prefix cs1 cs2 _ (WellFormed.init n _ hclock)
  rw [run_append]
  exact WellFormed.lastRefill_mono cs2 _ j b h hb

/-- Witness for C12: after the first of the two calls of `"a"` on `NewRateLimiter(2)` the
bucket is stamped 0, and after the second, half a second later, its stamp is not
earlier. -/
theorem last_refill_timestamp_witness :
    NonDecreasingClock (NewRateLimiter 2) ([⟨"a", 0, 0⟩] ++ [⟨"a", 0, 500000000⟩]) ∧
    (run (NewRateLimiter 2) [⟨"a", 0, 0⟩]).2.clients "a"
      = some { tokens := 1, lastRefillTime := 0 } ∧
    ∃ b2 : clientData,
      (run (NewRateLimiter 2) ([⟨"a", 0, 0⟩] ++ [⟨"a", 0, 500000000⟩])).2.clients "a"
        = some b2 ∧ (0 : Time) ≤ b2.lastRefillTime :=
  ⟨twoCalls_clock, twoCalls_first_bucket,
   last_refill_timestamp.2 2 [⟨"a", 0, 0⟩] [⟨"a", 0, 500000000⟩] "a"
     { tokens := 1, lastRefillTime := 0 } twoCalls_clock twoCalls_first_bucket⟩

/-- C13. Frame and map growth: a `RateLimit(k)` call leaves the bucket of every other
client unchanged, removes no key from the clients map, adds no key other than `k`, and
when `k` already has a bucket `(T, L)` the new bucket is computed from it: with
`T' = min(C, T + (now - L) * R)` it holds `T' - 1` or `T'` tokens, stamped `now`,
whatever the value `created` of a creation stamp would have been. -/
theorem frame_and_map_growth (rl : RateLimiter) (k : String) (created now : Time) :
    (∀ j : String, j ≠ k → (rl.RateLimit k created now).2.clients j = rl.clients j) ∧
    (∀ j : String, rl.clients j ≠ none → (rl.RateLimit k created now).2.clients j ≠ none) ∧
    (∀ j : String, rl.clients j = none →
      (rl.RateLimit k created now).2.clients j ≠ none → j = k) ∧
    (∀ b : clientData, rl.clients k = some b →
      (rl.RateLimit k created now).2.clients k
        = some { tokens :=
                   if 1 ≤ min rl.bucketSize
                       (b.tokens + ((now - b.lastRefillTime : Int) : ℚ) / 1000000000 * rl.rate)
                   then min rl.bucketSize
                       (b.tokens + ((now - b.lastRefillTime : Int) : ℚ) / 1000000000 * rl.rate) - 1
                   else min rl.bucketSize
                       (b.tokens + ((now - b.lastRefillTime : Int) : ℚ) / 1000000000 * rl.rate),
                 lastRefillTime := now }) := by
  refine ⟨fun j hj => RateLimit_clients_other rl k created now hj, ?_, ?_, ?_⟩
  · intro j hj
    by_cases hjk : j = k
    · subst hjk; rw [RateLimit_clients_self]; simp
    · rw [RateLimit_clients_other rl k created now hjk]; exact hj
  · intro j hnone hsome
    by_contra hjk
    rw [RateLimit_clients_other rl k created now hjk] at hsome
    exact hsome hnone
  · intro b hb
    rw [RateLimit_clients_self, lookupOrCreate_some hb, refill_eq_min]
    simp [refillRaw, seconds, timeSub]

/-- Witness for C13: a call for `"a"` on a state holding the bucket `(0, 0)` for `"a"`,
made 0.4 s later at rate 5, leaves `"b"` without a bucket and `"a"` with 1 token. -/
theorem frame_and_map_growth_witness :
    (oneClient 5 0 0).clients "a" = some { tokens := 0, lastRefillTime := 0 } ∧
    ((oneClient 5 0 0).RateLimit "a" 7 400000000).2.clients "b" = none ∧
    ((oneClient 5 0 0).RateLimit "a" 7 400000000).2.clients "a"
      = some { tokens := 1, lastRefillTime := 400000000 } := by
  have h := frame_and_map_growth (oneClient 5 0 0) "a" 7 400000000
  refine ⟨by simp [oneClient], ?_, ?_⟩
  · rw [h.1 "b" (by decide)]; simp [oneClient]
  · rw [h.2.2.2 { tokens := 0, lastRefillTime := 0 } (by simp [oneClient])]
    norm_num [oneClient]

/-! ## Steady cadence -/

/-- After a call the bucket of its client exists and is stamped with the clock value
the call read for the refill. -/
theorem RateLimit_stamp (rl : RateLimiter) (k : String) (created now : Time) :
    ∃ b : clientData, (rl.RateLimit k created now).2.clients k = some b ∧
      b.lastRefillTime = now :=
  ⟨_, RateLimit_clients_self rl k created now, rfl⟩

/-- Under the invariant, with capacity at least 1 and a positive rate, a client whose
calls keep the cadence of `1 / rate` seconds is never denied. `prev` is the clock value
of the last call for `k`, which is the `lastRefillTime` of its bucket. -/
theorem steady_all_allowed (k : String) (cs : List Call) :
    ∀ (rl : RateLimiter) (prev : Option Time), WellFormed rl cs → 1 ≤ rl.bucketSize →
      0 < rl.rate →
      LastCallAt rl k prev → SteadyCadence k rl.rate prev cs →
      ∀ v ∈ verdictsFor k rl cs, v = true := by
  induction cs with
  | nil => intro rl prev _ _ _ _ _ v hv; simp [verdictsFor] at hv
  | cons c cs ih =>
    intro rl prev h hC hR hlink hcad v hv
    have hstep := h.step
    by_cases hc : c.clientName = k
    · simp only [SteadyCadence, if_pos hc] at hcad
      obtain ⟨hgap, hcad2⟩ := hcad
      have hraw : 1 ≤ refillRaw rl (lookupOrCreate rl c.clientName c.created) c.now := by
        cases prev with
        | none =>
          have hk : rl.clients c.clientName = none := by rw [hc]; exact hlink
          have h1 := h.le_refillRaw
          rw [lookupOrCreate_none hk] at h1 ⊢
          exact le_trans hC h1
        | some p =>
          obtain ⟨b, hb, hL⟩ := hlink
          have hk : rl.clients c.clientName = some b := by rw [hc]; exact hb
          rw [lookupOrCreate_some hk]
          have h0 := (h.2.2.2 k b hb).1
          have hgap2 : 1 / rl.rate ≤ seconds (timeSub c.now b.lastRefillTime) := by
            rw [hL]; exact hgap
          have h2 : 1 ≤ seconds (timeSub c.now b.lastRefillTime) * rl.rate :=
            (div_le_iff₀ hR).mp hgap2
          simp only [refillRaw]
          linarith
      have hallow : (call rl c).1 = true := by
        simp only [call, RateLimit_fst]
        rw [refill_eq_min]
        exact decide_eq_true (le_min hC hraw)
      have hself : LastCallAt (call rl c).2 k (some c.now) := by
        rw [← hc]; exact RateLimit_stamp rl c.clientName c.created c.now
      have hrest := ih (call rl c).2 (some c.now) hstep
        (by rw [call_bucketSize]; exact hC) (by rw [call_rate]; exact hR) hself
        (by rw [call_rate]; exact hcad2)
      simp only [verdictsFor, if_pos hc, List.mem_cons] at hv
      rcases hv with hv | hv
      · rw [hv]; exact hallow
      · exact hrest v hv
    · simp only [SteadyCadence, if_neg hc] at hcad
      have hother : (call rl c).2.clients k = rl.clients k := by
        simp only [call]
        exact RateLimit_clients_other rl c.clientName c.created c.now (Ne.symm hc)
      have hlink2 : LastCallAt (call rl c).2 k prev := by
        cases prev with
        | none => exact hother.trans hlink
        | some p =>
          obtain ⟨b, hb, hL⟩ := hlink
          exact ⟨b, hother.trans hb, hL⟩
      have hrest := ih (call rl c).2 prev hstep
        (by rw [call_bucketSize]; exact hC) (by rw [call_rate]; exact hR) hlink2
        (by rw [call_rate]; exact hcad)
      simp only [verdictsFor, if_neg hc] at hv
      exact hrest v hv

/-- C11. Steady cadence is never denied: for every `N` (`R = max(N, 1)`), every client
`k` and every sequence of calls from `NewRateLimiter(N)` whose clock values never
decrease and in which each call for `k` reads the clock at least `1/R` seconds after
the previous call for `k`, every call for `k` returns true, however long the
sequence. -/
theorem steady_cadence_never_denied (n : Int) (k : String) (cs : List Call)
    (hclock : NonDecreasingClock (NewRateLimiter n) cs)
    (hcad : SteadyCadence k ((max n 1 : Int) : ℚ) none cs) :
    ∀ v ∈ verdictsFor k (NewRateLimiter n) cs, v = true := by
  apply steady_all_allowed k cs (NewRateLimiter n) none (WellFormed.init n cs hclock)
  · rw [NewRateLimiter_bucketSize]; exact one_le_max_cast n
  · rw [NewRateLimiter_rate]; exact lt_of_lt_of_le zero_lt_one (one_le_max_cast n)
  · rfl
  · rw [NewRateLimiter_rate]; exact hcad

/-- Witness for C11: with `N = 2` two calls of `"a"` half a second apart keep the cadence
and are both allowed. -/
theorem steady_cadence_never_denied_witness :
    NonDecreasingClock (NewRateLimiter 2) [⟨"a", 0, 0⟩, ⟨"a", 0, 500000000⟩] ∧
    SteadyCadence "a" ((max 2 1 : Int) : ℚ) none [⟨"a", 0, 0⟩, ⟨"a", 0, 500000000⟩] ∧
    ∀ v ∈ verdictsFor "a" (NewRateLimiter 2) [⟨"a", 0, 0⟩, ⟨"a", 0, 500000000⟩],
      v = true := by
  have hcad : SteadyCadence "a" ((max 2 1 : Int) : ℚ) none
      [⟨"a", 0, 0⟩, ⟨"a", 0, 500000000⟩] := by
    norm_num [SteadyCadence, seconds, timeSub]
  exact ⟨twoCalls_clock, hcad,
    steady_cadence_never_denied 2 "a" _ twoCalls_clock hcad⟩

/-! ## One call in closed form -/

theorem RateLimiter.ext_fields {a b : RateLimiter} (h1 : a.clients = b.clients)
    (h2 : a.rate = b.rate) (h3 : a.bucketSize = b.bucketSize) : a = b := by
  cases a; cases b; simp_all

/-- The result of a call in closed form. -/
theorem RateLimit_eq (rl : RateLimiter) (k : String) (created now : Time) :
    rl.RateLimit k created now
      = (decide (1 ≤ refill rl (lookupOrCreate rl k created) now),
         { clients := setClient rl.clients k
             { tokens := if 1 ≤ refill rl (lookupOrCreate rl k created) now
                         then refill rl (lookupOrCreate rl k created) now - 1
                         else refill rl (lookupOrCreate rl k created) now,
               lastRefillTime := now },
           rate := rl.rate, bucketSize := rl.bucketSize }) := by
  unfold RateLimiter.RateLimit
  by_cases h : 1 ≤ refill rl (lookupOrCreate rl k created) now
  · have h2 : refill rl (lookupOrCreate rl k created) now ≥ 1 := h
    simp only [h2, if_true, h, decide_True]
  · have h2 : ¬ refill rl (lookupOrCreate rl k created) now ≥ 1 := h
    simp only [h2, if_false, h, decide_False]

/-! ## The copy in the root `main.go` -/

theorem mainCopy_NewRateLimiter (n : Int) :
    (Main.NewRateLimiter n).toPkg = NewRateLimiter n := by
  apply RateLimiter.ext_fields
  · funext k; simp [Main.RateLimiter.toPkg, Main.NewRateLimiter, NewRateLimiter]
  · simp [Main.RateLimiter.toPkg, Main.NewRateLimiter, NewRateLimiter]
  · simp [Main.RateLimiter.toPkg, Main.NewRateLimiter, NewRateLimiter]

/-- The balance after refill and cap that `RateLimit` of `main.go` computes, as the
package computes it on the corresponding state. -/
theorem mainCopy_tokens (rl : Main.RateLimiter) (k : String) (created now : Time) :
    refill rl.toPkg (lookupOrCreate rl.toPkg k created) now
      = (if (match rl.clients k with
              | some client => client
              | none => { tokens := rl.bucketSize, lastRefillTime := created }).tokens
            + seconds (timeSub now
                (match rl.clients k with
                  | some client => client
                  | none => ({ tokens := rl.bucketSize, lastRefillTime := created }
                              : Main.clientData)).lastRefillTime) * rl.rate
            > rl.bucketSize
         then rl.bucketSize
         else (match rl.clients k with
              | some client => client
              | none => { tokens := rl.bucketSize, lastRefillTime := created }).tokens
            + seconds (timeSub now
                (match rl.clients k with
                  | some client => client
                  | none => ({ tokens := rl.bucketSize, lastRefillTime := created }
                              : Main.clientData)).lastRefillTime) * rl.rate) := by
  cases h : rl.clients k with
  | none => simp [refill, refillRaw, lookupOrCreate, Main.RateLimiter.toPkg, h]
  | some b =>
    simp [refill, refillRaw, lookupOrCreate, Main.RateLimiter.toPkg, h,
      Main.clientData.toPkg]

/-- One call of `main.go` corresponds to one call of the package. -/
theorem mainCopy_RateLimit (rl : Main.RateLimiter) (k : String) (created now : Time) :
    (rl.RateLimit k created now).1 = (rl.toPkg.RateLimit k created now).1 ∧
    (rl.RateLimit k created now).2.toPkg = (rl.toPkg.RateLimit k created now).2 := by
  have ht := mainCopy_tokens rl k created now
  rw [RateLimit_eq]
  unfold Main.RateLimiter.RateLimit
  simp only [] at ht ⊢
  rw [← ht]
  by_cases h1 : 1 ≤ refill rl.toPkg (lookupOrCreate rl.toPkg k created) now
  · have h2 : refill rl.toPkg (lookupOrCreate rl.toPkg k created) now ≥ 1 := h1
    rw [if_pos h2, if_pos h1]
    refine ⟨by simp [h1], ?_⟩
    apply RateLimiter.ext_fields
    · funext j
      by_cases hj : j = k <;>
        simp [Main.RateLimiter.toPkg, setClient, hj, Main.clientData.toPkg]
    · rfl
    · rfl
  · have h2 : ¬ refill rl.toPkg (lookupOrCreate rl.toPkg k created) now ≥ 1 := h1
    rw [if_neg h2, if_neg h1]
    refine ⟨by simp [h1], ?_⟩
    apply RateLimiter.ext_fields
    · funext j
      by_cases hj : j = k <;>
        simp [Main.RateLimiter.toPkg, setClient, hj, Main.clientData.toPkg]
    · rfl
    · rfl

/-- Runs of `main.go` and of the package from corresponding states return the same
verdicts and end in corresponding states. -/
theorem mainCopy_run (cs : List Call) :
    ∀ rl : Main.RateLimiter,
      (Main.run rl cs).1 = (run rl.toPkg cs).1 ∧
      (Main.run rl cs).2.toPkg = (run rl.toPkg cs).2 := by
  induction cs with
  | nil => intro rl; exact ⟨rfl, rfl⟩
  | cons c cs ih =>
    intro rl
    obtain ⟨hv, hs⟩ := mainCopy_RateLimit rl c.clientName c.created c.now
    obtain ⟨ih1, ih2⟩ := ih (rl.RateLimit c.clientName c.created c.now).2
    rw [hs] at ih1 ih2
    exact ⟨by simp only [Main.run, run, call, hv, ih1], by simp only [Main.run, run, call, ih2]⟩

/-- C18. The two copies agree: `NewRateLimiter` and `RateLimit` of the root `main.go`
compute, for every `N`, every sequence of calls and all clock values, the same limiter
states and the same verdicts as `NewRateLimiter` and `RateLimit` of package
`internal/ratelimiter`. -/
theorem main_copy_agrees :
    (∀ n : Int, (Main.NewRateLimiter n).toPkg = NewRateLimiter n) ∧
    (∀ (rl : Main.RateLimiter) (k : String) (created now : Time),
      (rl.RateLimit k created now).1 = (rl.toPkg.RateLimit k created now).1 ∧
      (rl.RateLimit k created now).2.toPkg = (rl.toPkg.RateLimit k created now).2) ∧
    (∀ (n : Int) (cs : List Call),
      (Main.run (Main.NewRateLimiter n) cs).1 = (run (NewRateLimiter n) cs).1 ∧
      (Main.run (Main.NewRateLimiter n) cs).2.toPkg = (run (NewRateLimiter n) cs).2) := by
  refine ⟨mainCopy_NewRateLimiter, mainCopy_RateLimit, ?_⟩
  intro n cs
  have h := mainCopy_run cs (Main.NewRateLimiter n)
  rw [mainCopy_NewRateLimiter] at h
  exact h

/-! ## Rounding to binary64 -/

theorem roundEven_cases (m : ℚ) : roundEven m = ⌊m⌋ ∨ roundEven m = ⌊m⌋ + 1 := by
  unfold roundEven; split_ifs <;> simp

theorem abs_sub_roundEven_le (m : ℚ) : |m - roundEven m| ≤ 1 / 2 := by
  have h0 := Int.floor_le m
  have h1 := Int.lt_floor_add_one m
  unfold roundEven
  split_ifs with a b c
  · rw [abs_le]; constructor <;> linarith
  · rw [abs_le]; push_cast; constructor <;> linarith
  · rw [abs_le]; push_cast at *; constructor <;> linarith
  · rw [abs_le]; push_cast at *; constructor <;> linarith

theorem roundEven_nearest (m : ℚ) (z : ℤ) : |m - roundEven m| ≤ |m - z| := by
  have h := abs_sub_roundEven_le m
  by_cases hz : z ≤ ⌊m⌋
  · have h0 := Int.floor_le m
    have hzq : (z : ℚ) ≤ ⌊m⌋ := by exact_mod_cast hz
    rcases roundEven_cases m with e | e
    · rw [e, abs_of_nonneg (by linarith), abs_of_nonneg (by linarith)]; linarith
    · by_cases hz2 : z = ⌊m⌋
      · -- z = floor; roundEven = floor+1 means frac ≥ 1/2
        have hfr : ¬ (m - ⌊m⌋ < 1 / 2) := by
          intro hlt
          have : roundEven m = ⌊m⌋ := by unfold roundEven; rw [if_pos hlt]
          omega
        rw [hz2, abs_of_nonneg (by linarith : (0:ℚ) ≤ m - ⌊m⌋)]
        rw [e, abs_le]; push_cast; constructor <;> linarith [Int.lt_floor_add_one m]
      · have : z ≤ ⌊m⌋ - 1 := by omega
        have : (z : ℚ) ≤ ⌊m⌋ - 1 := by exact_mod_cast this
        rw [abs_of_nonneg (by linarith : (0:ℚ) ≤ m - z)]
        linarith
  · have hz1 : ⌊m⌋ + 1 ≤ z := by omega
    have hzq : ((⌊m⌋ : ℚ)) + 1 ≤ z := by exact_mod_cast hz1
    have h1 := Int.lt_floor_add_one m
    have h0 := Int.floor_le m
    rcases roundEven_cases m with e | e
    · by_cases hz2 : z = ⌊m⌋ + 1
      · have hfr : ¬ (1 / 2 < m - ⌊m⌋) := by
          intro hlt
          have : roundEven m = ⌊m⌋ + 1 := by
            unfold roundEven; rw [if_neg (by linarith), if_pos hlt]
          omega
        rw [e, hz2, abs_of_nonneg (by linarith : (0:ℚ) ≤ m - ⌊m⌋)]
        push_cast
        rw [abs_of_nonpos (by linarith)]
        linarith
      · have : ⌊m⌋ + 2 ≤ z := by omega
        have : ((⌊m⌋ : ℚ)) + 2 ≤ z := by exact_mod_cast this
        rw [abs_of_nonpos (by linarith : m - (z:ℚ) ≤ 0)]
        linarith
    · rw [e]; push_cast
      rw [abs_of_nonpos (by linarith), abs_of_nonpos (by linarith)]; linarith

theorem roundEven_intCast (z : ℤ) : roundEven (z : ℚ) = z := by
  unfold roundEven; simp

theorem roundEven_eq_of_lt (m : ℚ) (z : ℤ) (h : |m - z| < 1 / 2) : roundEven m = z := by
  have h1 := abs_sub_roundEven_le m
  have h2 : |((roundEven m : ℤ) : ℚ) - z| < 1 := by
    calc |((roundEven m : ℤ) : ℚ) - z| = |(m - z) - (m - roundEven m)| := by ring_nf
      _ ≤ |m - z| + |m - roundEven m| := abs_sub _ _
      _ < 1 := by linarith
  have h3 : |roundEven m - z| < 1 := by exact_mod_cast h2
  have := Int.abs_lt_one_iff.mp h3
  omega

theorem ulp_pos (x : ℚ) : 0 < ulp x := by
  unfold ulp; positivity

theorem ulp_le_abs {x : ℚ} (hx : x ≠ 0) : (2 : ℚ) ^ (52 : ℕ) * ulp x ≤ |x| := by
  have h := Int.zpow_log_le_self (b := 2) (r := |x|) (by norm_num) (abs_pos.mpr hx)
  have e : (2 : ℚ) ^ (52 : ℕ) * ulp x = (2 : ℚ) ^ Int.log 2 |x| := by
    unfold ulp
    rw [← zpow_natCast, ← zpow_add₀ (by norm_num : (2 : ℚ) ≠ 0)]
    congr 1; push_cast; ring
  rw [e]; exact_mod_cast h

theorem abs_lt_ulp (x : ℚ) : |x| < (2 : ℚ) ^ (53 : ℕ) * ulp x := by
  have h := Int.lt_zpow_succ_log_self (b := 2) (by norm_num) (|x|)
  have e : (2 : ℚ) ^ (53 : ℕ) * ulp x = (2 : ℚ) ^ (Int.log 2 |x| + 1) := by
    unfold ulp
    rw [← zpow_natCast, ← zpow_add₀ (by norm_num : (2 : ℚ) ≠ 0)]
    congr 1; push_cast; ring
  rw [e]; exact_mod_cast h

theorem log_eq_of_bounds {x : ℚ} {e : ℤ} (h1 : (2 : ℚ) ^ e ≤ |x|) (h2 : |x| < (2 : ℚ) ^ (e + 1)) :
    Int.log 2 |x| = e := by
  have hpos : 0 < |x| := lt_of_lt_of_le (by positivity) h1
  have a : e ≤ Int.log 2 |x| :=
    (Int.zpow_le_iff_le_log (b := 2) (by norm_num) hpos).mp (by exact_mod_cast h1)
  have b : Int.log 2 |x| < e + 1 :=
    (Int.lt_zpow_iff_log_lt (b := 2) (by norm_num) hpos).mp (by exact_mod_cast h2)
  omega

theorem ulp_eq_of_bounds {x : ℚ} {e : ℤ} (h1 : (2 : ℚ) ^ e ≤ |x|)
    (h2 : |x| < (2 : ℚ) ^ (e + 1)) : ulp x = (2 : ℚ) ^ (e - 52) := by
  unfold ulp; rw [log_eq_of_bounds h1 h2]

theorem fl_zero : fl 0 = 0 := by
  simp [fl, roundEven]

/-- Evaluation of `fl` at a point that is not halfway between two neighbours. -/
theorem fl_eval {x : ℚ} (e n : ℤ) (h1 : (2 : ℚ) ^ e ≤ |x|) (h2 : |x| < (2 : ℚ) ^ (e + 1))
    (h3 : |x / (2 : ℚ) ^ (e - 52) - n| < 1 / 2) : fl x = n * (2 : ℚ) ^ (e - 52) := by
  unfold fl
  rw [ulp_eq_of_bounds h1 h2, roundEven_eq_of_lt _ n h3]

/-- Evaluation of `fl` at a point halfway between two neighbours. -/
theorem fl_eval_tie {x : ℚ} (e n : ℤ) (h1 : (2 : ℚ) ^ e ≤ |x|) (h2 : |x| < (2 : ℚ) ^ (e + 1))
    (h3 : x / (2 : ℚ) ^ (e - 52) = n + 1 / 2) :
    fl x = (if n % 2 = 0 then n else n + 1 : ℤ) * (2 : ℚ) ^ (e - 52) := by
  unfold fl
  rw [ulp_eq_of_bounds h1 h2, h3]
  have hf : ⌊(n : ℚ) + 1 / 2⌋ = n := by
    rw [Int.floor_eq_iff]; constructor <;> norm_num
  congr 2
  unfold roundEven
  rw [hf]
  norm_num

theorem abs_fl_sub_le (x : ℚ) : |fl x - x| ≤ ulp x / 2 := by
  have hq := ulp_pos x
  have h := abs_sub_roundEven_le (x / ulp x)
  have e : fl x - x = -((x / ulp x - roundEven (x / ulp x)) * ulp x) := by
    unfold fl; field_simp; ring
  rw [e, abs_neg, abs_mul, abs_of_pos hq]
  calc |x / ulp x - roundEven (x / ulp x)| * ulp x ≤ 1 / 2 * ulp x :=
        mul_le_mul_of_nonneg_right h (le_of_lt hq)
    _ = ulp x / 2 := by ring

/-- Relative error of one rounding: at most `2^-53`. -/
theorem abs_fl_sub_le_rel (x : ℚ) : |fl x - x| ≤ |x| / (2 : ℚ) ^ (53 : ℕ) := by
  by_cases hx : x = 0
  · subst hx; simp [fl_zero]
  · have h1 := abs_fl_sub_le x
    have h2 := ulp_le_abs hx
    have : ulp x / 2 ≤ |x| / (2 : ℚ) ^ (53 : ℕ) := by
      rw [div_le_div_iff₀ (by norm_num) (by positivity)]
      have : (2 : ℚ) ^ (53 : ℕ) = 2 * (2 : ℚ) ^ (52 : ℕ) := by norm_num
      rw [this]; nlinarith
    linarith

/-- A value `x` whose quotient by its `ulp` is an integer is not changed by rounding. -/
theorem fl_of_int_quot {x : ℚ} (z : ℤ) (h : x = z * ulp x) : fl x = x := by
  have hq := ulp_pos x
  have hz : x / ulp x = z := by
    rw [div_eq_iff (ne_of_gt hq)]; exact h
  unfold fl
  rw [hz, roundEven_intCast]
  exact h.symm

/-- Values `n * 2^k` with `|n| < 2^53` are floats. -/
theorem fl_int_mul_zpow_lt (n k : ℤ) (hn : |n| < 2 ^ (53 : ℕ)) :
    fl (n * (2 : ℚ) ^ k) = n * (2 : ℚ) ^ k := by
  by_cases h0 : n = 0
  · subst h0; simp [fl_zero]
  have hx : (n : ℚ) * (2 : ℚ) ^ k ≠ 0 := by
    have : (n : ℚ) ≠ 0 := by exact_mod_cast h0
    positivity
  have hlo := ulp_le_abs hx
  -- the exponent of `x` is at most `k + 52`
  have hnq : |(n : ℚ)| < (2 : ℚ) ^ (53 : ℕ) := by exact_mod_cast hn
  have habs : |(n : ℚ) * (2 : ℚ) ^ k| = |(n : ℚ)| * (2 : ℚ) ^ k := by
    rw [abs_mul, abs_of_pos (by positivity : (0 : ℚ) < (2 : ℚ) ^ k)]
  have hlog : Int.log 2 |(n : ℚ) * (2 : ℚ) ^ k| < k + 53 := by
    apply (Int.lt_zpow_iff_log_lt (b := 2) (by norm_num) (abs_pos.mpr hx)).mp
    rw [habs]
    have : ((2 : ℕ) : ℚ) ^ (k + 53) = (2 : ℚ) ^ (53 : ℕ) * (2 : ℚ) ^ k := by
      rw [zpow_add₀ (by norm_num), mul_comm]; norm_num
    rw [this]
    exact mul_lt_mul_of_pos_right hnq (by positivity)
  obtain ⟨j, hj⟩ : ∃ j : ℕ, k - (Int.log 2 |(n : ℚ) * (2 : ℚ) ^ k| - 52) = j :=
    ⟨(k - (Int.log 2 |(n : ℚ) * (2 : ℚ) ^ k| - 52)).toNat, by omega⟩
  apply fl_of_int_quot (n * 2 ^ j)
  unfold ulp
  push_cast
  rw [mul_assoc, ← zpow_natCast, ← zpow_add₀ (by norm_num : (2 : ℚ) ≠ 0)]
  congr 2
  omega

/-- Values `n * 2^k` with `|n| ≤ 2^53` are floats. -/
theorem fl_int_mul_zpow (n k : ℤ) (hn : |n| ≤ 2 ^ (53 : ℕ)) :
    fl (n * (2 : ℚ) ^ k) = n * (2 : ℚ) ^ k := by
  rcases lt_or_eq_of_le hn with h | h
  · exact fl_int_mul_zpow_lt n k h
  · -- `n = ± 2^53`, written as `± 2^52 * 2^(k+1)`
    have hdiv : n = (n / 2) * 2 := by
      rcases abs_cases n with ⟨e, _⟩ | ⟨e, _⟩ <;> omega
    have e2 : (n : ℚ) * (2 : ℚ) ^ k = ((n / 2 : ℤ) : ℚ) * (2 : ℚ) ^ (k + 1) := by
      rw [zpow_add₀ (by norm_num : (2 : ℚ) ≠ 0)]
      have : (n : ℚ) = ((n / 2 : ℤ) : ℚ) * 2 := by exact_mod_cast hdiv
      rw [zpow_one]
      calc (n : ℚ) * (2 : ℚ) ^ k = (((n / 2 : ℤ) : ℚ) * 2) * (2 : ℚ) ^ k := by rw [← this]
        _ = ((n / 2 : ℤ) : ℚ) * ((2 : ℚ) ^ k * 2) := by ring
    rw [e2]
    apply fl_int_mul_zpow_lt
    rcases abs_cases n with ⟨e, _⟩ | ⟨e, _⟩ <;>
      rcases abs_cases (n / 2) with ⟨e', _⟩ | ⟨e', _⟩ <;> omega

theorem fl_intCast (n : ℤ) (hn : |n| ≤ 2 ^ (53 : ℕ)) : fl (n : ℚ) = n := by
  have := fl_int_mul_zpow n 0 hn
  simpa using this

theorem fl_natCast (n : ℕ) (hn : n ≤ 2 ^ (53 : ℕ)) : fl (n : ℚ) = n := by
  have := fl_intCast (n : ℤ) (by rw [abs_of_nonneg (by positivity)]; exact_mod_cast hn)
  simpa using this

theorem fl_one : fl 1 = 1 := by
  have := fl_natCast 1 (by norm_num)
  simpa using this

theorem abs_roundEven_le {m : ℚ} {B : ℤ} (h : |m| < B) : |roundEven m| ≤ B := by
  have h0 := Int.floor_le m
  have h1 := Int.lt_floor_add_one m
  obtain ⟨hl, hu⟩ := abs_lt.mp h
  have a : ⌊m⌋ < B := by
    have : ((⌊m⌋ : ℤ) : ℚ) < B := lt_of_le_of_lt h0 hu
    exact_mod_cast this
  have b : -B ≤ ⌊m⌋ := by
    have : ((-B : ℤ) : ℚ) ≤ m := by push_cast; linarith
    exact Int.le_floor.mpr this
  rw [abs_le]
  rcases roundEven_cases m with e | e <;> rw [e] <;> constructor <;> omega

/-- The result of a rounding is a float. -/
theorem fl_isFloat (x : ℚ) : IsFloat (fl x) := by
  have hm : |x / ulp x| < ((2 ^ (53 : ℕ) : ℤ) : ℚ) := by
    rw [abs_div, abs_of_pos (ulp_pos x), div_lt_iff₀ (ulp_pos x)]
    have := abs_lt_ulp x
    push_cast; exact this
  have hN := abs_roundEven_le hm
  unfold IsFloat
  have e : fl x = (roundEven (x / ulp x) : ℚ) * (2 : ℚ) ^ (Int.log 2 |x| - 52) := rfl
  rw [e]
  exact fl_int_mul_zpow _ _ hN

theorem IsFloat.zero : IsFloat 0 := fl_zero

theorem IsFloat.one : IsFloat 1 := fl_one

/-- Rounding returns a float nearest to its argument. -/
theorem fl_nearest (x r : ℚ) (hr : IsFloat r) : |fl x - x| ≤ |r - x| := by
  by_cases hx : x = 0
  · subst hx; rw [fl_zero]; simp
  have hq := ulp_pos x
  have hlo := ulp_le_abs hx
  -- distances measured in units of `ulp x`
  have key : ∀ z : ℤ, |fl x - x| ≤ |(z : ℚ) * ulp x - x| := by
    intro z
    have h := roundEven_nearest (x / ulp x) z
    have e1 : fl x - x = -((x / ulp x - roundEven (x / ulp x)) * ulp x) := by
      unfold fl; field_simp; ring
    have e2 : (z : ℚ) * ulp x - x = -((x / ulp x - z) * ulp x) := by
      field_simp; ring
    rw [e1, e2, abs_neg, abs_neg, abs_mul, abs_mul, abs_of_pos hq]
    exact mul_le_mul_of_nonneg_right h (le_of_lt hq)
  by_cases hsmall : |r| ≤ (2 : ℚ) ^ (52 : ℕ) * ulp x
  · -- `r` lies below the binade of `x`: the power of two in between is nearer
    have h1 : |x| - (2 : ℚ) ^ (52 : ℕ) * ulp x ≤ |r - x| := by
      have := abs_sub_abs_le_abs_sub x r
      rw [abs_sub_comm r x]; linarith
    rcases abs_cases x with ⟨e, hpos⟩ | ⟨e, hneg⟩
    · have h2 := key (2 ^ (52 : ℕ))
      have h3 : |(((2 ^ (52 : ℕ) : ℤ)) : ℚ) * ulp x - x| = |x| - (2 : ℚ) ^ (52 : ℕ) * ulp x := by
        push_cast
        rw [e, abs_of_nonpos (by rw [e] at hlo; linarith)]; ring
      linarith
    · have h2 := key (-(2 ^ (52 : ℕ)))
      have h3 : |(((-(2 ^ (52 : ℕ)) : ℤ)) : ℚ) * ulp x - x|
          = |x| - (2 : ℚ) ^ (52 : ℕ) * ulp x := by
        push_cast
        rw [e, abs_of_nonneg (by rw [e] at hlo; linarith)]; ring
      linarith
  · -- `r` lies in the binade of `x` or above: it is a multiple of `ulp x`
    push_neg at hsmall
    have hr0 : 0 < |r| := lt_trans (by positivity) hsmall
    have hle : Int.log 2 |x| ≤ Int.log 2 |r| := by
      apply (Int.zpow_le_iff_le_log (b := 2) (by norm_num) hr0).mp
      have e : ((2 : ℕ) : ℚ) ^ Int.log 2 |x| = (2 : ℚ) ^ (52 : ℕ) * ulp x := by
        unfold ulp
        rw [← zpow_natCast, ← zpow_add₀ (by norm_num : (2 : ℚ) ≠ 0)]
        norm_num
      rw [e]; exact le_of_lt hsmall
    obtain ⟨j, hj⟩ : ∃ j : ℕ, Int.log 2 |r| - Int.log 2 |x| = j :=
      ⟨(Int.log 2 |r| - Int.log 2 |x|).toNat, by omega⟩
    have hur : ulp r = (2 : ℚ) ^ j * ulp x := by
      unfold ulp
      rw [← zpow_natCast, ← zpow_add₀ (by norm_num : (2 : ℚ) ≠ 0)]
      congr 1; omega
    have hrz : r = ((roundEven (r / ulp r) * 2 ^ j : ℤ) : ℚ) * ulp x := by
      have h0 : r = (roundEven (r / ulp r) : ℚ) * ulp r := hr.symm
      rw [hur] at h0
      push_cast
      rw [mul_assoc]
      rw [hur]
      exact h0
    have := key (roundEven (r / ulp r) * 2 ^ j)
    rw [← hrz] at this
    exact this

/-- Rounding does not cross a float from above. -/
theorem le_fl_of_float_le {x r : ℚ} (hr : IsFloat r) (h : r ≤ x) : r ≤ fl x := by
  by_contra hlt
  push_neg at hlt
  have hn := fl_nearest x r hr
  rw [abs_of_neg (by linarith), abs_of_nonpos (by linarith)] at hn
  linarith

/-- Rounding does not cross a float from below. -/
theorem fl_le_of_le_float {x r : ℚ} (hr : IsFloat r) (h : x ≤ r) : fl x ≤ r := by
  by_contra hlt
  push_neg at hlt
  have hn := fl_nearest x r hr
  rw [abs_of_pos (by linarith), abs_of_nonneg (by linarith)] at hn
  linarith

/-- Rounding is monotone. -/
theorem fl_mono {x y : ℚ} (h : x ≤ y) : fl x ≤ fl y := by
  by_cases h1 : fl x ≤ y
  · exact le_fl_of_float_le (fl_isFloat x) h1
  · push_neg at h1
    -- `x ≤ y < fl x`
    by_contra hlt
    push_neg at hlt
    by_cases h2 : x < fl y
    · have := fl_le_of_le_float (fl_isFloat y) (le_of_lt h2)
      linarith
    · push_neg at h2
      have hy := fl_nearest y (fl x) (fl_isFloat x)
      have hx := fl_nearest x (fl y) (fl_isFloat y)
      have hyx : fl y ≤ y := le_trans h2 h
      rw [abs_of_nonpos (by linarith), abs_of_pos (by linarith)] at hy
      rw [abs_of_pos (by linarith), abs_of_nonpos (by linarith)] at hx
      have hxy : x = y := by linarith
      subst hxy
      exact lt_irrefl _ hlt

theorem fl_nonneg {x : ℚ} (h : 0 ≤ x) : 0 ≤ fl x :=
  le_fl_of_float_le IsFloat.zero h

theorem fl_le_mul {x : ℚ} (h : 0 ≤ x) : fl x ≤ x * (1 + 1 / (2 : ℚ) ^ (53 : ℕ)) := by
  have h1 := abs_fl_sub_le_rel x
  rw [abs_of_nonneg h] at h1
  have := (abs_le.mp h1).2
  have e : x * (1 + 1 / (2 : ℚ) ^ (53 : ℕ)) = x + x / (2 : ℚ) ^ (53 : ℕ) := by ring
  rw [e]; linarith

theorem mul_le_fl {x : ℚ} (h : 0 ≤ x) : x * (1 - 1 / (2 : ℚ) ^ (53 : ℕ)) ≤ fl x := by
  have h1 := abs_fl_sub_le_rel x
  rw [abs_of_nonneg h] at h1
  have := (abs_le.mp h1).1
  have e : x * (1 - 1 / (2 : ℚ) ^ (53 : ℕ)) = x - x / (2 : ℚ) ^ (53 : ℕ) := by ring
  rw [e]; linarith

/-- Taking one from a float between 1 and `2^53` is exact. -/
theorem IsFloat.sub_one {x : ℚ} (hx : IsFloat x) (h1 : 1 ≤ x) (h2 : x ≤ (2 : ℚ) ^ (53 : ℕ)) :
    IsFloat (x - 1) := by
  have hx0 : x ≠ 0 := by linarith
  have hpos : 0 < |x| := abs_pos.mpr hx0
  have habs : |x| = x := abs_of_pos (by linarith)
  have hlog0 : 0 ≤ Int.log 2 |x| := by
    apply (Int.zpow_le_iff_le_log (b := 2) (by norm_num) hpos).mp
    rw [habs]; simpa using h1
  rcases lt_or_eq_of_le h2 with hlt | heq
  · have hlog : Int.log 2 |x| < 53 := by
      apply (Int.lt_zpow_iff_log_lt (b := 2) (by norm_num) hpos).mp
      rw [habs]; exact_mod_cast hlt
    obtain ⟨j, hj⟩ : ∃ j : ℕ, 52 - Int.log 2 |x| = j :=
      ⟨(52 - Int.log 2 |x|).toNat, by omega⟩
    have hj52 : j ≤ 52 := by omega
    have hu : ulp x = (2 : ℚ) ^ (-(j : ℤ)) := by
      unfold ulp; congr 1; omega
    have hN : x = (roundEven (x / ulp x) : ℚ) * ulp x := hx.symm
    have hm : |x / ulp x| < ((2 ^ (53 : ℕ) : ℤ) : ℚ) := by
      rw [abs_div, abs_of_pos (ulp_pos x), div_lt_iff₀ (ulp_pos x)]
      have := abs_lt_ulp x
      push_cast; exact this
    have hNb := abs_roundEven_le hm
    have hNpos : 0 < roundEven (x / ulp x) := by
      have hprod : (0 : ℚ) < (roundEven (x / ulp x) : ℚ) * ulp x := by rw [← hN]; linarith
      have : (0 : ℚ) < (roundEven (x / ulp x) : ℚ) := by
        by_contra hn
        push_neg at hn
        have := mul_nonpos_of_nonpos_of_nonneg hn (le_of_lt (ulp_pos x))
        linarith
      exact_mod_cast this
    have e : x - 1 = ((roundEven (x / ulp x) - 2 ^ j : ℤ) : ℚ) * (2 : ℚ) ^ (-(j : ℤ)) := by
      push_cast
      rw [sub_mul, ← hu, ← hN, hu, zpow_neg, zpow_natCast]
      field_simp
    unfold IsFloat
    rw [e]
    apply fl_int_mul_zpow
    have hp : (2 : ℤ) ^ j ≤ 2 ^ (52 : ℕ) := pow_le_pow_right₀ (by norm_num) hj52
    have hp0 : (0 : ℤ) < 2 ^ j := by positivity
    rw [abs_le] at hNb ⊢
    constructor <;> omega
  · have e : x - 1 = ((9007199254740991 : ℤ) : ℚ) := by rw [heq]; norm_num
    unfold IsFloat
    rw [e]
    exact fl_intCast _ (by norm_num)

/-! ## One call in binary64 -/

theorem f64_refill_eq_min (rl : RateLimiter) (client : clientData) (now : Time) :
    F64.refill rl client now = min rl.bucketSize (F64.refillRaw rl client now) := by
  unfold F64.refill
  by_cases h : F64.refillRaw rl client now > rl.bucketSize
  · simp [h, le_of_lt h]
  · simp [h, not_lt.mp h]

theorem f64_refill_le_bucketSize (rl : RateLimiter) (client : clientData) (now : Time) :
    F64.refill rl client now ≤ rl.bucketSize := by
  rw [f64_refill_eq_min]; exact min_le_left _ _

/-- The result of a `float64` call in closed form. -/
theorem f64_RateLimit_eq (rl : RateLimiter) (k : String) (created now : Time) :
    F64.RateLimit rl k created now
      = (decide (1 ≤ F64.refill rl (lookupOrCreate rl k created) now),
         { clients := setClient rl.clients k
             { tokens := if 1 ≤ F64.refill rl (lookupOrCreate rl k created) now
                         then fl (F64.refill rl (lookupOrCreate rl k created) now - 1)
                         else F64.refill rl (lookupOrCreate rl k created) now,
               lastRefillTime := now },
           rate := rl.rate, bucketSize := rl.bucketSize }) := by
  unfold F64.RateLimit
  by_cases h : 1 ≤ F64.refill rl (lookupOrCreate rl k created) now
  · have h2 : F64.refill rl (lookupOrCreate rl k created) now ≥ 1 := h
    simp only [h2, if_true, h, decide_True]
  · have h2 : ¬ F64.refill rl (lookupOrCreate rl k created) now ≥ 1 := h
    simp only [h2, if_false, h, decide_False]

theorem f64_verdict (rl : RateLimiter) (k : String) (created now : Time) :
    (F64.RateLimit rl k created now).1
      = decide (1 ≤ F64.refill rl (lookupOrCreate rl k created) now) := by
  rw [f64_RateLimit_eq]

theorem f64_rate (rl : RateLimiter) (k : String) (created now : Time) :
    (F64.RateLimit rl k created now).2.rate = rl.rate := by
  rw [f64_RateLimit_eq]

theorem f64_bucketSize (rl : RateLimiter) (k : String) (created now : Time) :
    (F64.RateLimit rl k created now).2.bucketSize = rl.bucketSize := by
  rw [f64_RateLimit_eq]

theorem f64_clients_self (rl : RateLimiter) (k : String) (created now : Time) :
    (F64.RateLimit rl k created now).2.clients k
      = some { tokens :=
                 if 1 ≤ F64.refill rl (lookupOrCreate rl k created) now
                 then fl (F64.refill rl (lookupOrCreate rl k created) now - 1)
                 else F64.refill rl (lookupOrCreate rl k created) now,
               lastRefillTime := now } := by
  rw [f64_RateLimit_eq]
  simp [setClient]

theorem f64_clients_other (rl : RateLimiter) (k : String) (created now : Time)
    {j : String} (hj : j ≠ k) :
    (F64.RateLimit rl k created now).2.clients j = rl.clients j := by
  rw [f64_RateLimit_eq]
  simp [setClient, hj]

theorem f64_call_rate (rl : RateLimiter) (c : Call) : (F64.call rl c).2.rate = rl.rate :=
  f64_rate rl c.clientName c.created c.now

theorem f64_call_bucketSize (rl : RateLimiter) (c : Call) :
    (F64.call rl c).2.bucketSize = rl.bucketSize :=
  f64_bucketSize rl c.clientName c.created c.now

theorem f64_run_rate (rl : RateLimiter) (cs : List Call) :
    (F64.run rl cs).2.rate = rl.rate := by
  induction cs generalizing rl with
  | nil => rfl
  | cons c cs ih => simp [F64.run, ih, f64_call_rate]

theorem f64_run_bucketSize (rl : RateLimiter) (cs : List Call) :
    (F64.run rl cs).2.bucketSize = rl.bucketSize := by
  induction cs generalizing rl with
  | nil => rfl
  | cons c cs ih => simp [F64.run, ih, f64_call_bucketSize]

theorem f64_New_rate (n : Int) :
    (F64.NewRateLimiter n).rate = fl ((max n 1 : Int) : ℚ) := by
  unfold F64.NewRateLimiter
  by_cases h : n ≤ 0
  · have : max n 1 = 1 := max_eq_right (by omega)
    simp [h, this]
  · have : max n 1 = n := max_eq_left (by omega)
    simp [h, this]

theorem f64_New_bucketSize (n : Int) :
    (F64.NewRateLimiter n).bucketSize = fl ((max n 1 : Int) : ℚ) := by
  unfold F64.NewRateLimiter
  by_cases h : n ≤ 0
  · have : max n 1 = 1 := max_eq_right (by omega)
    simp [h, this]
  · have : max n 1 = n := max_eq_left (by omega)
    simp [h, this]

theorem one_le_fl_max (n : Int) : 1 ≤ fl ((max n 1 : Int) : ℚ) :=
  le_fl_of_float_le IsFloat.one (one_le_max_cast n)

theorem f64_reachable_rate {n : Int} {rl : RateLimiter} (h : F64.Reachable n rl) :
    rl.rate = fl ((max n 1 : Int) : ℚ) := by
  obtain ⟨cs, rfl⟩ := h
  rw [f64_run_rate, f64_New_rate]

theorem f64_reachable_bucketSize {n : Int} {rl : RateLimiter} (h : F64.Reachable n rl) :
    rl.bucketSize = fl ((max n 1 : Int) : ℚ) := by
  obtain ⟨cs, rfl⟩ := h
  rw [f64_run_bucketSize, f64_New_bucketSize]

/-- Counterexample to C14 as stated. `NewRateLimiter(2^53 + 1)` has rate and capacity
`float64(2^53 + 1) = 2^53`, not `max(N, 1) = 2^53 + 1`. -/
theorem rate_capacity_counterexample :
    (F64.NewRateLimiter 9007199254740993).rate = 9007199254740992 ∧
    (F64.NewRateLimiter 9007199254740993).bucketSize = 9007199254740992 ∧
    (9007199254740992 : ℚ) ≠ ((max 9007199254740993 1 : Int) : ℚ) := by
  have h : fl (9007199254740993 : ℚ) = 9007199254740992 := by
    rw [fl_eval_tie 53 4503599627370496 (by norm_num) (by norm_num) (by norm_num)]
    norm_num
  refine ⟨?_, ?_, by norm_num⟩
  · rw [f64_New_rate]; norm_num [h]
  · rw [f64_New_bucketSize]; norm_num [h]

/-- C14 (amended). Rate equals capacity: `NewRateLimiter(N)` yields
`rate = bucketSize = float64(max(N, 1))`, which is at least 1 and equals `max(N, 1)`
whenever `max(N, 1) ≤ 2^53`; no `RateLimit` call changes `rate` or `bucketSize`; so in
every state reachable from `NewRateLimiter(N)`, `rate = bucketSize ≥ 1`. -/
theorem rate_equals_capacity_float :
    (∀ n : Int, (F64.NewRateLimiter n).rate = fl ((max n 1 : Int) : ℚ) ∧
      (F64.NewRateLimiter n).bucketSize = fl ((max n 1 : Int) : ℚ) ∧
      1 ≤ fl ((max n 1 : Int) : ℚ)) ∧
    (∀ n : Int, max n 1 ≤ 2 ^ (53 : ℕ) → fl ((max n 1 : Int) : ℚ) = ((max n 1 : Int) : ℚ)) ∧
    (∀ (rl : RateLimiter) (k : String) (created now : Time),
      (F64.RateLimit rl k created now).2.rate = rl.rate ∧
      (F64.RateLimit rl k created now).2.bucketSize = rl.bucketSize) ∧
    (∀ (n : Int) (rl : RateLimiter), F64.Reachable n rl →
      rl.rate = rl.bucketSize ∧ 1 ≤ rl.rate) := by
  refine ⟨fun n => ⟨f64_New_rate n, f64_New_bucketSize n, one_le_fl_max n⟩, ?_,
    fun rl k created now => ⟨f64_rate rl k created now, f64_bucketSize rl k created now⟩, ?_⟩
  · intro n hn
    apply fl_intCast
    rw [abs_of_nonneg (le_trans zero_le_one (le_max_right n 1))]
    exact hn
  · intro n rl h
    refine ⟨by rw [f64_reachable_rate h, f64_reachable_bucketSize h], ?_⟩
    rw [f64_reachable_rate h]; exact one_le_fl_max n

/-- Witness for the amended C14: the state after one call on `NewRateLimiter(-5)` is
reachable and has equal rate and capacity, at least 1; and `float64(3) = 3`. -/
theorem rate_equals_capacity_float_witness :
    F64.Reachable (-5) (F64.run (F64.NewRateLimiter (-5)) [⟨"clientY", 0, 0⟩]).2 ∧
    max (3 : Int) 1 ≤ 2 ^ (53 : ℕ) ∧
    fl ((max 3 1 : Int) : ℚ) = ((max 3 1 : Int) : ℚ) ∧
    (F64.run (F64.NewRateLimiter (-5)) [⟨"clientY", 0, 0⟩]).2.rate
      = (F64.run (F64.NewRateLimiter (-5)) [⟨"clientY", 0, 0⟩]).2.bucketSize ∧
    (1 : ℚ) ≤ (F64.run (F64.NewRateLimiter (-5)) [⟨"clientY", 0, 0⟩]).2.rate :=
  ⟨⟨_, rfl⟩, by decide, rate_equals_capacity_float.2.1 3 (by decide),
   rate_equals_capacity_float.2.2.2 (-5) _ ⟨_, rfl⟩⟩

/-! ## Bursts at one instant in binary64 -/

theorem f64_seconds_zero : F64.seconds 0 = 0 := by
  simp [F64.seconds, fl_zero]

theorem f64_isFloat_refillRaw (rl : RateLimiter) (client : clientData) (now : Time) :
    IsFloat (F64.refillRaw rl client now) :=
  fl_isFloat _

theorem f64_isFloat_refill (rl : RateLimiter) (client : clientData) (now : Time)
    (hC : IsFloat rl.bucketSize) : IsFloat (F64.refill rl client now) := by
  rw [f64_refill_eq_min]
  rcases le_total rl.bucketSize (F64.refillRaw rl client now) with h | h
  · rw [min_eq_left h]; exact hC
  · rw [min_eq_right h]; exact f64_isFloat_refillRaw rl client now

/-- With zero elapsed time a float balance is not changed by the refill. -/
theorem f64_refillRaw_same_instant (rl : RateLimiter) (T : ℚ) (now : Time) (hT : IsFloat T) :
    F64.refillRaw rl { tokens := T, lastRefillTime := now } now = T := by
  simp only [F64.refillRaw, timeSub, sub_self, f64_seconds_zero, zero_mul, fl_zero, add_zero]
  exact hT

/-- The balance an allowed or denied call leaves, as a function of the balance `X` it
worked on. -/
theorem f64_left_balance (rl : RateLimiter) (k : String) (created created2 now : Time)
    (hC : IsFloat rl.bucketSize) :
    F64.refill (F64.RateLimit rl k created now).2
        (lookupOrCreate (F64.RateLimit rl k created now).2 k created2) now
      = if 1 ≤ F64.refill rl (lookupOrCreate rl k created) now
        then fl (F64.refill rl (lookupOrCreate rl k created) now - 1)
        else F64.refill rl (lookupOrCreate rl k created) now := by
  have hX := f64_isFloat_refill rl (lookupOrCreate rl k created) now hC
  have hle := f64_refill_le_bucketSize rl (lookupOrCreate rl k created) now
  rw [lookupOrCreate_some (f64_clients_self rl k created now), f64_refill_eq_min,
    f64_bucketSize]
  by_cases h1 : 1 ≤ F64.refill rl (lookupOrCreate rl k created) now
  · simp only [if_pos h1]
    rw [f64_refillRaw_same_instant _ _ _ (fl_isFloat _)]
    apply min_eq_right
    exact fl_le_of_le_float hC (by linarith)
  · simp only [if_neg h1]
    rw [f64_refillRaw_same_instant _ _ _ hX]
    exact min_eq_right hle

/-- Calls for one client that all read the same clock value are all allowed as long as
the balance the first of them works on covers them; each takes exactly one token. -/
theorem f64_burst_allowed (k : String) (created now : Time) (j : Nat) :
    ∀ rl : RateLimiter, IsFloat rl.bucketSize → rl.bucketSize ≤ (2 : ℚ) ^ (53 : ℕ) →
      (j : ℚ) ≤ F64.refill rl (lookupOrCreate rl k created) now →
      (F64.run rl (List.replicate j ⟨k, created, now⟩)).1 = List.replicate j true ∧
      F64.refill (F64.run rl (List.replicate j ⟨k, created, now⟩)).2
          (lookupOrCreate (F64.run rl (List.replicate j ⟨k, created, now⟩)).2 k created) now
        = F64.refill rl (lookupOrCreate rl k created) now - j ∧
      (0 < j → (F64.run rl (List.replicate j ⟨k, created, now⟩)).2.clients k
        = some { tokens := F64.refill rl (lookupOrCreate rl k created) now - j,
                 lastRefillTime := now }) := by
  induction j with
  | zero => intro rl _ _ _; simp [F64.run]
  | succ j ih =>
    intro rl hC hC53 hX
    have hle := f64_refill_le_bucketSize rl (lookupOrCreate rl k created) now
    have hfloat := f64_isFloat_refill rl (lookupOrCreate rl k created) now hC
    have h1 : 1 ≤ F64.refill rl (lookupOrCreate rl k created) now := by
      have : (1 : ℚ) ≤ ((j + 1 : ℕ) : ℚ) := by norm_cast; omega
      exact le_trans this hX
    have hexact : fl (F64.refill rl (lookupOrCreate rl k created) now - 1)
        = F64.refill rl (lookupOrCreate rl k created) now - 1 :=
      hfloat.sub_one h1 (le_trans hle hC53)
    have hv : (F64.RateLimit rl k created now).1 = true := by
      rw [f64_verdict]; exact decide_eq_true h1
    have hnext := f64_left_balance rl k created created now hC
    rw [if_pos h1, hexact] at hnext
    have hself := f64_clients_self rl k created now
    rw [if_pos h1, hexact] at hself
    obtain ⟨ih1, ih2, ih3⟩ := ih (F64.RateLimit rl k created now).2
      (by rw [f64_bucketSize]; exact hC) (by rw [f64_bucketSize]; exact hC53)
      (by rw [hnext]; push_cast at hX; linarith)
    refine ⟨?_, ?_, ?_⟩
    · simp only [List.replicate_succ, F64.run, F64.call, hv, ih1]
    · simp only [List.replicate_succ, F64.run, F64.call]
      rw [ih2, hnext]; push_cast; ring
    · intro _
      simp only [List.replicate_succ, F64.run, F64.call]
      rcases Nat.eq_zero_or_pos j with h0 | hpos
      · subst h0
        simp only [List.replicate_zero, F64.run]
        rw [hself]; norm_num
      · rw [ih3 hpos, hnext]; congr 2; push_cast; ring

/-- Calls for one client that all read the same clock value are all denied when the
balance the first of them works on is below 1, and they leave it as it is. -/
theorem f64_burst_denied (k : String) (created now : Time) (j : Nat) :
    ∀ rl : RateLimiter, IsFloat rl.bucketSize →
      F64.refill rl (lookupOrCreate rl k created) now < 1 →
      (F64.run rl (List.replicate j ⟨k, created, now⟩)).1 = List.replicate j false := by
  induction j with
  | zero => intro rl _ _; simp [F64.run]
  | succ j ih =>
    intro rl hC hX
    have h1 : ¬ 1 ≤ F64.refill rl (lookupOrCreate rl k created) now := not_le.mpr hX
    have hv : (F64.RateLimit rl k created now).1 = false := by
      rw [f64_verdict]; exact decide_eq_false h1
    have hnext := f64_left_balance rl k created created now hC
    rw [if_neg h1] at hnext
    have := ih (F64.RateLimit rl k created now).2 (by rw [f64_bucketSize]; exact hC)
      (by rw [hnext]; exact hX)
    simp only [List.replicate_succ, F64.run, F64.call, hv, this]

theorem f64_run_append_fst (cs1 cs2 : List Call) :
    ∀ rl : RateLimiter, (F64.run rl (cs1 ++ cs2)).1
      = (F64.run rl cs1).1 ++ (F64.run (F64.run rl cs1).2 cs2).1 := by
  induction cs1 with
  | nil => intro rl; rfl
  | cons c cs1 ih =>
    intro rl
    have := ih (F64.call rl c).2
    simp only [List.cons_append, F64.run, List.cons.injEq, true_and]
    exact this

theorem f64_run_append_snd (cs1 cs2 : List Call) :
    ∀ rl : RateLimiter, (F64.run rl (cs1 ++ cs2)).2 = (F64.run (F64.run rl cs1).2 cs2).2 := by
  induction cs1 with
  | nil => intro rl; rfl
  | cons c cs1 ih => intro rl; exact ih (F64.call rl c).2

/-- Calls for one client that all read the same clock value, for a balance `X` with
`m ≤ X < m + 1`: exactly the first `m` are allowed. -/
theorem f64_burst (k : String) (created now : Time) (j m : Nat) (rl : RateLimiter)
    (hC : IsFloat rl.bucketSize) (hC53 : rl.bucketSize ≤ (2 : ℚ) ^ (53 : ℕ))
    (hlo : (m : ℚ) ≤ F64.refill rl (lookupOrCreate rl k created) now)
    (hhi : F64.refill rl (lookupOrCreate rl k created) now < (m : ℚ) + 1) :
    (F64.run rl (List.replicate j ⟨k, created, now⟩)).1
      = List.replicate (min j m) true ++ List.replicate (j - m) false := by
  rcases le_total j m with h | h
  · have hj : (j : ℚ) ≤ F64.refill rl (lookupOrCreate rl k created) now :=
      le_trans (by exact_mod_cast h) hlo
    rw [(f64_burst_allowed k created now j rl hC hC53 hj).1, min_eq_left h,
      Nat.sub_eq_zero_of_le h]
    simp
  · have hsplit : List.replicate j (⟨k, created, now⟩ : Call)
        = List.replicate m ⟨k, created, now⟩ ++ List.replicate (j - m) ⟨k, created, now⟩ := by
      rw [← List.replicate_add]; congr 1; omega
    obtain ⟨a1, a2, _⟩ := f64_burst_allowed k created now m rl hC hC53 hlo
    rw [hsplit, f64_run_append_fst, a1, min_eq_right h]
    congr 1
    apply f64_burst_denied k created now (j - m) _ (by rw [f64_run_bucketSize]; exact hC)
    rw [a2]; linarith

/-- The balance a `float64` call works on when it creates the bucket and reads the same
clock value twice is the full capacity. -/
theorem f64_refill_new_same_instant (rl : RateLimiter) (k : String) (t : Time)
    (hk : rl.clients k = none) (hC : IsFloat rl.bucketSize) :
    F64.refill rl (lookupOrCreate rl k t) t = rl.bucketSize := by
  rw [lookupOrCreate_none hk, f64_refill_eq_min, f64_refillRaw_same_instant _ _ _ hC]
  exact min_self _

/-- At capacity `2^54` an allowed call leaves the balance at `2^54`, so every call of a
burst is allowed. -/
theorem f64_burst_absorbed (k : String) (created now : Time) (j : Nat) :
    ∀ rl : RateLimiter, rl.bucketSize = 18014398509481984 →
      F64.refill rl (lookupOrCreate rl k created) now = 18014398509481984 →
      (F64.run rl (List.replicate j ⟨k, created, now⟩)).1 = List.replicate j true := by
  have hfl : fl ((18014398509481984 : ℚ) - 1) = 18014398509481984 := by
    rw [fl_eval_tie 53 9007199254740991 (by norm_num) (by norm_num) (by norm_num)]
    norm_num
  have hC0 : IsFloat (18014398509481984 : ℚ) := by
    have := fl_int_mul_zpow 1 54 (by norm_num)
    unfold IsFloat
    norm_num at this ⊢
    exact this
  induction j with
  | zero => intro rl _ _; simp [F64.run]
  | succ j ih =>
    intro rl hC hX
    have h1 : 1 ≤ F64.refill rl (lookupOrCreate rl k created) now := by rw [hX]; norm_num
    have hv : (F64.RateLimit rl k created now).1 = true := by
      rw [f64_verdict]; exact decide_eq_true h1
    have hnext := f64_left_balance rl k created created now (by rw [hC]; exact hC0)
    rw [if_pos h1, hX, hfl] at hnext
    have := ih (F64.RateLimit rl k created now).2 (by rw [f64_bucketSize]; exact hC) hnext
    simp only [List.replicate_succ, F64.run, F64.call, hv, this]

/-- Counterexample to C3 as stated. With `N = 2^54` a new bucket holds `2^54` tokens and
`tokens--` rounds `2^54 - 1` back to `2^54`: all `N + 1` calls of a burst return true,
the last one included. -/
theorem burst_limit_counterexample :
    (F64.NewRateLimiter 18014398509481984).clients "a" = none ∧
    (F64.run (F64.NewRateLimiter 18014398509481984)
        (List.replicate (18014398509481984 + 1) ⟨"a", 0, 0⟩)).1
      = List.replicate (18014398509481984 + 1) true ∧
    List.replicate (18014398509481984 + 1) true
      ≠ List.replicate 18014398509481984 true ++ [false] := by
  have hC0 : fl (18014398509481984 : ℚ) = 18014398509481984 := by
    have := fl_int_mul_zpow 1 54 (by norm_num)
    norm_num at this ⊢
    exact this
  have hC : (F64.NewRateLimiter 18014398509481984).bucketSize = 18014398509481984 := by
    rw [f64_New_bucketSize]; norm_num [hC0]
  refine ⟨rfl, ?_, ?_⟩
  · apply f64_burst_absorbed "a" 0 0 _ _ hC
    rw [f64_refill_new_same_instant _ "a" 0 rfl (by rw [hC]; exact hC0), hC]
  · rw [List.replicate_succ']
    intro h
    have := List.append_cancel_left h
    simp at this

/-- C3 (amended). Burst limit: for every `N` with `1 ≤ N ≤ 2^53`, in every state reachable
from `NewRateLimiter(N)` and for every client without a bucket there, `N + 1`
consecutive calls that all read the same clock value return true `N` times and then
false. -/
theorem burst_limit_float (n : Nat) (hn : 1 ≤ n) (hn53 : n ≤ 2 ^ (53 : ℕ))
    (rl : RateLimiter) (k : String) (t : Time)
    (hreach : F64.Reachable (n : Int) rl) (hk : rl.clients k = none) :
    (F64.run rl (List.replicate (n + 1) ⟨k, t, t⟩)).1 = List.replicate n true ++ [false] := by
  have hmax : max (n : Int) 1 = (n : Int) := max_eq_left (by exact_mod_cast hn)
  have hfl : fl ((max (n : Int) 1 : Int) : ℚ) = (n : ℚ) := by
    rw [hmax]; push_cast; exact fl_natCast n hn53
  have hC : rl.bucketSize = (n : ℚ) := by rw [f64_reachable_bucketSize hreach, hfl]
  have hCf : IsFloat rl.bucketSize := by rw [hC]; exact fl_natCast n hn53
  have hC53 : rl.bucketSize ≤ (2 : ℚ) ^ (53 : ℕ) := by rw [hC]; exact_mod_cast hn53
  have hfull := f64_refill_new_same_instant rl k t hk hCf
  have h := f64_burst k t t (n + 1) n rl hCf hC53 (by rw [hfull, hC])
    (by rw [hfull, hC]; linarith)
  rw [h]
  simp

/-- Witness for the amended C3: with `N = 3` a new client gets three allowed calls and a
denial. -/
theorem burst_limit_float_witness :
    1 ≤ 3 ∧ 3 ≤ 2 ^ (53 : ℕ) ∧ F64.Reachable ((3 : Nat) : Int) (F64.NewRateLimiter 3) ∧
    (F64.NewRateLimiter 3).clients "testClient1" = none ∧
    (F64.run (F64.NewRateLimiter 3) (List.replicate 4 ⟨"testClient1", 0, 0⟩)).1
      = [true, true, true, false] :=
  ⟨by decide, by decide, ⟨[], rfl⟩, rfl,
   burst_limit_float 3 (by decide) (by decide) (F64.NewRateLimiter 3) "testClient1" 0
     ⟨[], rfl⟩ rfl⟩

/-! ## A trace with rounding: `N = 5`, polled 16 ms after the drain -/

/-- A value that is the result of a rounding is a float. -/
theorem fl_isFloat_of_eq {x y : ℚ} (h : fl x = y) : fl y = y := by
  rw [← h]; exact fl_isFloat x

/-- `Seconds()` of a duration below one second is the rounded quotient by `10^9`. -/
theorem f64_seconds_lt_second (d : Duration) (h0 : 0 ≤ d) (h1 : d < 1000000000) :
    F64.seconds d = fl ((d : ℚ) / 1000000000) := by
  have hd : fl ((d : ℤ) : ℚ) = d := by
    apply fl_intCast
    rw [abs_of_nonneg h0]
    exact le_trans (le_of_lt h1) (by norm_num)
  unfold F64.seconds
  rw [Int.tdiv_eq_zero_of_lt h0 h1, Int.tmod_eq_of_lt h0 h1, hd]
  simp only [Int.cast_zero, fl_zero, zero_add]
  exact fl_isFloat _

/-- Evaluation of the balance a call works on for an existing bucket, from the values of
the three roundings. -/
theorem f64_refill_eval (rl : RateLimiter) (k : String) (b : clientData) (created now : Time)
    (sec add raw : ℚ) (hb : rl.clients k = some b)
    (h1 : F64.seconds (timeSub now b.lastRefillTime) = sec)
    (h2 : fl (sec * rl.rate) = add) (h3 : fl (b.tokens + add) = raw) :
    F64.refill rl (lookupOrCreate rl k created) now = min rl.bucketSize raw := by
  rw [lookupOrCreate_some hb, f64_refill_eq_min]
  simp only [F64.refillRaw, h1, h2, h3]

theorem isFloat_five : IsFloat (5 : ℚ) := by
  have := fl_natCast 5 (by norm_num)
  unfold IsFloat
  simpa using this

theorem f64_New5_rate : (F64.NewRateLimiter 5).rate = 5 := by
  rw [f64_New_rate]
  have : ((max 5 1 : Int) : ℚ) = 5 := by norm_num
  rw [this]; exact isFloat_five

theorem f64_New5_bucketSize : (F64.NewRateLimiter 5).bucketSize = 5 := by
  rw [f64_New_bucketSize]
  have : ((max 5 1 : Int) : ℚ) = 5 := by norm_num
  rw [this]; exact isFloat_five

theorem traceDrained5_eq :
    traceDrained5 = (F64.run (F64.NewRateLimiter 5) (List.replicate 5 ⟨"a", 0, 0⟩)).2 := rfl

/-- Five calls at clock value 0 on `NewRateLimiter(5)` are allowed and drain the bucket. -/
theorem f64_drained5 :
    (F64.run (F64.NewRateLimiter 5) (List.replicate 5 ⟨"a", 0, 0⟩)).1
      = List.replicate 5 true ∧
    traceDrained5.clients "a" = some { tokens := 0, lastRefillTime := 0 } ∧
    traceDrained5.rate = 5 ∧ traceDrained5.bucketSize = 5 := by
  have hCf : IsFloat (F64.NewRateLimiter 5).bucketSize := by
    rw [f64_New5_bucketSize]; exact isFloat_five
  have hX := f64_refill_new_same_instant (F64.NewRateLimiter 5) "a" 0 rfl hCf
  rw [f64_New5_bucketSize] at hX
  obtain ⟨h1, _, h3⟩ := f64_burst_allowed "a" 0 0 5 (F64.NewRateLimiter 5) hCf
    (by rw [f64_New5_bucketSize]; norm_num) (by rw [hX]; norm_num)
  refine ⟨h1, ?_, ?_, ?_⟩
  · rw [traceDrained5_eq, h3 (by norm_num), hX]
    norm_num
  · rw [traceDrained5_eq, f64_run_rate, f64_New5_rate]
  · rw [traceDrained5_eq, f64_run_bucketSize, f64_New5_bucketSize]

/-- `float64` of 0.016. -/
theorem fl_16ms : fl ((2 / 125 : ℚ)) = 1152921504606847 / 72057594037927936 := by
  rw [fl_eval (-6) 4611686018427388 (by rw [abs_of_pos] <;> norm_num) (by rw [abs_of_pos] <;> norm_num)
    (by rw [abs_lt]; constructor <;> norm_num)]
  norm_num

/-- `0.016 * 5` in `float64` is the float `0.08`. -/
theorem fl_16ms_rate5 : fl ((5764607523034235 / 72057594037927936 : ℚ)) = 5764607523034235 / 72057594037927936 := by
  rw [fl_eval (-4) 5764607523034235 (by rw [abs_of_pos] <;> norm_num) (by rw [abs_of_pos] <;> norm_num)
    (by rw [abs_lt]; constructor <;> norm_num)]
  norm_num

/-- `float64` of 0.184. -/
theorem fl_184ms : fl ((23 / 125 : ℚ)) = 3314649325744685 / 18014398509481984 := by
  rw [fl_eval (-3) 6629298651489370 (by rw [abs_of_pos] <;> norm_num) (by rw [abs_of_pos] <;> norm_num)
    (by rw [abs_lt]; constructor <;> norm_num)]
  norm_num

/-- `0.184 * 5` in `float64`, a tie rounded to even: `0.9199999999999999`. -/
theorem fl_184ms_rate5 : fl ((16573246628723425 / 18014398509481984 : ℚ)) = 517913957147607 / 562949953421312 := by
  rw [fl_eval_tie (-1) 8286623314361712 (by rw [abs_of_pos] <;> norm_num) (by rw [abs_of_pos] <;> norm_num)
    (by norm_num)]
  norm_num

/-- `0.08 + 0.9199999999999999` in `float64` is `1 - 2^-53`. -/
theorem fl_sum_200ms : fl ((72057594037927931 / 72057594037927936 : ℚ)) = 9007199254740991 / 9007199254740992 := by
  rw [fl_eval (-1) 9007199254740991 (by rw [abs_of_pos] <;> norm_num) (by rw [abs_of_pos] <;> norm_num)
    (by rw [abs_lt]; constructor <;> norm_num)]
  norm_num

/-- `float64` of 0.2. -/
theorem fl_200ms : fl ((1 / 5 : ℚ)) = 3602879701896397 / 18014398509481984 := by
  rw [fl_eval (-3) 7205759403792794 (by rw [abs_of_pos] <;> norm_num) (by rw [abs_of_pos] <;> norm_num)
    (by rw [abs_lt]; constructor <;> norm_num)]
  norm_num

/-- `0.2 * 5` in `float64` is 1. -/
theorem fl_200ms_rate5 : fl ((18014398509481985 / 18014398509481984 : ℚ)) = 1 := by
  rw [fl_eval 0 4503599627370496 (by rw [abs_of_pos] <;> norm_num) (by rw [abs_of_pos] <;> norm_num)
    (by rw [abs_lt]; constructor <;> norm_num)]
  norm_num

/-- At rate 5 a bucket drained at clock value 0 and read at 16 ms holds `0.016 * 5`, the
float `0.08`. -/
theorem f64_poll16 (rl : RateLimiter) (hR : rl.rate = 5) (hC : rl.bucketSize = 5)
    (hb : rl.clients "a" = some { tokens := 0, lastRefillTime := 0 }) :
    F64.refill rl (lookupOrCreate rl "a" 0) 16000000
      = 5764607523034235 / 72057594037927936 := by
  have hs : F64.seconds (timeSub 16000000 0) = 1152921504606847 / 72057594037927936 := by
    have e : timeSub 16000000 0 = 16000000 := by simp [timeSub]
    rw [e, f64_seconds_lt_second _ (by norm_num) (by norm_num)]
    norm_num
    exact fl_16ms
  have hX := f64_refill_eval rl "a" _ 0 16000000
    (1152921504606847 / 72057594037927936)
    (5764607523034235 / 72057594037927936) (5764607523034235 / 72057594037927936)
    hb hs (by rw [hR]; norm_num; exact fl_16ms_rate5)
    (by norm_num; exact fl_16ms_rate5)
  rw [hX, hC]
  apply min_eq_right; norm_num

/-- At rate 5 the bucket `(0.08, 16 ms)` read at 200 ms holds `0.08 + 0.184 * 5`, which
`float64` computes as `1 - 2^-53`. -/
theorem f64_poll200 (rl : RateLimiter) (hR : rl.rate = 5) (hC : rl.bucketSize = 5)
    (hb : rl.clients "a" = some { tokens := 5764607523034235 / 72057594037927936,
                                  lastRefillTime := 16000000 }) :
    F64.refill rl (lookupOrCreate rl "a" 0) 200000000
      = 9007199254740991 / 9007199254740992 := by
  have hs : F64.seconds (timeSub 200000000 16000000)
      = 3314649325744685 / 18014398509481984 := by
    have e : timeSub 200000000 16000000 = 184000000 := by simp [timeSub]
    rw [e, f64_seconds_lt_second _ (by norm_num) (by norm_num)]
    norm_num
    exact fl_184ms
  have hX := f64_refill_eval rl "a" _ 0 200000000
    (3314649325744685 / 18014398509481984)
    (517913957147607 / 562949953421312) (9007199254740991 / 9007199254740992)
    hb hs (by rw [hR]; norm_num; exact fl_184ms_rate5)
    (by norm_num; exact fl_sum_200ms)
  rw [hX, hC]
  apply min_eq_right; norm_num

/-- At rate 5 a bucket drained at clock value 0 and read at 200 ms holds `0.2 * 5`, which
`float64` computes as 1. -/
theorem f64_direct200 (rl : RateLimiter) (hR : rl.rate = 5) (hC : rl.bucketSize = 5)
    (hb : rl.clients "a" = some { tokens := 0, lastRefillTime := 0 }) :
    F64.refill rl (lookupOrCreate rl "a" 0) 200000000 = 1 := by
  have hs : F64.seconds (timeSub 200000000 0) = 3602879701896397 / 18014398509481984 := by
    have e : timeSub 200000000 0 = 200000000 := by simp [timeSub]
    rw [e, f64_seconds_lt_second _ (by norm_num) (by norm_num)]
    norm_num
    exact fl_200ms
  have hX := f64_refill_eval rl "a" _ 0 200000000
    (3602879701896397 / 18014398509481984) 1 1
    hb hs (by rw [hR]; norm_num; exact fl_200ms_rate5)
    (by norm_num; exact fl_one)
  rw [hX, hC]
  apply min_eq_right; norm_num

/-- The call 16 ms after the drain is denied and leaves the bucket `(0.08, 16 ms)`. -/
theorem f64_polled5 :
    (F64.RateLimit traceDrained5 "a" 0 16000000).1 = false ∧
    (F64.RateLimit traceDrained5 "a" 0 16000000).2.clients "a"
      = some { tokens := 5764607523034235 / 72057594037927936,
               lastRefillTime := 16000000 } ∧
    (F64.RateLimit traceDrained5 "a" 0 16000000).2.rate = 5 ∧
    (F64.RateLimit traceDrained5 "a" 0 16000000).2.bucketSize = 5 := by
  obtain ⟨_, hb, hR, hC⟩ := f64_drained5
  have hX := f64_poll16 traceDrained5 hR hC hb
  have hlt : ¬ 1 ≤ F64.refill traceDrained5 (lookupOrCreate traceDrained5 "a" 0)
      16000000 := by
    rw [hX]; norm_num
  refine ⟨?_, ?_, ?_, ?_⟩
  · rw [f64_verdict]; exact decide_eq_false hlt
  · rw [f64_clients_self, if_neg hlt, hX]
  · rw [f64_rate]; exact hR
  · rw [f64_bucketSize]; exact hC

theorem f64_run_singleton (rl : RateLimiter) (k : String) (created now : Time) :
    (F64.run rl [⟨k, created, now⟩]).2 = (F64.RateLimit rl k created now).2 := rfl

theorem f64_run_singleton_fst (rl : RateLimiter) (k : String) (created now : Time) :
    (F64.run rl [⟨k, created, now⟩]).1 = [(F64.RateLimit rl k created now).1] := rfl

/-- The states of the trace are reachable from `NewRateLimiter(5)`. -/
theorem f64_trace5_reachable :
    F64.Reachable 5 traceDrained5 ∧
    F64.Reachable 5 (F64.RateLimit traceDrained5 "a" 0 16000000).2 := by
  refine ⟨⟨List.replicate 5 ⟨"a", 0, 0⟩, traceDrained5_eq.symm⟩,
    ⟨List.replicate 5 ⟨"a", 0, 0⟩ ++ [⟨"a", 0, 16000000⟩], ?_⟩⟩
  rw [f64_run_append_snd, ← traceDrained5_eq, f64_run_singleton]

/-! ## Single step in binary64 -/

/-- What one `float64` call does to a client that already has a bucket. -/
theorem f64_existing (rl : RateLimiter) (k : String) (b : clientData)
    (created now : Time) (hb : rl.clients k = some b) :
    F64.refill rl (lookupOrCreate rl k created) now
      = min rl.bucketSize
          (fl (b.tokens + fl (F64.seconds (now - b.lastRefillTime) * rl.rate))) := by
  rw [lookupOrCreate_some hb, f64_refill_eq_min]
  rfl

/-- Counterexample to C9 as stated. In the state reached from `NewRateLimiter(5)` by five
calls at clock value 0 and one call at 16 ms, the bucket is `(0.08, 16 ms)`. For a call
at 200 ms the exact `T' = min(C, T + (now - L) * R)` is at least 1, yet the call is
denied: `float64` computes the balance `1 - 2^-53`, which it leaves in the bucket. -/
theorem single_step_counterexample :
    F64.Reachable 5 (F64.RateLimit traceDrained5 "a" 0 16000000).2 ∧
    (F64.RateLimit traceDrained5 "a" 0 16000000).2.rate = 5 ∧
    (F64.RateLimit traceDrained5 "a" 0 16000000).2.bucketSize = 5 ∧
    (F64.RateLimit traceDrained5 "a" 0 16000000).2.clients "a"
      = some { tokens := 5764607523034235 / 72057594037927936,
               lastRefillTime := 16000000 } ∧
    (16000000 : Time) ≤ 200000000 ∧
    1 ≤ min (5 : ℚ) (5764607523034235 / 72057594037927936
          + ((200000000 - 16000000 : Int) : ℚ) / 1000000000 * 5) ∧
    (F64.RateLimit (F64.RateLimit traceDrained5 "a" 0 16000000).2 "a" 0 200000000).1
      = false ∧
    (F64.RateLimit (F64.RateLimit traceDrained5 "a" 0 16000000).2 "a" 0 200000000).2.clients
        "a"
      = some { tokens := 9007199254740991 / 9007199254740992,
               lastRefillTime := 200000000 } := by
  obtain ⟨_, hb, hR, hC⟩ := f64_polled5
  have hX := f64_poll200 _ hR hC hb
  have hlt : ¬ 1 ≤ F64.refill (F64.RateLimit traceDrained5 "a" 0 16000000).2
      (lookupOrCreate (F64.RateLimit traceDrained5 "a" 0 16000000).2 "a" 0) 200000000 := by
    rw [hX]; norm_num
  refine ⟨f64_trace5_reachable.2, hR, hC, hb, by decide, by norm_num, ?_, ?_⟩
  · rw [f64_verdict]; exact decide_eq_false hlt
  · rw [f64_clients_self, if_neg hlt, hX]

/-- C9 (amended). Single-step refill-and-consume in `float64`: for an existing bucket
`(T, L)` and a clock value `now ≥ L`, let `T' = min(C, T + (now - L) * R)` with the
elapsed seconds, the product and the sum each rounded to `float64`. `RateLimit` returns
true exactly when `T' ≥ 1`; the new balance is the rounded `T' - 1` after an allowed
call and `T'` itself after a denied one; and when the capacity is a float of at most
`2^53` the rounded `T' - 1` is exactly `T' - 1`: an allowed request costs exactly one
token and a denial consumes nothing. -/
theorem single_step_float (rl : RateLimiter) (k : String) (b : clientData)
    (created now : Time) (hb : rl.clients k = some b) (_hnow : b.lastRefillTime ≤ now) :
    ((F64.RateLimit rl k created now).1 = true ↔
        1 ≤ min rl.bucketSize
              (fl (b.tokens + fl (F64.seconds (now - b.lastRefillTime) * rl.rate)))) ∧
    ((F64.RateLimit rl k created now).1 = true →
        (F64.RateLimit rl k created now).2.clients k
          = some { tokens := fl (min rl.bucketSize
                     (fl (b.tokens + fl (F64.seconds (now - b.lastRefillTime) * rl.rate)))
                       - 1),
                   lastRefillTime := now }) ∧
    ((F64.RateLimit rl k created now).1 = false →
        (F64.RateLimit rl k created now).2.clients k
          = some { tokens := min rl.bucketSize
                     (fl (b.tokens + fl (F64.seconds (now - b.lastRefillTime) * rl.rate))),
                   lastRefillTime := now }) ∧
    (IsFloat rl.bucketSize → rl.bucketSize ≤ (2 : ℚ) ^ (53 : ℕ) →
      1 ≤ min rl.bucketSize
            (fl (b.tokens + fl (F64.seconds (now - b.lastRefillTime) * rl.rate))) →
      fl (min rl.bucketSize
            (fl (b.tokens + fl (F64.seconds (now - b.lastRefillTime) * rl.rate))) - 1)
        = min rl.bucketSize
            (fl (b.tokens + fl (F64.seconds (now - b.lastRefillTime) * rl.rate))) - 1) := by
  have hr := f64_existing rl k b created now hb
  rw [f64_verdict, f64_clients_self, hr]
  refine ⟨by simp, ?_, ?_, ?_⟩
  · intro h
    rw [if_pos (of_decide_eq_true h)]
  · intro h
    rw [if_neg (of_decide_eq_false h)]
  · intro hC hC53 h1
    have hfloat := f64_isFloat_refill rl (lookupOrCreate rl k created) now hC
    rw [hr] at hfloat
    exact hfloat.sub_one h1 (le_trans (min_le_left _ _) hC53)

/-- Witness for the amended C9: at rate 5 a bucket drained at clock value 0 and called
at 200 ms holds `0.2 * 5 = 1` token in `float64`, so the call is allowed. -/
theorem single_step_float_witness :
    (oneClient 5 0 0).clients "a" = some { tokens := 0, lastRefillTime := 0 } ∧
    (0 : Time) ≤ 200000000 ∧
    (F64.RateLimit (oneClient 5 0 0) "a" 0 200000000).1 = true := by
  have hb : (oneClient 5 0 0).clients "a" = some { tokens := 0, lastRefillTime := 0 } := by
    simp [oneClient]
  have hX := f64_direct200 (oneClient 5 0 0) rfl rfl hb
  rw [f64_existing _ "a" _ 0 200000000 hb] at hX
  exact ⟨hb, by decide,
    (single_step_float (oneClient 5 0 0) "a" { tokens := 0, lastRefillTime := 0 }
      0 200000000 hb (by decide)).1.mpr (by rw [hX])⟩

/-! ## Refill after a drain in binary64 -/

theorem f64_seconds_nonneg {d : Duration} (h : 0 ≤ d) : 0 ≤ F64.seconds d := by
  unfold F64.seconds
  have h1 : (0 : ℚ) ≤ ((d.tdiv 1000000000 : Int) : ℚ) := by
    exact_mod_cast Int.tdiv_nonneg h (by norm_num)
  have h2 : (0 : ℚ) ≤ ((d.tmod 1000000000 : Int) : ℚ) := by
    exact_mod_cast Int.tmod_nonneg _ h
  have h3 := fl_nonneg h1
  have h4 := fl_nonneg (div_nonneg (fl_nonneg h2) (by norm_num : (0 : ℚ) ≤ 1000000000))
  exact fl_nonneg (add_nonneg h3 h4)

/-- A duration of one second or more is at least 1 in `float64` seconds. -/
theorem f64_seconds_ge_one {d : Duration} (h : 1000000000 ≤ d) : 1 ≤ F64.seconds d := by
  have h0 : (0 : Int) ≤ d := le_trans (by norm_num) h
  unfold F64.seconds
  have h1 : (1 : ℚ) ≤ ((d.tdiv 1000000000 : Int) : ℚ) := by
    have : (1 : Int) ≤ d.tdiv 1000000000 := by
      rw [Int.tdiv_eq_ediv h0 (by norm_num)]
      exact Int.le_ediv_of_mul_le (by norm_num) (by simpa using h)
    exact_mod_cast this
  have h2 : (0 : ℚ) ≤ ((d.tmod 1000000000 : Int) : ℚ) := by
    exact_mod_cast Int.tmod_nonneg _ h0
  have h3 := le_fl_of_float_le IsFloat.one h1
  have h4 := fl_nonneg (div_nonneg (fl_nonneg h2) (by norm_num : (0 : ℚ) ≤ 1000000000))
  exact le_fl_of_float_le IsFloat.one (by linarith)

/-- The balance a call works on when the bucket was drained `d` nanoseconds before. -/
theorem f64_refill_drained (rl : RateLimiter) (k : String) (t d created : Time)
    (hb : rl.clients k = some { tokens := 0, lastRefillTime := t }) :
    F64.refill rl (lookupOrCreate rl k created) (t + d)
      = min rl.bucketSize (fl (F64.seconds d * rl.rate)) := by
  rw [f64_existing rl k _ created (t + d) hb]
  have e : t + d - t = d := by ring
  simp only [e, zero_add]
  rw [fl_isFloat (F64.seconds d * rl.rate)]

/-- For `1 ≤ N ≤ 2^53`, `N` calls of a new client at one clock value on
`NewRateLimiter(N)` are all allowed and drain the bucket. -/
theorem f64_drained (N : Int) (n : Nat) (hN : N = n) (hn : 1 ≤ n) (hn53 : n ≤ 2 ^ (53 : ℕ))
    (k : String) (t : Time) :
    (F64.run (F64.NewRateLimiter N) (List.replicate n ⟨k, t, t⟩)).1 = List.replicate n true ∧
    (F64.run (F64.NewRateLimiter N) (List.replicate n ⟨k, t, t⟩)).2.clients k
      = some { tokens := 0, lastRefillTime := t } ∧
    (F64.run (F64.NewRateLimiter N) (List.replicate n ⟨k, t, t⟩)).2.rate = n ∧
    (F64.run (F64.NewRateLimiter N) (List.replicate n ⟨k, t, t⟩)).2.bucketSize = n := by
  have hmax : max N 1 = (n : Int) := by
    rw [hN]; exact max_eq_left (by exact_mod_cast hn)
  have hfl : fl ((max N 1 : Int) : ℚ) = (n : ℚ) := by
    rw [hmax]; push_cast; exact fl_natCast n hn53
  have hR : (F64.NewRateLimiter N).rate = (n : ℚ) := by rw [f64_New_rate, hfl]
  have hC : (F64.NewRateLimiter N).bucketSize = (n : ℚ) := by rw [f64_New_bucketSize, hfl]
  have hCf : IsFloat (F64.NewRateLimiter N).bucketSize := by
    rw [hC]; exact fl_natCast n hn53
  have hX := f64_refill_new_same_instant (F64.NewRateLimiter N) k t rfl hCf
  rw [hC] at hX
  obtain ⟨h1, _, h3⟩ := f64_burst_allowed k t t n (F64.NewRateLimiter N) hCf
    (by rw [hC]; exact_mod_cast hn53) (by rw [hX])
  refine ⟨h1, ?_, ?_, ?_⟩
  · rw [h3 (by omega), hX, sub_self]
  · rw [f64_run_rate, hR]
  · rw [f64_run_bucketSize, hC]

/-- `float64` of 0.58. -/
theorem fl_580ms : fl ((29 / 50 : ℚ)) = 5224175567749775 / 9007199254740992 := by
  rw [fl_eval (-1) 5224175567749775 (by rw [abs_of_pos] <;> norm_num) (by rw [abs_of_pos] <;> norm_num)
    (by rw [abs_lt]; constructor <;> norm_num)]
  norm_num

/-- `0.58 * 50` in `float64` is `28.999999999999996`. -/
theorem fl_580ms_rate50 : fl ((130604389193744375 / 4503599627370496 : ℚ)) = 8162774324609023 / 281474976710656 := by
  rw [fl_eval 4 8162774324609023 (by rw [abs_of_pos] <;> norm_num) (by rw [abs_of_pos] <;> norm_num)
    (by rw [abs_lt]; constructor <;> norm_num)]
  norm_num

/-! ## Waits of `1/R` and `2/R` seconds -/

/-- Scaling by a power of two commutes with rounding. -/
theorem fl_mul_two_zpow (x : ℚ) (k : ℤ) : fl (x * (2 : ℚ) ^ k) = fl x * (2 : ℚ) ^ k := by
  by_cases hx : x = 0
  · subst hx; simp [fl_zero]
  have hk : (0 : ℚ) < (2 : ℚ) ^ k := by positivity
  have habs : |x * (2 : ℚ) ^ k| = |x| * (2 : ℚ) ^ k := by rw [abs_mul, abs_of_pos hk]
  have h1 := Int.zpow_log_le_self (b := 2) (r := |x|) (by norm_num) (abs_pos.mpr hx)
  have h2 := Int.lt_zpow_succ_log_self (b := 2) (by norm_num) (|x|)
  have hlog : Int.log 2 |x * (2 : ℚ) ^ k| = Int.log 2 |x| + k := by
    apply log_eq_of_bounds
    · rw [habs, zpow_add₀ (by norm_num : (2 : ℚ) ≠ 0)]
      exact mul_le_mul_of_nonneg_right (by exact_mod_cast h1) (le_of_lt hk)
    · rw [habs]
      have : (2 : ℚ) ^ (Int.log 2 |x| + k + 1) = (2 : ℚ) ^ (Int.log 2 |x| + 1) * (2 : ℚ) ^ k := by
        rw [← zpow_add₀ (by norm_num : (2 : ℚ) ≠ 0)]; congr 1; ring
      rw [this]
      exact mul_lt_mul_of_pos_right (by exact_mod_cast h2) hk
  have hulp : ulp (x * (2 : ℚ) ^ k) = ulp x * (2 : ℚ) ^ k := by
    unfold ulp
    rw [hlog, ← zpow_add₀ (by norm_num : (2 : ℚ) ≠ 0)]
    congr 1; ring
  unfold fl
  rw [hulp]
  have hq : x * (2 : ℚ) ^ k / (ulp x * (2 : ℚ) ^ k) = x / ulp x := by
    have := ulp_pos x
    field_simp
    ring
  rw [hq]; ring

/-- For `b ≤ 9`, `float64(1 / 5^b) * 5^b` rounds to exactly 1. -/
theorem fl_inv_pow_five (b : ℕ) (hb : b ≤ 9) : fl (fl ((1 : ℚ) / 5 ^ b) * 5 ^ b) = 1 := by
  interval_cases b
  · norm_num [fl_one]
  · have h1 : fl ((1 / 5 : ℚ)) = 3602879701896397 / 18014398509481984 := by
      rw [fl_eval (-3) 7205759403792794 (by rw [abs_of_pos] <;> norm_num) (by rw [abs_of_pos] <;> norm_num)
        (by rw [abs_lt]; constructor <;> norm_num)]
      norm_num
    have h2 : fl ((18014398509481985 / 18014398509481984 : ℚ)) = 1 := by
      rw [fl_eval 0 4503599627370496 (by rw [abs_of_pos] <;> norm_num) (by rw [abs_of_pos] <;> norm_num)
        (by rw [abs_lt]; constructor <;> norm_num)]
      norm_num
    have e1 : (1 : ℚ) / 5 ^ 1 = 1 / 5 := by norm_num
    have e2 : (3602879701896397 / 18014398509481984 : ℚ) * 5 ^ 1 = 18014398509481985 / 18014398509481984 := by norm_num
    rw [e1, h1, e2, h2]
  · have h1 : fl ((1 / 25 : ℚ)) = 5764607523034235 / 144115188075855872 := by
      rw [fl_eval (-5) 5764607523034235 (by rw [abs_of_pos] <;> norm_num) (by rw [abs_of_pos] <;> norm_num)
        (by rw [abs_lt]; constructor <;> norm_num)]
      norm_num
    have h2 : fl ((144115188075855875 / 144115188075855872 : ℚ)) = 1 := by
      rw [fl_eval 0 4503599627370496 (by rw [abs_of_pos] <;> norm_num) (by rw [abs_of_pos] <;> norm_num)
        (by rw [abs_lt]; constructor <;> norm_num)]
      norm_num
    have e1 : (1 : ℚ) / 5 ^ 2 = 1 / 25 := by norm_num
    have e2 : (5764607523034235 / 144115188075855872 : ℚ) * 5 ^ 2 = 144115188075855875 / 144115188075855872 := by norm_num
    rw [e1, h1, e2, h2]
  · have h1 : fl ((1 / 125 : ℚ)) = 1152921504606847 / 144115188075855872 := by
      rw [fl_eval (-7) 4611686018427388 (by rw [abs_of_pos] <;> norm_num) (by rw [abs_of_pos] <;> norm_num)
        (by rw [abs_lt]; constructor <;> norm_num)]
      norm_num
    have h2 : fl ((144115188075855875 / 144115188075855872 : ℚ)) = 1 := by
      rw [fl_eval 0 4503599627370496 (by rw [abs_of_pos] <;> norm_num) (by rw [abs_of_pos] <;> norm_num)
        (by rw [abs_lt]; constructor <;> norm_num)]
      norm_num
    have e1 : (1 : ℚ) / 5 ^ 3 = 1 / 125 := by norm_num
    have e2 : (1152921504606847 / 144115188075855872 : ℚ) * 5 ^ 3 = 144115188075855875 / 144115188075855872 := by norm_num
    rw [e1, h1, e2, h2]
  · have h1 : fl ((1 / 625 : ℚ)) = 7378697629483821 / 4611686018427387904 := by
      rw [fl_eval (-10) 7378697629483821 (by rw [abs_of_pos] <;> norm_num) (by rw [abs_of_pos] <;> norm_num)
        (by rw [abs_lt]; constructor <;> norm_num)]
      norm_num
    have h2 : fl ((4611686018427388125 / 4611686018427387904 : ℚ)) = 1 := by
      rw [fl_eval 0 4503599627370496 (by rw [abs_of_pos] <;> norm_num) (by rw [abs_of_pos] <;> norm_num)
        (by rw [abs_lt]; constructor <;> norm_num)]
      norm_num
    have e1 : (1 : ℚ) / 5 ^ 4 = 1 / 625 := by norm_num
    have e2 : (7378697629483821 / 4611686018427387904 : ℚ) * 5 ^ 4 = 4611686018427388125 / 4611686018427387904 := by norm_num
    rw [e1, h1, e2, h2]
  · have h1 : fl ((1 / 3125 : ℚ)) = 5902958103587057 / 18446744073709551616 := by
      rw [fl_eval (-12) 5902958103587057 (by rw [abs_of_pos] <;> norm_num) (by rw [abs_of_pos] <;> norm_num)
        (by rw [abs_lt]; constructor <;> norm_num)]
      norm_num
    have h2 : fl ((18446744073709553125 / 18446744073709551616 : ℚ)) = 1 := by
      rw [fl_eval 0 4503599627370496 (by rw [abs_of_pos] <;> norm_num) (by rw [abs_of_pos] <;> norm_num)
        (by rw [abs_lt]; constructor <;> norm_num)]
      norm_num
    have e1 : (1 : ℚ) / 5 ^ 5 = 1 / 3125 := by norm_num
    have e2 : (5902958103587057 / 18446744073709551616 : ℚ) * 5 ^ 5 = 18446744073709553125 / 18446744073709551616 := by norm_num
    rw [e1, h1, e2, h2]
  · have h1 : fl ((1 / 15625 : ℚ)) = 4722366482869645 / 73786976294838206464 := by
      rw [fl_eval (-14) 4722366482869645 (by rw [abs_of_pos] <;> norm_num) (by rw [abs_of_pos] <;> norm_num)
        (by rw [abs_lt]; constructor <;> norm_num)]
      norm_num
    have h2 : fl ((73786976294838203125 / 73786976294838206464 : ℚ)) = 1 := by
      rw [fl_eval (-1) 9007199254740992 (by rw [abs_of_pos] <;> norm_num) (by rw [abs_of_pos] <;> norm_num)
        (by rw [abs_lt]; constructor <;> norm_num)]
      norm_num
    have e1 : (1 : ℚ) / 5 ^ 6 = 1 / 15625 := by norm_num
    have e2 : (4722366482869645 / 73786976294838206464 : ℚ) * 5 ^ 6 = 73786976294838203125 / 73786976294838206464 := by norm_num
    rw [e1, h1, e2, h2]
  · have h1 : fl ((1 / 78125 : ℚ)) = 944473296573929 / 73786976294838206464 := by
      rw [fl_eval (-17) 7555786372591432 (by rw [abs_of_pos] <;> norm_num) (by rw [abs_of_pos] <;> norm_num)
        (by rw [abs_lt]; constructor <;> norm_num)]
      norm_num
    have h2 : fl ((73786976294838203125 / 73786976294838206464 : ℚ)) = 1 := by
      rw [fl_eval (-1) 9007199254740992 (by rw [abs_of_pos] <;> norm_num) (by rw [abs_of_pos] <;> norm_num)
        (by rw [abs_lt]; constructor <;> norm_num)]
      norm_num
    have e1 : (1 : ℚ) / 5 ^ 7 = 1 / 78125 := by norm_num
    have e2 : (944473296573929 / 73786976294838206464 : ℚ) * 5 ^ 7 = 73786976294838203125 / 73786976294838206464 := by norm_num
    rw [e1, h1, e2, h2]
  · have h1 : fl ((1 / 390625 : ℚ)) = 3022314549036573 / 1180591620717411303424 := by
      rw [fl_eval (-19) 6044629098073146 (by rw [abs_of_pos] <;> norm_num) (by rw [abs_of_pos] <;> norm_num)
        (by rw [abs_lt]; constructor <;> norm_num)]
      norm_num
    have h2 : fl ((1180591620717411328125 / 1180591620717411303424 : ℚ)) = 1 := by
      rw [fl_eval 0 4503599627370496 (by rw [abs_of_pos] <;> norm_num) (by rw [abs_of_pos] <;> norm_num)
        (by rw [abs_lt]; constructor <;> norm_num)]
      norm_num
    have e1 : (1 : ℚ) / 5 ^ 8 = 1 / 390625 := by norm_num
    have e2 : (3022314549036573 / 1180591620717411303424 : ℚ) * 5 ^ 8 = 1180591620717411328125 / 1180591620717411303424 := by norm_num
    rw [e1, h1, e2, h2]
  · have h1 : fl ((1 / 1953125 : ℚ)) = 4835703278458517 / 9444732965739290427392 := by
      rw [fl_eval (-21) 4835703278458517 (by rw [abs_of_pos] <;> norm_num) (by rw [abs_of_pos] <;> norm_num)
        (by rw [abs_lt]; constructor <;> norm_num)]
      norm_num
    have h2 : fl ((9444732965739291015625 / 9444732965739290427392 : ℚ)) = 1 := by
      rw [fl_eval 0 4503599627370496 (by rw [abs_of_pos] <;> norm_num) (by rw [abs_of_pos] <;> norm_num)
        (by rw [abs_lt]; constructor <;> norm_num)]
      norm_num
    have e1 : (1 : ℚ) / 5 ^ 9 = 1 / 1953125 := by norm_num
    have e2 : (4835703278458517 / 9444732965739290427392 : ℚ) * 5 ^ 9 = 9444732965739291015625 / 9444732965739290427392 := by norm_num
    rw [e1, h1, e2, h2]

/-- For `b ≤ 9` and all exponents `c`, `e`: `float64(2^c / 5^b) * (5^b * 2^e)` rounds to
exactly `2^(c+e)`. -/
theorem fl_unit_fraction (b : ℕ) (hb : b ≤ 9) (c e : ℤ) :
    fl (fl ((2 : ℚ) ^ c / 5 ^ b) * (5 ^ b * (2 : ℚ) ^ e)) = (2 : ℚ) ^ (c + e) := by
  have h1 : (2 : ℚ) ^ c / 5 ^ b = (1 : ℚ) / 5 ^ b * (2 : ℚ) ^ c := by ring
  rw [h1, fl_mul_two_zpow]
  have h2 : fl ((1 : ℚ) / 5 ^ b) * (2 : ℚ) ^ c * (5 ^ b * (2 : ℚ) ^ e)
      = fl ((1 : ℚ) / 5 ^ b) * 5 ^ b * (2 : ℚ) ^ (c + e) := by
    rw [zpow_add₀ (by norm_num : (2 : ℚ) ≠ 0)]; ring
  rw [h2, fl_mul_two_zpow, fl_inv_pow_five b hb, one_mul]

/-- Divisors of `2^A * 5^9` are the numbers `2^a * 5^b` with `a ≤ A` and `b ≤ 9`. -/
theorem dvd_two_five {n A : ℕ} (h : n ∣ 2 ^ A * 5 ^ 9) :
    ∃ a b : ℕ, a ≤ A ∧ b ≤ 9 ∧ n = 2 ^ a * 5 ^ b := by
  obtain ⟨y, z, hy, hz, rfl⟩ := Nat.dvd_mul.mp h
  obtain ⟨a, ha, rfl⟩ := (Nat.dvd_prime_pow Nat.prime_two).mp hy
  obtain ⟨b, hb, rfl⟩ := (Nat.dvd_prime_pow Nat.prime_five).mp hz
  exact ⟨a, b, ha, hb, rfl⟩

/-- After a wait of `d` nanoseconds below one second with `d * N = 2^c * 10^9`, the
refill `Seconds(d) * N` is exactly `2^c` in `float64`. -/
theorem f64_wait_refill (n : ℕ) (d : Duration) (c : ℕ) (hd : 0 ≤ d)
    (hlt : d < 1000000000) (h : d * n = 2 ^ c * 1000000000) :
    fl (F64.seconds d * n) = (2 : ℚ) ^ c := by
  have hdvd : n ∣ 2 ^ (9 + c) * 5 ^ 9 := by
    have h1 : (n : ℤ) ∣ ((2 ^ (9 + c) * 5 ^ 9 : ℕ) : ℤ) := by
      refine ⟨d, ?_⟩
      push_cast
      rw [mul_comm (n : ℤ) d, h, pow_add]
      norm_num
      ring
    exact_mod_cast h1
  obtain ⟨a, b, ha, hb, hn⟩ := dvd_two_five hdvd
  have hn0 : (n : ℚ) ≠ 0 := by
    rw [hn]; push_cast; positivity
  have hq : (d : ℚ) * n = (2 : ℚ) ^ c * 1000000000 := by exact_mod_cast h
  have hdq : (d : ℚ) / 1000000000 = (2 : ℚ) ^ ((c : ℤ) - a) / 5 ^ b := by
    have hn' : (n : ℚ) = 2 ^ a * 5 ^ b := by rw [hn]; push_cast; ring
    have hd' : (d : ℚ) = (2 : ℚ) ^ c * 1000000000 / n := by
      field_simp; exact hq
    rw [hd', hn', zpow_sub₀ (by norm_num : (2 : ℚ) ≠ 0)]
    field_simp
    ring
  have hnq : (n : ℚ) = 5 ^ b * (2 : ℚ) ^ (a : ℤ) := by
    rw [hn]; push_cast; rw [zpow_natCast]; ring
  rw [f64_seconds_lt_second d hd hlt, hdq, hnq, fl_unit_fraction b hb]
  have : (c : ℤ) - a + a = c := by ring
  rw [this, zpow_natCast]

/-- From a bucket drained `d` nanoseconds before, with `R = C = N ≤ 2^53`: when the
refilled and capped balance `X` satisfies `m ≤ X < m + 1`, exactly the first `m` calls
at that instant are allowed. -/
theorem f64_drained_burst (n : Nat) (hn53 : n ≤ 2 ^ (53 : ℕ)) (rl : RateLimiter)
    (k : String) (t d created : Time) (j m : Nat) (hR : rl.rate = (n : ℚ))
    (hC : rl.bucketSize = (n : ℚ))
    (hb : rl.clients k = some { tokens := 0, lastRefillTime := t })
    (hlo : (m : ℚ) ≤ min (n : ℚ) (fl (F64.seconds d * n)))
    (hhi : min (n : ℚ) (fl (F64.seconds d * n)) < (m : ℚ) + 1) :
    (F64.run rl (List.replicate j ⟨k, created, t + d⟩)).1
      = List.replicate (min j m) true ++ List.replicate (j - m) false := by
  have hX := f64_refill_drained rl k t d created hb
  rw [hC, hR] at hX
  have hCf : IsFloat rl.bucketSize := by rw [hC]; exact fl_natCast n hn53
  have hC53 : rl.bucketSize ≤ (2 : ℚ) ^ (53 : ℕ) := by rw [hC]; exact_mod_cast hn53
  exact f64_burst k created (t + d) j m rl hCf hC53 (by rw [hX]; exact hlo)
    (by rw [hX]; exact hhi)

/-- After a wait of one second or more the refilled balance is the full capacity. -/
theorem f64_refill_full (n : Nat) (hn53 : n ≤ 2 ^ (53 : ℕ)) (d : Duration)
    (hd : 1000000000 ≤ d) : min (n : ℚ) (fl (F64.seconds d * n)) = n := by
  apply min_eq_left
  apply le_fl_of_float_le (fl_natCast n hn53)
  have h1 := f64_seconds_ge_one hd
  have h0 : (0 : ℚ) ≤ n := by positivity
  nlinarith

/-! ## The token-bucket bound in binary64 -/

/-- Elapsed seconds in `float64` exceed the exact quotient by at most three roundings. -/
theorem f64_seconds_le {d : Duration} (h : 0 ≤ d) :
    F64.seconds d ≤ seconds d * (1 + 1 / (2 : ℚ) ^ (53 : ℕ)) ^ (3 : ℕ) := by
  have hq : (0 : ℚ) ≤ ((d.tdiv 1000000000 : Int) : ℚ) := by
    exact_mod_cast Int.tdiv_nonneg h (by norm_num)
  have hr : (0 : ℚ) ≤ ((d.tmod 1000000000 : Int) : ℚ) := by
    exact_mod_cast Int.tmod_nonneg _ h
  have hd : (d : ℚ) = 1000000000 * ((d.tdiv 1000000000 : Int) : ℚ)
      + ((d.tmod 1000000000 : Int) : ℚ) := by
    have := Int.tdiv_add_tmod d 1000000000
    exact_mod_cast this.symm
  have h1 := fl_le_mul hq
  have h2 := fl_le_mul hr
  have h3 := fl_le_mul (div_nonneg (fl_nonneg hr) (by norm_num : (0 : ℚ) ≤ 1000000000))
  have h4 := fl_le_mul (add_nonneg (fl_nonneg hq)
    (fl_nonneg (div_nonneg (fl_nonneg hr) (by norm_num : (0 : ℚ) ≤ 1000000000))))
  unfold F64.seconds
  unfold seconds
  rw [hd]
  set q : ℚ := ((d.tdiv 1000000000 : Int) : ℚ)
  set r : ℚ := ((d.tmod 1000000000 : Int) : ℚ)
  set u : ℚ := 1 / (2 : ℚ) ^ (53 : ℕ)
  have hu : (0 : ℚ) ≤ u := by positivity
  have h5 : fl r / 1000000000 ≤ r * (1 + u) / 1000000000 :=
    div_le_div_of_nonneg_right h2 (by norm_num)
  have h6 : fl (fl r / 1000000000) ≤ r * (1 + u) / 1000000000 * (1 + u) :=
    le_trans h3 (mul_le_mul_of_nonneg_right h5 (by linarith))
  have h7 : fl q + fl (fl r / 1000000000)
      ≤ q * (1 + u) + r * (1 + u) / 1000000000 * (1 + u) := add_le_add h1 h6
  have h8 : fl (fl q + fl (fl r / 1000000000))
      ≤ (q * (1 + u) + r * (1 + u) / 1000000000 * (1 + u)) * (1 + u) :=
    le_trans h4 (mul_le_mul_of_nonneg_right h7 (by linarith))
  refine le_trans h8 ?_
  have h9 : (1000000000 * q + r) / 1000000000 * (1 + u) ^ (3 : ℕ)
      - (q * (1 + u) + r * (1 + u) / 1000000000 * (1 + u)) * (1 + u)
      = q * (1 + u) ^ (2 : ℕ) * u := by
    field_simp
    ring
  have h10 : 0 ≤ q * (1 + u) ^ (2 : ℕ) * u := by positivity
  linarith

/-- The refill of one call in `float64`: from a float balance `T ≤ C` with `R = C`, after
a non-negative elapsed time the balance before the cap is at most
`T + R * d * (1 + 2^-23)`, `d` the exact elapsed seconds. -/
theorem f64_refillRaw_le (rl : RateLimiter) (b : clientData) (now : Time)
    (hRC : rl.rate = rl.bucketSize) (hC : 0 ≤ rl.bucketSize) (hTf : IsFloat b.tokens)
    (hT0 : 0 ≤ b.tokens) (hTC : b.tokens ≤ rl.bucketSize) (hL : b.lastRefillTime ≤ now) :
    F64.refillRaw rl b now
      ≤ b.tokens + rl.rate * seconds (timeSub now b.lastRefillTime)
          * (1 + 1 / (2 : ℚ) ^ (23 : ℕ)) := by
  rcases eq_or_lt_of_le hL with heq | hlt
  · have hb : b = { tokens := b.tokens, lastRefillTime := now } := by
      cases b; simp only [clientData.mk.injEq, true_and]; exact heq
    rw [hb, f64_refillRaw_same_instant rl b.tokens now hTf]
    simp only [timeSub, sub_self, seconds, Int.cast_zero, zero_div, mul_zero, zero_mul,
      add_zero, le_refl]
  · have hd1 : (1 : Int) ≤ timeSub now b.lastRefillTime := by
      unfold timeSub; linarith
    have hd0 : (0 : Int) ≤ timeSub now b.lastRefillTime := le_trans (by norm_num) hd1
    have hR : 0 ≤ rl.rate := by rw [hRC]; exact hC
    have hs := f64_seconds_le hd0
    have hs0 := f64_seconds_nonneg hd0
    have hsec : (1 : ℚ) / 1000000000 ≤ seconds (timeSub now b.lastRefillTime) := by
      unfold seconds
      have : (1 : ℚ) ≤ ((timeSub now b.lastRefillTime : Int) : ℚ) := by exact_mod_cast hd1
      exact div_le_div_of_nonneg_right this (by norm_num)
    unfold F64.refillRaw
    simp only
    set S : ℚ := F64.seconds (timeSub now b.lastRefillTime)
    set D : ℚ := seconds (timeSub now b.lastRefillTime)
    set u : ℚ := 1 / (2 : ℚ) ^ (53 : ℕ)
    have hu : (0 : ℚ) ≤ u := by positivity
    have hD0 : 0 ≤ D := le_trans (by norm_num) hsec
    have h5 : (1 + u) ^ (5 : ℕ) + 1000000000 * u ≤ 1 + 1 / (2 : ℚ) ^ (23 : ℕ) := by
      norm_num [u]
    have ha : fl (S * rl.rate) ≤ S * rl.rate * (1 + u) := fl_le_mul (mul_nonneg hs0 hR)
    have ha0 := fl_nonneg (mul_nonneg hs0 hR)
    have hraw : fl (b.tokens + fl (S * rl.rate)) ≤ (b.tokens + fl (S * rl.rate)) * (1 + u) :=
      fl_le_mul (add_nonneg hT0 ha0)
    clear_value u S D
    have h1 : S * rl.rate ≤ D * (1 + u) ^ (3 : ℕ) * rl.rate :=
      mul_le_mul_of_nonneg_right hs hR
    have h2 : fl (S * rl.rate) ≤ D * (1 + u) ^ (3 : ℕ) * rl.rate * (1 + u) :=
      le_trans ha (mul_le_mul_of_nonneg_right h1 (by linarith))
    have h3 : (b.tokens + fl (S * rl.rate)) * (1 + u)
        ≤ (b.tokens + D * (1 + u) ^ (3 : ℕ) * rl.rate * (1 + u)) * (1 + u) :=
      mul_le_mul_of_nonneg_right (by linarith) (by linarith)
    have h4 : b.tokens * u ≤ rl.rate * D * (1000000000 * u) := by
      have e1 : b.tokens * u ≤ rl.rate * u := by
        rw [hRC]; exact mul_le_mul_of_nonneg_right hTC hu
      have e2 : rl.rate * u * 1 ≤ rl.rate * u * (1000000000 * D) :=
        mul_le_mul_of_nonneg_left (by linarith) (mul_nonneg hR hu)
      calc b.tokens * u ≤ rl.rate * u := e1
        _ = rl.rate * u * 1 := (mul_one _).symm
        _ ≤ rl.rate * u * (1000000000 * D) := e2
        _ = rl.rate * D * (1000000000 * u) := by ring
    have h6 : rl.rate * D * ((1 + u) ^ (5 : ℕ) + 1000000000 * u)
        ≤ rl.rate * D * (1 + 1 / (2 : ℚ) ^ (23 : ℕ)) :=
      mul_le_mul_of_nonneg_left h5 (mul_nonneg hR hD0)
    have h7 : (b.tokens + D * (1 + u) ^ (3 : ℕ) * rl.rate * (1 + u)) * (1 + u)
        = b.tokens + b.tokens * u + rl.rate * D * (1 + u) ^ (5 : ℕ) := by ring
    have h8 : rl.rate * D * ((1 + u) ^ (5 : ℕ) + 1000000000 * u)
        = rl.rate * D * (1 + u) ^ (5 : ℕ) + rl.rate * D * (1000000000 * u) := by ring
    calc fl (b.tokens + fl (S * rl.rate))
        ≤ (b.tokens + fl (S * rl.rate)) * (1 + u) := hraw
      _ ≤ (b.tokens + D * (1 + u) ^ (3 : ℕ) * rl.rate * (1 + u)) * (1 + u) := h3
      _ = b.tokens + b.tokens * u + rl.rate * D * (1 + u) ^ (5 : ℕ) := h7
      _ ≤ b.tokens + rl.rate * D * ((1 + u) ^ (5 : ℕ) + 1000000000 * u) := by
          rw [h8]; linarith
      _ ≤ b.tokens + rl.rate * D * (1 + 1 / (2 : ℚ) ^ (23 : ℕ)) := by linarith

/-- The balance after the refill and the cap obeys the same bound. -/
theorem f64_refill_le (rl : RateLimiter) (b : clientData) (now : Time)
    (hRC : rl.rate = rl.bucketSize) (hC : 0 ≤ rl.bucketSize) (hTf : IsFloat b.tokens)
    (hT0 : 0 ≤ b.tokens) (hTC : b.tokens ≤ rl.bucketSize) (hL : b.lastRefillTime ≤ now) :
    F64.refill rl b now
      ≤ b.tokens + rl.rate * seconds (timeSub now b.lastRefillTime)
          * (1 + 1 / (2 : ℚ) ^ (23 : ℕ)) := by
  rw [f64_refill_eq_min]
  exact le_trans (min_le_right _ _) (f64_refillRaw_le rl b now hRC hC hTf hT0 hTC hL)

/-- Under the invariant the elapsed time a `float64` call measures is not negative. -/
theorem f64_wf_lastRefill_le_now {rl : RateLimiter} {c : Call} {cs : List Call}
    (h : F64.WellFormed rl (c :: cs)) :
    (lookupOrCreate rl c.clientName c.created).lastRefillTime ≤ c.now := by
  obtain ⟨_, _, _, _, hclock, hb⟩ := h
  cases hk : rl.clients c.clientName with
  | some b =>
    rw [lookupOrCreate_some hk]
    exact (hb _ b hk).2.2.2 c.now
      (List.mem_append_left _ (now_mem_clockReads rl c))
  | none =>
    rw [lookupOrCreate_none hk]
    have h1 : F64.NonDecreasingClock rl (c :: cs) := hclock
    simp only [F64.NonDecreasingClock, F64.clockTrace, clockReads, hk] at h1
    have h2 := (List.pairwise_append.mp h1).1
    simp only [List.pairwise_cons] at h2
    exact h2.1 c.now (by simp)

/-- Under the invariant the bucket a call works on holds a float between 0 and
`bucketSize` before the refill. -/
theorem f64_wf_lookup {rl : RateLimiter} {cs : List Call} (h : F64.WellFormed rl cs)
    (k : String) (created : Time) :
    IsFloat (lookupOrCreate rl k created).tokens ∧
      0 ≤ (lookupOrCreate rl k created).tokens ∧
      (lookupOrCreate rl k created).tokens ≤ rl.bucketSize := by
  obtain ⟨_, hCf, hC1, _, _, hb⟩ := h
  cases hk : rl.clients k with
  | some b =>
    rw [lookupOrCreate_some hk]
    exact ⟨(hb _ b hk).1, (hb _ b hk).2.1, (hb _ b hk).2.2.1⟩
  | none =>
    rw [lookupOrCreate_none hk]
    exact ⟨hCf, le_trans zero_le_one hC1, le_refl _⟩

/-- Under the invariant the balance a call works on is a float between 0 and
`bucketSize`. -/
theorem f64_wf_refill_range {rl : RateLimiter} {c : Call} {cs : List Call}
    (h : F64.WellFormed rl (c :: cs)) :
    IsFloat (F64.refill rl (lookupOrCreate rl c.clientName c.created) c.now) ∧
      0 ≤ F64.refill rl (lookupOrCreate rl c.clientName c.created) c.now ∧
      F64.refill rl (lookupOrCreate rl c.clientName c.created) c.now ≤ rl.bucketSize := by
  have hL := f64_wf_lastRefill_le_now h
  obtain ⟨_, hT0, _⟩ := f64_wf_lookup h c.clientName c.created
  obtain ⟨hRC, hCf, hC1, _, _, _⟩ := h
  refine ⟨f64_isFloat_refill rl _ c.now hCf, ?_, f64_refill_le_bucketSize rl _ c.now⟩
  rw [f64_refill_eq_min]
  refine le_min (le_trans zero_le_one hC1) ?_
  unfold F64.refillRaw
  have hR : 0 ≤ rl.rate := by rw [hRC]; exact le_trans zero_le_one hC1
  exact fl_nonneg (add_nonneg hT0
    (fl_nonneg (mul_nonneg (f64_seconds_nonneg (sub_nonneg.mpr hL)) hR)))

/-- The balance an allowed call leaves is the balance it worked on minus one, exactly. -/
theorem f64_wf_left {rl : RateLimiter} {c : Call} {cs : List Call}
    (h : F64.WellFormed rl (c :: cs)) :
    (if 1 ≤ F64.refill rl (lookupOrCreate rl c.clientName c.created) c.now
      then fl (F64.refill rl (lookupOrCreate rl c.clientName c.created) c.now - 1)
      else F64.refill rl (lookupOrCreate rl c.clientName c.created) c.now)
    = (if 1 ≤ F64.refill rl (lookupOrCreate rl c.clientName c.created) c.now
      then F64.refill rl (lookupOrCreate rl c.clientName c.created) c.now - 1
      else F64.refill rl (lookupOrCreate rl c.clientName c.created) c.now) := by
  obtain ⟨hXf, _, hXC⟩ := f64_wf_refill_range h
  by_cases h1 : 1 ≤ F64.refill rl (lookupOrCreate rl c.clientName c.created) c.now
  · rw [if_pos h1, if_pos h1]
    exact IsFloat.sub_one hXf h1 (le_trans hXC h.2.2.2.1)
  · rw [if_neg h1, if_neg h1]

/-- The bucket of its client after a call made under the invariant. -/
theorem f64_wf_clients_self {rl : RateLimiter} {c : Call} {cs : List Call}
    (h : F64.WellFormed rl (c :: cs)) :
    (F64.call rl c).2.clients c.clientName
      = some { tokens :=
                 if 1 ≤ F64.refill rl (lookupOrCreate rl c.clientName c.created) c.now
                 then F64.refill rl (lookupOrCreate rl c.clientName c.created) c.now - 1
                 else F64.refill rl (lookupOrCreate rl c.clientName c.created) c.now,
               lastRefillTime := c.now } := by
  unfold F64.call
  rw [f64_clients_self, f64_wf_left h]

/-- The invariant is preserved by one `float64` call. -/
theorem f64_wf_step {rl : RateLimiter} {c : Call} {cs : List Call}
    (h : F64.WellFormed rl (c :: cs)) : F64.WellFormed (F64.call rl c).2 cs := by
  obtain ⟨hXf, hX0, hXC⟩ := f64_wf_refill_range h
  have hself := f64_wf_clients_self h
  obtain ⟨hRC, hCf, hC1, hC53, hclock, hb⟩ := h
  have hsplit : (clockReads rl c ++ F64.clockTrace (F64.call rl c).2 cs).Pairwise
      (fun a b => a ≤ b) := hclock
  obtain ⟨_, hrest, hcross⟩ := List.pairwise_append.mp hsplit
  refine ⟨by rw [f64_call_rate, f64_call_bucketSize]; exact hRC,
    by rw [f64_call_bucketSize]; exact hCf, by rw [f64_call_bucketSize]; exact hC1,
    by rw [f64_call_bucketSize]; exact hC53, hrest, ?_⟩
  intro k b hk
  rw [f64_call_bucketSize]
  by_cases hkc : k = c.clientName
  · subst hkc
    rw [hself] at hk
    simp only [Option.some.injEq] at hk
    subst hk
    by_cases h1 : 1 ≤ F64.refill rl (lookupOrCreate rl c.clientName c.created) c.now
    · simp only [if_pos h1]
      refine ⟨IsFloat.sub_one hXf h1 (le_trans hXC hC53), by linarith, by linarith, ?_⟩
      intro r hr
      exact hcross c.now (now_mem_clockReads rl c) r hr
    · simp only [if_neg h1]
      refine ⟨hXf, hX0, hXC, ?_⟩
      intro r hr
      exact hcross c.now (now_mem_clockReads rl c) r hr
  · unfold F64.call at hk
    rw [f64_clients_other rl c.clientName c.created c.now hkc] at hk
    obtain ⟨hf, h0, h1, h2⟩ := hb k b hk
    exact ⟨hf, h0, h1, fun r hr => h2 r (List.mem_append_right _ hr)⟩

/-- The invariant holds at construction when `max(N, 1) ≤ 2^53`, for every sequence of
calls whose clock values never decrease. -/
theorem f64_wf_init (n : Int) (hn : max n 1 ≤ 2 ^ (53 : ℕ)) (cs : List Call)
    (h : F64.NonDecreasingClock (F64.NewRateLimiter n) cs) :
    F64.WellFormed (F64.NewRateLimiter n) cs := by
  have h1 : (1 : Int) ≤ max n 1 := le_max_right _ _
  have hfl : fl ((max n 1 : Int) : ℚ) = ((max n 1 : Int) : ℚ) :=
    fl_intCast _ (by rw [abs_of_nonneg (le_trans zero_le_one h1)]; exact hn)
  refine ⟨?_, ?_, ?_, ?_, h, ?_⟩
  · rw [f64_New_rate, f64_New_bucketSize]
  · rw [f64_New_bucketSize]; exact fl_isFloat _
  · rw [f64_New_bucketSize]; exact one_le_fl_max n
  · rw [f64_New_bucketSize, hfl]; exact_mod_cast hn
  · intro k b hk
    simp [F64.NewRateLimiter] at hk

theorem f64_allowedIn_cons (k : String) (t0 t1 : Time) (rl : RateLimiter) (c : Call)
    (cs : List Call) :
    F64.allowedIn k t0 t1 rl (c :: cs)
      = (if c.clientName = k ∧ t0 ≤ c.now ∧ c.now ≤ t1 ∧ (F64.call rl c).1 = true
          then 1 else 0)
          + F64.allowedIn k t0 t1 (F64.call rl c).2 cs := rfl

/-- A call outside the window, or for another client, or denied, is not counted. -/
theorem f64_allowedIn_cons_skip (k : String) (t0 t1 : Time) (rl : RateLimiter) (c : Call)
    (cs : List Call)
    (h : ¬ (c.clientName = k ∧ t0 ≤ c.now ∧ c.now ≤ t1 ∧ (F64.call rl c).1 = true)) :
    F64.allowedIn k t0 t1 rl (c :: cs) = F64.allowedIn k t0 t1 (F64.call rl c).2 cs := by
  rw [f64_allowedIn_cons, if_neg h, Nat.zero_add]

/-- A counted call took one token: what it counts plus the balance it leaves is at most
the balance it worked on. -/
theorem f64_counted_add_left_le (k : String) (t0 t1 : Time) (rl : RateLimiter) (c : Call) :
    (((if c.clientName = k ∧ t0 ≤ c.now ∧ c.now ≤ t1 ∧ (F64.call rl c).1 = true
        then 1 else 0 : Nat) : ℚ))
      + (if 1 ≤ F64.refill rl (lookupOrCreate rl c.clientName c.created) c.now
         then F64.refill rl (lookupOrCreate rl c.clientName c.created) c.now - 1
         else F64.refill rl (lookupOrCreate rl c.clientName c.created) c.now)
      ≤ F64.refill rl (lookupOrCreate rl c.clientName c.created) c.now := by
  by_cases h1 : 1 ≤ F64.refill rl (lookupOrCreate rl c.clientName c.created) c.now
  · rw [if_pos h1]
    have : (((if c.clientName = k ∧ t0 ≤ c.now ∧ c.now ≤ t1 ∧ (F64.call rl c).1 = true
        then 1 else 0 : Nat) : ℚ)) ≤ 1 := by
      split_ifs <;> norm_num
    linarith
  · rw [if_neg h1]
    have hv : (F64.call rl c).1 = false := by
      unfold F64.call
      rw [f64_verdict]; exact decide_eq_false h1
    simp [hv]

/-- From a state in which client `k` has the bucket `(T, L)`: the allowed `float64` calls
still to come with clock value at most `t1` number at most
`T + rate * (t1 - L) * (1 + 2^-23)`, and there are none when `L` is already past `t1`. -/
theorem f64_allowedIn_of_bucket (k : String) (t0 t1 : Time) (cs : List Call) :
    ∀ (rl : RateLimiter) (b : clientData), F64.WellFormed rl cs → rl.clients k = some b →
      (b.lastRefillTime ≤ t1 →
        (F64.allowedIn k t0 t1 rl cs : ℚ)
          ≤ b.tokens + rl.rate * seconds (timeSub t1 b.lastRefillTime)
              * (1 + 1 / (2 : ℚ) ^ (23 : ℕ))) ∧
      (t1 < b.lastRefillTime → F64.allowedIn k t0 t1 rl cs = 0) := by
  induction cs with
  | nil =>
    intro rl b h hb
    refine ⟨fun hL => ?_, fun _ => rfl⟩
    have h0 := (h.2.2.2.2.2 k b hb).2.1
    have hR : 0 ≤ rl.rate := by rw [h.1]; exact le_trans zero_le_one h.2.2.1
    have h1 := mul_nonneg (mul_nonneg hR (seconds_nonneg (sub_nonneg.mpr hL)))
      (by norm_num : (0 : ℚ) ≤ 1 + 1 / (2 : ℚ) ^ (23 : ℕ))
    simp only [F64.allowedIn, Nat.cast_zero]
    exact add_nonneg h0 h1
  | cons c cs ih =>
    intro rl b h hb
    have hstep := f64_wf_step h
    obtain ⟨hTf, hT0, hTC, _⟩ := h.2.2.2.2.2 k b hb
    have hRC := h.1
    have hC0 : 0 ≤ rl.bucketSize := le_trans zero_le_one h.2.2.1
    have hR : 0 ≤ rl.rate := by rw [hRC]; exact hC0
    have hslack : (0 : ℚ) ≤ 1 + 1 / (2 : ℚ) ^ (23 : ℕ) := by norm_num
    by_cases hc : c.clientName = k
    · have hlook : lookupOrCreate rl c.clientName c.created = b := by
        rw [hc]; exact lookupOrCreate_some hb c.created
      have hLnow : b.lastRefillTime ≤ c.now := by
        have := f64_wf_lastRefill_le_now h; rwa [hlook] at this
      have hcount := f64_counted_add_left_le k t0 t1 rl c
      have hself := f64_wf_clients_self h
      rw [hlook] at hcount hself
      have hraw := f64_refill_le rl b c.now hRC hC0 hTf hT0 hTC hLnow
      have hself' : (F64.call rl c).2.clients k = some
          { tokens := if 1 ≤ F64.refill rl b c.now then F64.refill rl b c.now - 1
                      else F64.refill rl b c.now,
            lastRefillTime := c.now } := by
        rw [← hc]; exact hself
      obtain ⟨ih1, ih2⟩ := ih (F64.call rl c).2 _ hstep hself'
      rw [f64_call_rate] at ih1
      simp only at ih1 ih2
      refine ⟨fun hL => ?_, fun hL => ?_⟩
      · by_cases hw : c.now ≤ t1
        · rw [f64_allowedIn_cons, Nat.cast_add]
          have hrest := ih1 hw
          have hadd := seconds_timeSub_add t1 c.now b.lastRefillTime
          have hmul : rl.rate * seconds (timeSub t1 b.lastRefillTime)
                * (1 + 1 / (2 : ℚ) ^ (23 : ℕ))
              = rl.rate * seconds (timeSub t1 c.now) * (1 + 1 / (2 : ℚ) ^ (23 : ℕ))
                + rl.rate * seconds (timeSub c.now b.lastRefillTime)
                    * (1 + 1 / (2 : ℚ) ^ (23 : ℕ)) := by
            rw [← hadd]; ring
          linarith
        · have hzero := ih2 (not_le.mp hw)
          rw [f64_allowedIn_cons_skip k t0 t1 rl c cs (fun hh => hw hh.2.2.1), hzero]
          have h1 := mul_nonneg (mul_nonneg hR (seconds_nonneg (sub_nonneg.mpr hL))) hslack
          simp only [Nat.cast_zero]
          exact add_nonneg hT0 h1
      · have hlt : t1 < c.now := lt_of_lt_of_le hL hLnow
        rw [f64_allowedIn_cons_skip k t0 t1 rl c cs (fun hh => not_le.mpr hlt hh.2.2.1)]
        exact ih2 hlt
    · have hother : (F64.call rl c).2.clients k = some b := by
        unfold F64.call
        rw [f64_clients_other rl c.clientName c.created c.now (Ne.symm hc)]
        exact hb
      obtain ⟨ih1, ih2⟩ := ih (F64.call rl c).2 b hstep hother
      rw [f64_call_rate] at ih1
      rw [f64_allowedIn_cons_skip k t0 t1 rl c cs (fun hh => hc hh.1)]
      exact ⟨ih1, ih2⟩

/-- The token-bucket bound in `float64` from any state satisfying the invariant. -/
theorem f64_allowedIn_le (k : String) (t0 t1 : Time) (ht : t0 ≤ t1) (cs : List Call) :
    ∀ rl : RateLimiter, F64.WellFormed rl cs →
      (F64.allowedIn k t0 t1 rl cs : ℚ)
        ≤ rl.bucketSize + rl.rate * seconds (timeSub t1 t0)
            * (1 + 1 / (2 : ℚ) ^ (23 : ℕ)) := by
  induction cs with
  | nil =>
    intro rl h
    have hC0 : 0 ≤ rl.bucketSize := le_trans zero_le_one h.2.2.1
    have hR : 0 ≤ rl.rate := by rw [h.1]; exact hC0
    have h1 := mul_nonneg (mul_nonneg hR (seconds_nonneg (sub_nonneg.mpr ht)))
      (by norm_num : (0 : ℚ) ≤ 1 + 1 / (2 : ℚ) ^ (23 : ℕ))
    simp only [F64.allowedIn, Nat.cast_zero]
    exact add_nonneg hC0 h1
  | cons c cs ih =>
    intro rl h
    have hstep := f64_wf_step h
    have hC0 : 0 ≤ rl.bucketSize := le_trans zero_le_one h.2.2.1
    have hR : 0 ≤ rl.rate := by rw [h.1]; exact hC0
    have ihr := ih (F64.call rl c).2 hstep
    rw [f64_call_rate, f64_call_bucketSize] at ihr
    by_cases hin : c.clientName = k ∧ t0 ≤ c.now ∧ c.now ≤ t1 ∧ (F64.call rl c).1 = true
    · obtain ⟨hc, hlo, hhi, _⟩ := hin
      have hcount := f64_counted_add_left_le k t0 t1 rl c
      have hle := f64_refill_le_bucketSize rl (lookupOrCreate rl c.clientName c.created) c.now
      have hself : (F64.call rl c).2.clients k = some
          { tokens :=
              if 1 ≤ F64.refill rl (lookupOrCreate rl c.clientName c.created) c.now
              then F64.refill rl (lookupOrCreate rl c.clientName c.created) c.now - 1
              else F64.refill rl (lookupOrCreate rl c.clientName c.created) c.now,
            lastRefillTime := c.now } := by
        rw [← hc]; exact f64_wf_clients_self h
      obtain ⟨ih1, _⟩ := f64_allowedIn_of_bucket k t0 t1 cs (F64.call rl c).2 _ hstep hself
      rw [f64_call_rate] at ih1
      simp only at ih1
      have hrest := ih1 hhi
      have hmono : rl.rate * seconds (timeSub t1 c.now) * (1 + 1 / (2 : ℚ) ^ (23 : ℕ))
          ≤ rl.rate * seconds (timeSub t1 t0) * (1 + 1 / (2 : ℚ) ^ (23 : ℕ)) :=
        mul_le_mul_of_nonneg_right
          (mul_le_mul_of_nonneg_left (seconds_timeSub_mono hlo) hR) (by norm_num)
      rw [f64_allowedIn_cons, Nat.cast_add]
      linarith
    · rw [f64_allowedIn_cons_skip k t0 t1 rl c cs hin]
      exact ihr

/-! ## Windows that exceed `C + R * D` -/

/-- Every clock value read along a run is the creation stamp or the refill read of one of
the calls. -/
theorem f64_clockTrace_mem (cs : List Call) :
    ∀ (rl : RateLimiter) (r : Time), r ∈ F64.clockTrace rl cs →
      ∃ c ∈ cs, r = c.created ∨ r = c.now := by
  induction cs with
  | nil => intro rl r h; simp [F64.clockTrace] at h
  | cons c cs ih =>
    intro rl r h
    simp only [F64.clockTrace, List.mem_append] at h
    rcases h with h | h
    · refine ⟨c, List.mem_cons_self _ _, ?_⟩
      unfold clockReads at h
      cases hk : rl.clients c.clientName with
      | none => simpa [hk] using h
      | some b => right; simpa [hk] using h
    · obtain ⟨c', hc', h'⟩ := ih _ r h
      exact ⟨c', List.mem_cons_of_mem _ hc', h'⟩

theorem f64_clockTrace_append (cs1 cs2 : List Call) :
    ∀ rl : RateLimiter, F64.clockTrace rl (cs1 ++ cs2)
      = F64.clockTrace rl cs1 ++ F64.clockTrace (F64.run rl cs1).2 cs2 := by
  induction cs1 with
  | nil => intro rl; rfl
  | cons c cs ih =>
    intro rl
    rw [List.cons_append]
    show clockReads rl c ++ F64.clockTrace (F64.call rl c).2 (cs ++ cs2)
      = (clockReads rl c ++ F64.clockTrace (F64.call rl c).2 cs)
          ++ F64.clockTrace (F64.run (F64.call rl c).2 cs).2 cs2
    rw [ih, List.append_assoc]

theorem f64_allowedIn_append (k : String) (t0 t1 : Time) (cs1 cs2 : List Call) :
    ∀ rl : RateLimiter, F64.allowedIn k t0 t1 rl (cs1 ++ cs2)
      = F64.allowedIn k t0 t1 rl cs1 + F64.allowedIn k t0 t1 (F64.run rl cs1).2 cs2 := by
  induction cs1 with
  | nil => intro rl; simp [F64.allowedIn, F64.run]
  | cons c cs ih =>
    intro rl
    rw [List.cons_append, f64_allowedIn_cons, f64_allowedIn_cons, ih, Nat.add_assoc]
    rfl

/-- When every call is for `k` and reads the clock inside the window, the calls counted
are the verdicts `true`. -/
theorem f64_allowedIn_eq_count (k : String) (t0 t1 : Time) (cs : List Call) :
    ∀ rl : RateLimiter, (∀ c ∈ cs, c.clientName = k ∧ t0 ≤ c.now ∧ c.now ≤ t1) →
      F64.allowedIn k t0 t1 rl cs = (F64.run rl cs).1.count true := by
  induction cs with
  | nil => intro rl _; rfl
  | cons c cs ih =>
    intro rl h
    obtain ⟨h1, h2, h3⟩ := h c (List.mem_cons_self _ _)
    have ih' := ih (F64.call rl c).2 (fun c' hc' => h c' (List.mem_cons_of_mem _ hc'))
    rw [f64_allowedIn_cons, ih']
    simp only [F64.run, List.count_cons]
    cases hv : (F64.call rl c).1 <;> simp [h1, h2, h3, Nat.add_comm]

/-- A run whose calls all read one clock value is under a non-decreasing clock. -/
theorem f64_clock_replicate (rl : RateLimiter) (k : String) (t : Time) (j : Nat) :
    ∀ r ∈ F64.clockTrace rl (List.replicate j ⟨k, t, t⟩), r = t := by
  intro r hr
  obtain ⟨c, hc, h⟩ := f64_clockTrace_mem _ rl r hr
  have := List.eq_of_mem_replicate hc
  subst this
  rcases h with h | h <;> exact h

/-- A drain at clock value 0 followed by a burst at clock value `d`: with
`1 ≤ N ≤ 2^53`, when the refilled and capped balance `X` satisfies `m ≤ X < m + 1`, the
`N` calls of the drain and the first `m` calls of the burst are the allowed ones. -/
theorem f64_drain_then_burst (N : Int) (n : Nat) (hN : N = n) (hn : 1 ≤ n)
    (hn53 : n ≤ 2 ^ (53 : ℕ)) (k : String) (d : Time) (hd : 0 ≤ d) (j m : Nat)
    (hlo : (m : ℚ) ≤ min (n : ℚ) (fl (F64.seconds d * n)))
    (hhi : min (n : ℚ) (fl (F64.seconds d * n)) < (m : ℚ) + 1) :
    F64.NonDecreasingClock (F64.NewRateLimiter N)
      (List.replicate n ⟨k, 0, 0⟩ ++ List.replicate j ⟨k, d, d⟩) ∧
    F64.allowedIn k 0 d (F64.NewRateLimiter N)
      (List.replicate n ⟨k, 0, 0⟩ ++ List.replicate j ⟨k, d, d⟩) = n + min j m := by
  obtain ⟨hv, hb, hR, hC⟩ := f64_drained N n hN hn hn53 k 0
  have hburst := f64_drained_burst n hn53 _ k 0 d d j m hR hC hb hlo hhi
  rw [zero_add] at hburst
  constructor
  · unfold F64.NonDecreasingClock
    rw [f64_clockTrace_append, List.pairwise_append]
    refine ⟨?_, ?_, ?_⟩
    · apply List.pairwise_of_forall_mem_list
      intro a ha b hb'
      rw [f64_clock_replicate _ k 0 n a ha, f64_clock_replicate _ k 0 n b hb']
    · apply List.pairwise_of_forall_mem_list
      intro a ha b hb'
      rw [f64_clock_replicate _ k d j a ha, f64_clock_replicate _ k d j b hb']
    · intro a ha b hb'
      rw [f64_clock_replicate _ k 0 n a ha, f64_clock_replicate _ k d j b hb']
      exact hd
  · rw [f64_allowedIn_append,
      f64_allowedIn_eq_count k 0 d _ _ (fun c hc => by
        rw [List.eq_of_mem_replicate hc]; exact ⟨rfl, le_refl _, hd⟩),
      f64_allowedIn_eq_count k 0 d _ _ (fun c hc => by
        rw [List.eq_of_mem_replicate hc]; exact ⟨rfl, hd, le_refl _⟩),
      hv, hburst, List.count_replicate_self, List.count_append, List.count_replicate_self]
    have : List.count true (List.replicate (j - m) false) = 0 :=
      List.count_eq_zero.mpr (fun h => by
        have := List.eq_of_mem_replicate h
        exact absurd this (by decide))
    rw [this, Nat.add_zero]

/-- `float64` of 0.998191731. -/
theorem fl_998ms :
    fl ((998191731 / 1000000000 : ℚ)) = 8990911815551821 / 9007199254740992 := by
  rw [fl_eval (-1) 8990911815551821 (by rw [abs_of_pos] <;> norm_num)
    (by rw [abs_of_pos] <;> norm_num) (by rw [abs_lt]; constructor <;> norm_num)]
  norm_num

/-- `0.998191731 * 8405829` in `float64` is `8390629`, above the exact product. -/
theorem fl_998ms_rate :
    fl ((75576067275608147964609 / 9007199254740992 : ℚ)) = 8390629 := by
  rw [fl_eval 23 4504684643483648 (by rw [abs_of_pos] <;> norm_num)
    (by rw [abs_of_pos] <;> norm_num) (by rw [abs_lt]; constructor <;> norm_num)]
  norm_num

/-- Counterexample to C1 as stated. With `N = 8405829`, after `N` calls at clock value 0
the refill `0.998191731 * 8405829` is rounded up to `8390629`, so `8390629` calls at
clock value `998191731` ns are allowed: `16796458` allowed calls in a window with
`C + R * D = 16796457.999999999`. And with `N = 2^54`, where `tokens--` leaves the
balance `2^54` unchanged, `2^54 + 1` calls at one clock value are all allowed, in a
window of length 0. -/
theorem token_bucket_counterexample :
    F64.NonDecreasingClock (F64.NewRateLimiter 8405829)
      (List.replicate 8405829 ⟨"a", 0, 0⟩
        ++ List.replicate 8390629 ⟨"a", 998191731, 998191731⟩) ∧
    (F64.NewRateLimiter 8405829).bucketSize
        + (F64.NewRateLimiter 8405829).rate * seconds (timeSub 998191731 0)
      < (F64.allowedIn "a" 0 998191731 (F64.NewRateLimiter 8405829)
          (List.replicate 8405829 ⟨"a", 0, 0⟩
            ++ List.replicate 8390629 ⟨"a", 998191731, 998191731⟩) : ℚ) ∧
    F64.NonDecreasingClock (F64.NewRateLimiter 18014398509481984)
      (List.replicate 18014398509481985 ⟨"a", 0, 0⟩) ∧
    (F64.NewRateLimiter 18014398509481984).bucketSize
        + (F64.NewRateLimiter 18014398509481984).rate * seconds (timeSub 0 0)
      < (F64.allowedIn "a" 0 0 (F64.NewRateLimiter 18014398509481984)
          (List.replicate 18014398509481985 ⟨"a", 0, 0⟩) : ℚ) := by
  have hbal : fl (F64.seconds 998191731 * ((8405829 : ℕ) : ℚ)) = 8390629 := by
    rw [f64_seconds_lt_second _ (by norm_num) (by norm_num)]
    norm_num
    rw [fl_998ms]
    norm_num
    exact fl_998ms_rate
  obtain ⟨hclock, hcount⟩ := f64_drain_then_burst 8405829 8405829 (by norm_num)
    (by norm_num) (by norm_num) "a" 998191731 (by norm_num) 8390629 8390629
    (by rw [hbal]; norm_num) (by rw [hbal]; norm_num)
  have hfl1 : fl (8405829 : ℚ) = 8405829 := by
    have := fl_natCast 8405829 (by norm_num)
    norm_num at this ⊢
    exact this
  have hC1 : (F64.NewRateLimiter 8405829).bucketSize = 8405829 := by
    rw [f64_New_bucketSize]; norm_num [hfl1]
  have hR1 : (F64.NewRateLimiter 8405829).rate = 8405829 := by
    rw [f64_New_rate]; norm_num [hfl1]
  have hfl2 : fl (18014398509481984 : ℚ) = 18014398509481984 := by
    have := fl_int_mul_zpow 1 54 (by norm_num)
    norm_num at this ⊢
    exact this
  have hC2 : (F64.NewRateLimiter 18014398509481984).bucketSize = 18014398509481984 := by
    rw [f64_New_bucketSize]; norm_num [hfl2]
  have hR2 : (F64.NewRateLimiter 18014398509481984).rate = 18014398509481984 := by
    rw [f64_New_rate]; norm_num [hfl2]
  have hall := f64_burst_absorbed "a" 0 0 18014398509481985 _ hC2
    (by rw [f64_refill_new_same_instant _ "a" 0 rfl (by rw [hC2]; exact hfl2), hC2])
  refine ⟨hclock, ?_, ?_, ?_⟩
  · rw [hcount, hC1, hR1]
    norm_num [seconds, timeSub]
  · apply List.pairwise_of_forall_mem_list
    intro a ha b hb
    rw [f64_clock_replicate _ "a" 0 _ a ha, f64_clock_replicate _ "a" 0 _ b hb]
  · rw [f64_allowedIn_eq_count "a" 0 0 _ _ (fun c hc => by
        rw [List.eq_of_mem_replicate hc]; exact ⟨rfl, le_refl _, le_refl _⟩),
      hall, List.count_replicate_self, hC2, hR2]
    norm_num [seconds, timeSub]

/-- Two `float64` calls of client `"a"` half a second apart read the clock values 0, 0
and `5 * 10^8`, which never decrease. -/
theorem f64_twoCalls_clock :
    F64.NonDecreasingClock (F64.NewRateLimiter 2) [⟨"a", 0, 0⟩, ⟨"a", 0, 500000000⟩] := by
  have h1 : (F64.NewRateLimiter 2).clients "a" = none := rfl
  simp only [F64.NonDecreasingClock, F64.clockTrace, clockReads, h1, F64.call,
    f64_clients_self]
  simp

/-- C1 (amended). Token-bucket bound in `float64`, sequential case: for every `N` with
`max(N, 1) ≤ 2^53` (`R = C = max(N, 1)`), every client `k`, every sequence of calls
started from `NewRateLimiter(N)` whose clock values never decrease, and every window
`[t0, t1]`, the number of calls for `k` whose clock value lies in the window and that
return true is at most `C + R * D * (1 + 2^-23)`, where `D = t1 - t0` in seconds. -/
theorem token_bucket_bound_float (n : Int) (hn : max n 1 ≤ 2 ^ (53 : ℕ)) (k : String)
    (cs : List Call) (t0 t1 : Time)
    (hclock : F64.NonDecreasingClock (F64.NewRateLimiter n) cs) (ht : t0 ≤ t1) :
    (F64.allowedIn k t0 t1 (F64.NewRateLimiter n) cs : ℚ)
      ≤ ((max n 1 : Int) : ℚ)
        + ((max n 1 : Int) : ℚ) * (((t1 - t0 : Int) : ℚ) / 1000000000)
            * (1 + 1 / (2 : ℚ) ^ (23 : ℕ)) := by
  have h1 : (1 : Int) ≤ max n 1 := le_max_right _ _
  have hfl : fl ((max n 1 : Int) : ℚ) = ((max n 1 : Int) : ℚ) :=
    fl_intCast _ (by rw [abs_of_nonneg (le_trans zero_le_one h1)]; exact hn)
  have h := f64_allowedIn_le k t0 t1 ht cs _ (f64_wf_init n hn cs hclock)
  rw [f64_New_rate, f64_New_bucketSize, hfl] at h
  simpa only [seconds, timeSub] using h

/-- Witness for the amended C1: two calls of client `"a"` on `NewRateLimiter(2)` half a
second apart, counted in the window from 0 to `5 * 10^8` nanoseconds. -/
theorem token_bucket_bound_float_witness :
    max (2 : Int) 1 ≤ 2 ^ (53 : ℕ) ∧
    F64.NonDecreasingClock (F64.NewRateLimiter 2) [⟨"a", 0, 0⟩, ⟨"a", 0, 500000000⟩] ∧
    (0 : Time) ≤ 500000000 ∧
    (F64.allowedIn "a" 0 500000000 (F64.NewRateLimiter 2)
        [⟨"a", 0, 0⟩, ⟨"a", 0, 500000000⟩] : ℚ)
      ≤ ((max 2 1 : Int) : ℚ)
          + ((max 2 1 : Int) : ℚ) * (((500000000 - 0 : Int) : ℚ) / 1000000000)
              * (1 + 1 / (2 : ℚ) ^ (23 : ℕ)) :=
  ⟨by norm_num, f64_twoCalls_clock, by decide,
   token_bucket_bound_float 2 (by norm_num) "a" _ 0 500000000 f64_twoCalls_clock
     (by decide)⟩

/-! ## The variant "update L only on allow" in binary64 -/

theorem f64_onAllow_verdict (rl : RateLimiter) (k : String) (created now : Time) :
    (F64.RateLimitOnAllow rl k created now).1
      = decide (1 ≤ F64.refill rl (lookupOrCreate rl k created) now) := by
  unfold F64.RateLimitOnAllow
  by_cases h : 1 ≤ F64.refill rl (lookupOrCreate rl k created) now
  · simp [h]
  · simp [h]

/-- An allowed call of the variant is the call of `RateLimit`. -/
theorem f64_onAllow_allowed (rl : RateLimiter) (k : String) (created now : Time)
    (h : 1 ≤ F64.refill rl (lookupOrCreate rl k created) now) :
    F64.RateLimitOnAllow rl k created now = F64.RateLimit rl k created now := by
  unfold F64.RateLimitOnAllow F64.RateLimit
  simp [h]

/-- A denied call of the variant on an existing bucket leaves the bucket, the rate and
the capacity as they were. -/
theorem f64_onAllow_denied (rl : RateLimiter) (k : String) (b : clientData)
    (created now : Time) (hb : rl.clients k = some b)
    (h : ¬ 1 ≤ F64.refill rl (lookupOrCreate rl k created) now) :
    (F64.RateLimitOnAllow rl k created now).2.clients k = some b ∧
    (F64.RateLimitOnAllow rl k created now).2.rate = rl.rate ∧
    (F64.RateLimitOnAllow rl k created now).2.bucketSize = rl.bucketSize := by
  rw [lookupOrCreate_some hb] at h
  unfold F64.RateLimitOnAllow
  simp [h, setClient, lookupOrCreate_some hb]

theorem f64_runOnAllow_append_fst (cs1 cs2 : List Call) :
    ∀ rl : RateLimiter, (F64.runOnAllow rl (cs1 ++ cs2)).1
      = (F64.runOnAllow rl cs1).1 ++ (F64.runOnAllow (F64.runOnAllow rl cs1).2 cs2).1 := by
  induction cs1 with
  | nil => intro rl; rfl
  | cons c cs ih =>
    intro rl
    rw [List.cons_append]
    show (F64.RateLimitOnAllow rl c.clientName c.created c.now).1
        :: (F64.runOnAllow (F64.RateLimitOnAllow rl c.clientName c.created c.now).2
              (cs ++ cs2)).1 = _
    rw [ih]
    rfl

/-- While every call is allowed the variant and `RateLimit` run alike. -/
theorem f64_runOnAllow_all_allowed (cs : List Call) :
    ∀ rl : RateLimiter, (F64.run rl cs).1 = List.replicate cs.length true →
      F64.runOnAllow rl cs = F64.run rl cs := by
  induction cs with
  | nil => intro rl _; rfl
  | cons c cs ih =>
    intro rl h
    have h' : (F64.call rl c).1 :: (F64.run (F64.call rl c).2 cs).1
        = true :: List.replicate cs.length true := h
    obtain ⟨hv, hrest⟩ := List.cons.inj h'
    have h1 : 1 ≤ F64.refill rl (lookupOrCreate rl c.clientName c.created) c.now := by
      unfold F64.call at hv
      rw [f64_verdict] at hv
      exact of_decide_eq_true hv
    show ((F64.RateLimitOnAllow rl c.clientName c.created c.now).1
        :: (F64.runOnAllow (F64.RateLimitOnAllow rl c.clientName c.created c.now).2 cs).1,
        (F64.runOnAllow (F64.RateLimitOnAllow rl c.clientName c.created c.now).2 cs).2)
      = ((F64.call rl c).1 :: (F64.run (F64.call rl c).2 cs).1,
        (F64.run (F64.call rl c).2 cs).2)
    rw [f64_onAllow_allowed rl c.clientName c.created c.now h1]
    unfold F64.call at hrest ⊢
    rw [ih _ hrest]

theorem f64_call_mk (rl : RateLimiter) (k : String) (created now : Time) :
    F64.call rl ⟨k, created, now⟩ = F64.RateLimit rl k created now := rfl

theorem f64_run_pair_fst (rl : RateLimiter) (c1 c2 : Call) :
    (F64.run rl [c1, c2]).1 = [(F64.call rl c1).1, (F64.call (F64.call rl c1).2 c2).1] :=
  rfl

theorem f64_runOnAllow_pair_fst (rl : RateLimiter) (k : String) (c1 n1 c2 n2 : Time) :
    (F64.runOnAllow rl [⟨k, c1, n1⟩, ⟨k, c2, n2⟩]).1
      = [(F64.RateLimitOnAllow rl k c1 n1).1,
         (F64.RateLimitOnAllow (F64.RateLimitOnAllow rl k c1 n1).2 k c2 n2).1] := rfl

/-- Two calls for a client that has a bucket read the clock once each. -/
theorem f64_clockTrace_pair (rl : RateLimiter) (k : String) (b : clientData)
    (c1 n1 c2 n2 : Time) (hb : rl.clients k = some b) :
    F64.clockTrace rl [⟨k, c1, n1⟩, ⟨k, c2, n2⟩] = [n1, n2] := by
  simp only [F64.clockTrace, clockReads, F64.call, hb, f64_clients_self]
  rfl

/-- Counterexample to C16 as stated. On `NewRateLimiter(5)`, five calls at clock value 0,
one at 16 ms and one at 200 ms, a non-decreasing clock: `RateLimit` denies the last call
(the refills `0.08` and `0.92` add up to `1 - 2^-53` in `float64`), the variant that
leaves the bucket untouched on a denial allows it (`0.2 * 5 = 1`). -/
theorem update_on_allow_counterexample :
    F64.NonDecreasingClock (F64.NewRateLimiter 5)
      (List.replicate 5 ⟨"a", 0, 0⟩ ++ [⟨"a", 0, 16000000⟩, ⟨"a", 0, 200000000⟩]) ∧
    (F64.run (F64.NewRateLimiter 5)
      (List.replicate 5 ⟨"a", 0, 0⟩ ++ [⟨"a", 0, 16000000⟩, ⟨"a", 0, 200000000⟩])).1
      = [true, true, true, true, true, false, false] ∧
    (F64.runOnAllow (F64.NewRateLimiter 5)
      (List.replicate 5 ⟨"a", 0, 0⟩ ++ [⟨"a", 0, 16000000⟩, ⟨"a", 0, 200000000⟩])).1
      = [true, true, true, true, true, false, true] := by
  obtain ⟨hv5, hb0, hR0, hC0⟩ := f64_drained5
  obtain ⟨hden, hb1, hR1, hC1⟩ := f64_polled5
  have hX16 := f64_poll16 traceDrained5 hR0 hC0 hb0
  have hX200 := f64_poll200 _ hR1 hC1 hb1
  have hn16 : ¬ 1 ≤ F64.refill traceDrained5 (lookupOrCreate traceDrained5 "a" 0) 16000000 := by
    rw [hX16]; norm_num
  obtain ⟨hvb, hvR, hvC⟩ := f64_onAllow_denied traceDrained5 "a" _ 0 16000000 hb0 hn16
  have hD200 := f64_direct200 _ (hvR.trans hR0) (hvC.trans hC0) hvb
  refine ⟨?_, ?_, ?_⟩
  · unfold F64.NonDecreasingClock
    rw [f64_clockTrace_append, List.pairwise_append, ← traceDrained5_eq]
    rw [f64_clockTrace_pair traceDrained5 "a" _ 0 16000000 0 200000000 hb0]
    refine ⟨?_, by simp, ?_⟩
    · apply List.pairwise_of_forall_mem_list
      intro a ha b hb
      rw [f64_clock_replicate _ "a" 0 5 a ha, f64_clock_replicate _ "a" 0 5 b hb]
    · intro a ha b hb
      rw [f64_clock_replicate _ "a" 0 5 a ha]
      simp only [List.mem_cons, List.mem_singleton, List.not_mem_nil, or_false] at hb
      rcases hb with hb | hb <;> rw [hb] <;> decide
  · rw [f64_run_append_fst, hv5, ← traceDrained5_eq]
    rw [f64_run_pair_fst, f64_call_mk, f64_call_mk, hden, f64_verdict, hX200]
    simp only [List.replicate, List.cons_append, List.nil_append, List.cons.injEq, and_true,
      true_and, decide_eq_false_iff_not, not_le]
    norm_num
  · rw [f64_runOnAllow_append_fst,
      f64_runOnAllow_all_allowed _ _ (by rw [hv5, List.length_replicate]), hv5,
      ← traceDrained5_eq, f64_runOnAllow_pair_fst, f64_onAllow_verdict, f64_onAllow_verdict,
      hX16, hD200]
    simp only [List.replicate, List.cons_append, List.nil_append, List.cons.injEq, and_true,
      true_and, decide_eq_false_iff_not, decide_eq_true_eq, not_le]
    norm_num

/-- Elapsed seconds in `float64` fall short of the exact quotient by at most three
roundings. -/
theorem f64_seconds_ge {d : Duration} (h : 0 ≤ d) :
    seconds d * (1 - 1 / (2 : ℚ) ^ (53 : ℕ)) ^ (3 : ℕ) ≤ F64.seconds d := by
  have hq : (0 : ℚ) ≤ ((d.tdiv 1000000000 : Int) : ℚ) := by
    exact_mod_cast Int.tdiv_nonneg h (by norm_num)
  have hr : (0 : ℚ) ≤ ((d.tmod 1000000000 : Int) : ℚ) := by
    exact_mod_cast Int.tmod_nonneg _ h
  have hd : (d : ℚ) = 1000000000 * ((d.tdiv 1000000000 : Int) : ℚ)
      + ((d.tmod 1000000000 : Int) : ℚ) := by
    have := Int.tdiv_add_tmod d 1000000000
    exact_mod_cast this.symm
  have h1 := mul_le_fl hq
  have h2 := mul_le_fl hr
  have h3 := mul_le_fl (div_nonneg (fl_nonneg hr) (by norm_num : (0 : ℚ) ≤ 1000000000))
  have h4 := mul_le_fl (add_nonneg (fl_nonneg hq)
    (fl_nonneg (div_nonneg (fl_nonneg hr) (by norm_num : (0 : ℚ) ≤ 1000000000))))
  unfold F64.seconds
  unfold seconds
  rw [hd]
  set q : ℚ := ((d.tdiv 1000000000 : Int) : ℚ)
  set r : ℚ := ((d.tmod 1000000000 : Int) : ℚ)
  have hv : (0 : ℚ) ≤ 1 - 1 / (2 : ℚ) ^ (53 : ℕ) := by norm_num
  have hv1 : 1 - 1 / (2 : ℚ) ^ (53 : ℕ) ≤ 1 := by norm_num
  set v : ℚ := 1 - 1 / (2 : ℚ) ^ (53 : ℕ)
  clear_value v q r
  have h5 : r * v / 1000000000 ≤ fl r / 1000000000 :=
    div_le_div_of_nonneg_right h2 (by norm_num)
  have h6 : r * v / 1000000000 * v ≤ fl (fl r / 1000000000) :=
    le_trans (mul_le_mul_of_nonneg_right h5 hv) h3
  have h7 : q * v + r * v / 1000000000 * v ≤ fl q + fl (fl r / 1000000000) :=
    add_le_add h1 h6
  have h8 : (q * v + r * v / 1000000000 * v) * v
      ≤ fl (fl q + fl (fl r / 1000000000)) :=
    le_trans (mul_le_mul_of_nonneg_right h7 hv) h4
  refine le_trans ?_ h8
  have h9 : (q * v + r * v / 1000000000 * v) * v
      - (1000000000 * q + r) / 1000000000 * v ^ (3 : ℕ)
      = q * v ^ (2 : ℕ) * (1 - v) := by
    field_simp
    ring
  have h10 : 0 ≤ q * v ^ (2 : ℕ) * (1 - v) :=
    mul_nonneg (mul_nonneg hq (pow_nonneg hv 2)) (by linarith)
  linarith

/-- Two-sided bound on the refill of one call in `float64`, `d` the exact elapsed seconds:
`T * (1 - u) + d * R * (1 - u)^5 ≤ tokens ≤ T * (1 + u) + d * R * (1 + u)^5` with
`u = 2^-53`. -/
theorem f64_refillRaw_bounds (rl : RateLimiter) (b : clientData) (now : Time)
    (hR : 0 ≤ rl.rate) (hT0 : 0 ≤ b.tokens) (hL : b.lastRefillTime ≤ now) :
    b.tokens * (1 - 1 / (2 : ℚ) ^ (53 : ℕ))
        + seconds (timeSub now b.lastRefillTime) * rl.rate
            * (1 - 1 / (2 : ℚ) ^ (53 : ℕ)) ^ (5 : ℕ)
      ≤ F64.refillRaw rl b now ∧
    F64.refillRaw rl b now
      ≤ b.tokens * (1 + 1 / (2 : ℚ) ^ (53 : ℕ))
        + seconds (timeSub now b.lastRefillTime) * rl.rate
            * (1 + 1 / (2 : ℚ) ^ (53 : ℕ)) ^ (5 : ℕ) := by
  have hd0 : (0 : Int) ≤ timeSub now b.lastRefillTime := sub_nonneg.mpr hL
  have hs0 := f64_seconds_nonneg hd0
  have hD0 := seconds_nonneg hd0
  have hlo := f64_seconds_ge hd0
  have hhi := f64_seconds_le hd0
  have ha0 := fl_nonneg (mul_nonneg hs0 hR)
  have halo := mul_le_fl (mul_nonneg hs0 hR)
  have hahi := fl_le_mul (mul_nonneg hs0 hR)
  have hrlo := mul_le_fl (add_nonneg hT0 ha0)
  have hrhi := fl_le_mul (add_nonneg hT0 ha0)
  unfold F64.refillRaw
  simp only
  have hv : (0 : ℚ) ≤ 1 - 1 / (2 : ℚ) ^ (53 : ℕ) := by norm_num
  have hw : (0 : ℚ) ≤ 1 + 1 / (2 : ℚ) ^ (53 : ℕ) := by norm_num
  set S : ℚ := F64.seconds (timeSub now b.lastRefillTime)
  set D : ℚ := seconds (timeSub now b.lastRefillTime)
  set v : ℚ := 1 - 1 / (2 : ℚ) ^ (53 : ℕ)
  set w : ℚ := 1 + 1 / (2 : ℚ) ^ (53 : ℕ)
  clear_value S D v w
  constructor
  · have h1 : D * v ^ (3 : ℕ) * rl.rate ≤ S * rl.rate := mul_le_mul_of_nonneg_right hlo hR
    have h2 : D * v ^ (3 : ℕ) * rl.rate * v ≤ fl (S * rl.rate) :=
      le_trans (mul_le_mul_of_nonneg_right h1 hv) halo
    have h3 : (b.tokens + D * v ^ (3 : ℕ) * rl.rate * v) * v
        ≤ (b.tokens + fl (S * rl.rate)) * v :=
      mul_le_mul_of_nonneg_right (by linarith) hv
    calc b.tokens * v + D * rl.rate * v ^ (5 : ℕ)
        = (b.tokens + D * v ^ (3 : ℕ) * rl.rate * v) * v := by ring
      _ ≤ (b.tokens + fl (S * rl.rate)) * v := h3
      _ ≤ fl (b.tokens + fl (S * rl.rate)) := hrlo
  · have h1 : S * rl.rate ≤ D * w ^ (3 : ℕ) * rl.rate := mul_le_mul_of_nonneg_right hhi hR
    have h2 : fl (S * rl.rate) ≤ D * w ^ (3 : ℕ) * rl.rate * w :=
      le_trans hahi (mul_le_mul_of_nonneg_right h1 hw)
    have h3 : (b.tokens + fl (S * rl.rate)) * w
        ≤ (b.tokens + D * w ^ (3 : ℕ) * rl.rate * w) * w :=
      mul_le_mul_of_nonneg_right (by linarith) hw
    calc fl (b.tokens + fl (S * rl.rate))
        ≤ (b.tokens + fl (S * rl.rate)) * w := hrhi
      _ ≤ (b.tokens + D * w ^ (3 : ℕ) * rl.rate * w) * w := h3
      _ = b.tokens * w + D * rl.rate * w ^ (5 : ℕ) := by ring

/-- Capping keeps a relative error bound: when `raw` is within the factors `1 - e` and
`1 + e` of `x`, so is `min C raw` of `min C x`. -/
theorem min_near {C x raw e : ℚ} (hC : 0 ≤ C) (he0 : 0 ≤ e) (he1 : e ≤ 1)
    (hlo : x * (1 - e) ≤ raw) (hhi : raw ≤ x * (1 + e)) :
    min C x * (1 - e) ≤ min C raw ∧ min C raw ≤ min C x * (1 + e) := by
  constructor
  · apply le_min
    · calc min C x * (1 - e) ≤ C * (1 - e) :=
            mul_le_mul_of_nonneg_right (min_le_left _ _) (by linarith)
        _ ≤ C := by nlinarith
    · exact le_trans (mul_le_mul_of_nonneg_right (min_le_right _ _) (by linarith)) hlo
  · rcases le_total C x with h | h
    · rw [min_eq_left h]
      calc min C raw ≤ C := min_le_left _ _
        _ ≤ C * (1 + e) := by nlinarith
    · rw [min_eq_right h]
      exact le_trans (min_le_right _ _) hhi

/-- The balance a call works on directly from a bucket `(T, L)` is within the factors
`1 - 2^-50` and `1 + 2^-50` of the exact `min(C, T + (now - L) * R)`. -/
theorem f64_refill_near (rl : RateLimiter) (b : clientData) (now : Time)
    (hR : 0 ≤ rl.rate) (hC : 0 ≤ rl.bucketSize) (hT0 : 0 ≤ b.tokens)
    (hL : b.lastRefillTime ≤ now) :
    refill rl b now * (1 - 1 / (2 : ℚ) ^ (50 : ℕ)) ≤ F64.refill rl b now ∧
    F64.refill rl b now ≤ refill rl b now * (1 + 1 / (2 : ℚ) ^ (50 : ℕ)) := by
  obtain ⟨hlo, hhi⟩ := f64_refillRaw_bounds rl b now hR hT0 hL
  have hD0 : 0 ≤ seconds (timeSub now b.lastRefillTime) * rl.rate :=
    mul_nonneg (seconds_nonneg (sub_nonneg.mpr hL)) hR
  have hv1 : 1 - 1 / (2 : ℚ) ^ (50 : ℕ) ≤ 1 - 1 / (2 : ℚ) ^ (53 : ℕ) := by norm_num
  have hv5 : 1 - 1 / (2 : ℚ) ^ (50 : ℕ) ≤ (1 - 1 / (2 : ℚ) ^ (53 : ℕ)) ^ (5 : ℕ) := by
    norm_num
  have hw1 : 1 + 1 / (2 : ℚ) ^ (53 : ℕ) ≤ 1 + 1 / (2 : ℚ) ^ (50 : ℕ) := by norm_num
  have hw5 : (1 + 1 / (2 : ℚ) ^ (53 : ℕ)) ^ (5 : ℕ) ≤ 1 + 1 / (2 : ℚ) ^ (50 : ℕ) := by
    norm_num
  rw [refill_eq_min, f64_refill_eq_min]
  unfold refillRaw
  simp only
  apply min_near hC (by norm_num) (by norm_num)
  · have e1 := mul_le_mul_of_nonneg_left hv1 hT0
    have e2 := mul_le_mul_of_nonneg_left hv5 hD0
    linarith
  · have e1 := mul_le_mul_of_nonneg_left hw1 hT0
    have e2 := mul_le_mul_of_nonneg_left hw5 hD0
    linarith

/-- The balance a call at `now2` works on after a denied call at `now1` on the bucket
`(T, L)` is within the factors `1 - 2^-50` and `1 + 2^-50` of the exact
`min(C, T + (now2 - L) * R)`. -/
theorem f64_refill_after_denied_near (rl : RateLimiter) (k : String) (b : clientData)
    (c1 now1 c2 now2 : Time) (hb : rl.clients k = some b) (hR : 0 ≤ rl.rate)
    (hC : 1 ≤ rl.bucketSize) (hT0 : 0 ≤ b.tokens) (h1 : b.lastRefillTime ≤ now1)
    (h2 : now1 ≤ now2) (hden : ¬ 1 ≤ F64.refill rl b now1) :
    refill rl b now2 * (1 - 1 / (2 : ℚ) ^ (50 : ℕ))
      ≤ F64.refill (F64.RateLimit rl k c1 now1).2
          (lookupOrCreate (F64.RateLimit rl k c1 now1).2 k c2) now2 ∧
    F64.refill (F64.RateLimit rl k c1 now1).2
        (lookupOrCreate (F64.RateLimit rl k c1 now1).2 k c2) now2
      ≤ refill rl b now2 * (1 + 1 / (2 : ℚ) ^ (50 : ℕ)) := by
  have hlook : lookupOrCreate rl k c1 = b := lookupOrCreate_some hb c1
  have hself : (F64.RateLimit rl k c1 now1).2.clients k
      = some { tokens := F64.refill rl b now1, lastRefillTime := now1 } := by
    rw [f64_clients_self, hlook, if_neg hden]
  have hraw1 : F64.refill rl b now1 = F64.refillRaw rl b now1 := by
    rw [f64_refill_eq_min] at hden ⊢
    apply min_eq_right
    by_contra hcon
    rw [min_eq_left (le_of_lt (not_le.mp hcon))] at hden
    exact hden hC
  obtain ⟨hlo1, hhi1⟩ := f64_refillRaw_bounds rl b now1 hR hT0 h1
  rw [← hraw1] at hlo1 hhi1
  have hD1 : 0 ≤ seconds (timeSub now1 b.lastRefillTime) * rl.rate :=
    mul_nonneg (seconds_nonneg (sub_nonneg.mpr h1)) hR
  have hD2 : 0 ≤ seconds (timeSub now2 now1) * rl.rate :=
    mul_nonneg (seconds_nonneg (sub_nonneg.mpr h2)) hR
  have hT1 : 0 ≤ F64.refill rl b now1 := by
    refine le_trans ?_ hlo1
    have e1 : (0 : ℚ) ≤ 1 - 1 / (2 : ℚ) ^ (53 : ℕ) := by norm_num
    exact add_nonneg (mul_nonneg hT0 e1) (mul_nonneg hD1 (pow_nonneg e1 5))
  obtain ⟨hlo2, hhi2⟩ := f64_refillRaw_bounds (F64.RateLimit rl k c1 now1).2
    { tokens := F64.refill rl b now1, lastRefillTime := now1 } now2
    (by rw [f64_rate]; exact hR) hT1 h2
  rw [f64_rate] at hlo2 hhi2
  simp only at hlo2 hhi2
  have hadd := seconds_timeSub_add now2 now1 b.lastRefillTime
  have hv : (0 : ℚ) ≤ 1 - 1 / (2 : ℚ) ^ (53 : ℕ) := by norm_num
  have hw : (0 : ℚ) ≤ 1 + 1 / (2 : ℚ) ^ (53 : ℕ) := by norm_num
  have hv2 : 1 - 1 / (2 : ℚ) ^ (50 : ℕ)
      ≤ (1 - 1 / (2 : ℚ) ^ (53 : ℕ)) * (1 - 1 / (2 : ℚ) ^ (53 : ℕ)) := by norm_num
  have hv5 : 1 - 1 / (2 : ℚ) ^ (50 : ℕ) ≤ (1 - 1 / (2 : ℚ) ^ (53 : ℕ)) ^ (5 : ℕ) := by
    norm_num
  have hv6 : 1 - 1 / (2 : ℚ) ^ (50 : ℕ)
      ≤ (1 - 1 / (2 : ℚ) ^ (53 : ℕ)) ^ (5 : ℕ) * (1 - 1 / (2 : ℚ) ^ (53 : ℕ)) := by
    norm_num
  have hw2 : (1 + 1 / (2 : ℚ) ^ (53 : ℕ)) * (1 + 1 / (2 : ℚ) ^ (53 : ℕ))
      ≤ 1 + 1 / (2 : ℚ) ^ (50 : ℕ) := by norm_num
  have hw5 : (1 + 1 / (2 : ℚ) ^ (53 : ℕ)) ^ (5 : ℕ) ≤ 1 + 1 / (2 : ℚ) ^ (50 : ℕ) := by
    norm_num
  have hw6 : (1 + 1 / (2 : ℚ) ^ (53 : ℕ)) ^ (5 : ℕ) * (1 + 1 / (2 : ℚ) ^ (53 : ℕ))
      ≤ 1 + 1 / (2 : ℚ) ^ (50 : ℕ) := by norm_num
  rw [lookupOrCreate_some hself, refill_eq_min, f64_refill_eq_min, f64_bucketSize]
  unfold refillRaw
  simp only
  rw [← hadd]
  have e5 : (seconds (timeSub now2 now1) + seconds (timeSub now1 b.lastRefillTime))
      * rl.rate = seconds (timeSub now2 now1) * rl.rate
        + seconds (timeSub now1 b.lastRefillTime) * rl.rate := add_mul _ _ _
  rw [e5]
  apply min_near (le_trans zero_le_one hC) (by norm_num) (by norm_num)
  · refine le_trans ?_ hlo2
    have e0 := mul_le_mul_of_nonneg_right hlo1 hv
    have e1 := mul_le_mul_of_nonneg_left hv2 hT0
    have e2 := mul_le_mul_of_nonneg_left hv6 hD1
    have e3 := mul_le_mul_of_nonneg_left hv5 hD2
    set v : ℚ := 1 - 1 / (2 : ℚ) ^ (53 : ℕ)
    set z : ℚ := 1 - 1 / (2 : ℚ) ^ (50 : ℕ)
    set A : ℚ := seconds (timeSub now1 b.lastRefillTime) * rl.rate
    set B : ℚ := seconds (timeSub now2 now1) * rl.rate
    set P : ℚ := v ^ (5 : ℕ)
    clear_value v z A B P
    nlinarith [e0, e1, e2, e3]
  · refine le_trans hhi2 ?_
    have e0 := mul_le_mul_of_nonneg_right hhi1 hw
    have e1 := mul_le_mul_of_nonneg_left hw2 hT0
    have e2 := mul_le_mul_of_nonneg_left hw6 hD1
    have e3 := mul_le_mul_of_nonneg_left hw5 hD2
    set w : ℚ := 1 + 1 / (2 : ℚ) ^ (53 : ℕ)
    set z : ℚ := 1 + 1 / (2 : ℚ) ^ (50 : ℕ)
    set A : ℚ := seconds (timeSub now1 b.lastRefillTime) * rl.rate
    set B : ℚ := seconds (timeSub now2 now1) * rl.rate
    set P : ℚ := w ^ (5 : ℕ)
    clear_value w z A B P
    nlinarith [e0, e1, e2, e3]

/-- The balance a call works on depends on the limiter only through its rate and its
capacity. -/
theorem f64_refill_congr {rl1 rl2 : RateLimiter} (hR : rl1.rate = rl2.rate)
    (hC : rl1.bucketSize = rl2.bucketSize) (b : clientData) (now : Time) :
    F64.refill rl1 b now = F64.refill rl2 b now := by
  unfold F64.refill F64.refillRaw
  rw [hR, hC]

/-- C16 (amended). Updating `L` only on allow is equivalent up to rounding. For a bucket
`(T, L)` with `T ≥ 0`, rate `R ≥ 0`, capacity `C ≥ 1` and clock values
`L ≤ now1 ≤ now2`, when `RateLimit` denies the call at `now1`, the variant denies it too
and leaves the bucket `(T, L)`; the balance the call at `now2` then works on, after the
refill and the cap, lies within the factors `1 - 2^-50` and `1 + 2^-50` of the exact
`X = min(C, T + (now2 - L) * R)`, both after `RateLimit` and after the variant; and the
two calls at `now2` return the same verdict whenever `X * (1 - 2^-50) ≥ 1` or
`X * (1 + 2^-50) < 1`. -/
theorem update_on_allow_float (rl : RateLimiter) (k : String) (b : clientData)
    (c1 now1 c2 now2 : Time) (hb : rl.clients k = some b) (hR : 0 ≤ rl.rate)
    (hC : 1 ≤ rl.bucketSize) (hT : 0 ≤ b.tokens) (h1 : b.lastRefillTime ≤ now1)
    (h2 : now1 ≤ now2) (hden : (F64.RateLimit rl k c1 now1).1 = false) :
    (F64.RateLimitOnAllow rl k c1 now1).1 = false ∧
    (F64.RateLimitOnAllow rl k c1 now1).2.clients k = some b ∧
    refill rl b now2 * (1 - 1 / (2 : ℚ) ^ (50 : ℕ))
      ≤ F64.refill (F64.RateLimit rl k c1 now1).2
          (lookupOrCreate (F64.RateLimit rl k c1 now1).2 k c2) now2 ∧
    F64.refill (F64.RateLimit rl k c1 now1).2
        (lookupOrCreate (F64.RateLimit rl k c1 now1).2 k c2) now2
      ≤ refill rl b now2 * (1 + 1 / (2 : ℚ) ^ (50 : ℕ)) ∧
    refill rl b now2 * (1 - 1 / (2 : ℚ) ^ (50 : ℕ))
      ≤ F64.refill (F64.RateLimitOnAllow rl k c1 now1).2
          (lookupOrCreate (F64.RateLimitOnAllow rl k c1 now1).2 k c2) now2 ∧
    F64.refill (F64.RateLimitOnAllow rl k c1 now1).2
        (lookupOrCreate (F64.RateLimitOnAllow rl k c1 now1).2 k c2) now2
      ≤ refill rl b now2 * (1 + 1 / (2 : ℚ) ^ (50 : ℕ)) ∧
    ((1 ≤ refill rl b now2 * (1 - 1 / (2 : ℚ) ^ (50 : ℕ))
        ∨ refill rl b now2 * (1 + 1 / (2 : ℚ) ^ (50 : ℕ)) < 1) →
      (F64.RateLimit (F64.RateLimit rl k c1 now1).2 k c2 now2).1
        = (F64.RateLimitOnAllow (F64.RateLimitOnAllow rl k c1 now1).2 k c2 now2).1) := by
  have hden' : ¬ 1 ≤ F64.refill rl (lookupOrCreate rl k c1) now1 := by
    rw [f64_verdict] at hden
    exact of_decide_eq_false hden
  have hden2 : ¬ 1 ≤ F64.refill rl b now1 := by
    rwa [lookupOrCreate_some hb] at hden'
  obtain ⟨hvb, hvR, hvC⟩ := f64_onAllow_denied rl k b c1 now1 hb hden'
  obtain ⟨hA1, hA2⟩ := f64_refill_after_denied_near rl k b c1 now1 c2 now2 hb hR hC hT
    h1 h2 hden2
  obtain ⟨hV1, hV2⟩ := f64_refill_near rl b now2 hR (le_trans zero_le_one hC) hT
    (le_trans h1 h2)
  have hV : F64.refill (F64.RateLimitOnAllow rl k c1 now1).2
      (lookupOrCreate (F64.RateLimitOnAllow rl k c1 now1).2 k c2) now2
      = F64.refill rl b now2 := by
    rw [lookupOrCreate_some hvb]
    exact f64_refill_congr hvR hvC b now2
  refine ⟨?_, hvb, hA1, hA2, by rw [hV]; exact hV1, by rw [hV]; exact hV2, ?_⟩
  · rw [f64_onAllow_verdict]; exact decide_eq_false hden'
  · intro h
    rw [f64_verdict, f64_onAllow_verdict, hV]
    rcases h with h | h
    · rw [decide_eq_true (le_trans h hA1), decide_eq_true (le_trans h hV1)]
    · rw [decide_eq_false (not_le.mpr (lt_of_le_of_lt hA2 h)),
        decide_eq_false (not_le.mpr (lt_of_le_of_lt hV2 h))]

/-- Witness for the amended C16: the bucket `(0, 0)` with `R = C = 5`, a denied call at
16 ms and a call at 200 ms. -/
theorem update_on_allow_float_witness :
    (oneClient 5 0 0).clients "a" = some { tokens := 0, lastRefillTime := 0 } ∧
    0 ≤ (oneClient 5 0 0).rate ∧ 1 ≤ (oneClient 5 0 0).bucketSize ∧ (0 : ℚ) ≤ 0 ∧
    (0 : Time) ≤ 16000000 ∧ (16000000 : Time) ≤ 200000000 ∧
    (F64.RateLimit (oneClient 5 0 0) "a" 0 16000000).1 = false ∧
    (F64.RateLimitOnAllow (oneClient 5 0 0) "a" 0 16000000).1 = false ∧
    refill (oneClient 5 0 0) { tokens := 0, lastRefillTime := 0 } 200000000
        * (1 - 1 / (2 : ℚ) ^ (50 : ℕ))
      ≤ F64.refill (F64.RateLimit (oneClient 5 0 0) "a" 0 16000000).2
          (lookupOrCreate (F64.RateLimit (oneClient 5 0 0) "a" 0 16000000).2 "a" 0)
          200000000 :=
  have hb : (oneClient 5 0 0).clients "a" = some { tokens := 0, lastRefillTime := 0 } := by
    simp [oneClient]
  have hden : (F64.RateLimit (oneClient 5 0 0) "a" 0 16000000).1 = false := by
    rw [f64_verdict, f64_poll16 _ rfl rfl hb]
    exact decide_eq_false (by norm_num)
  have h := update_on_allow_float (oneClient 5 0 0) "a" _ 0 16000000 0 200000000 hb
    (by norm_num [oneClient]) (by norm_num [oneClient]) (le_refl _) (by decide) (by decide)
    hden
  ⟨hb, by norm_num [oneClient], by norm_num [oneClient], le_refl _, by decide, by decide,
    hden, h.1, h.2.2.1⟩

/-! ## Refill after a drain: the number of allowed calls -/

/-- The refill product `Seconds(d) * R` in `float64` is within four roundings of the exact
product. -/
theorem f64_product_bounds {d : Duration} (hd : 0 ≤ d) {R : ℚ} (hR : 0 ≤ R) :
    seconds d * R * (1 - 1 / (2 : ℚ) ^ (53 : ℕ)) ^ (4 : ℕ) ≤ fl (F64.seconds d * R) ∧
    fl (F64.seconds d * R) ≤ seconds d * R * (1 + 1 / (2 : ℚ) ^ (53 : ℕ)) ^ (4 : ℕ) := by
  have hs0 := f64_seconds_nonneg hd
  have hlo := f64_seconds_ge hd
  have hhi := f64_seconds_le hd
  have halo := mul_le_fl (mul_nonneg hs0 hR)
  have hahi := fl_le_mul (mul_nonneg hs0 hR)
  have hv : (0 : ℚ) ≤ 1 - 1 / (2 : ℚ) ^ (53 : ℕ) := by norm_num
  have hw : (0 : ℚ) ≤ 1 + 1 / (2 : ℚ) ^ (53 : ℕ) := by norm_num
  set S : ℚ := F64.seconds d
  set D : ℚ := seconds d
  set v : ℚ := 1 - 1 / (2 : ℚ) ^ (53 : ℕ)
  set w : ℚ := 1 + 1 / (2 : ℚ) ^ (53 : ℕ)
  clear_value S D v w
  constructor
  · have h1 : D * v ^ (3 : ℕ) * R ≤ S * R := mul_le_mul_of_nonneg_right hlo hR
    calc D * R * v ^ (4 : ℕ) = D * v ^ (3 : ℕ) * R * v := by ring
      _ ≤ S * R * v := mul_le_mul_of_nonneg_right h1 hv
      _ ≤ fl (S * R) := halo
  · have h1 : S * R ≤ D * w ^ (3 : ℕ) * R := mul_le_mul_of_nonneg_right hhi hR
    calc fl (S * R) ≤ S * R * w := hahi
      _ ≤ D * w ^ (3 : ℕ) * R * w := mul_le_mul_of_nonneg_right h1 hw
      _ = D * R * w ^ (4 : ℕ) := by ring

/-- When `d * N` nanoseconds lie strictly between `m` and `m + 1` seconds, `m < 2^20`, the
refill product in `float64` lies between `m` and `m + 1` as the exact one does. -/
theorem f64_refill_between (n : ℕ) (d : Duration) (m : ℕ) (hd : 0 ≤ d)
    (hm : m < 2 ^ (20 : ℕ)) (hlo : (m : ℤ) * 1000000000 < d * n)
    (hhi : d * n < ((m : ℤ) + 1) * 1000000000) :
    (m : ℚ) ≤ fl (F64.seconds d * n) ∧ fl (F64.seconds d * n) < (m : ℚ) + 1 := by
  obtain ⟨hX1, hX2⟩ := f64_product_bounds hd (Nat.cast_nonneg n : (0 : ℚ) ≤ n)
  have hP : seconds d * n = ((d * n : ℤ) : ℚ) / 1000000000 := by
    unfold seconds; push_cast; ring
  have hlo' : (m : ℚ) + 1 / 1000000000 ≤ seconds d * n := by
    rw [hP, le_div_iff₀ (by norm_num)]
    have : (m : ℤ) * 1000000000 + 1 ≤ d * n := hlo
    have h2 : (((m : ℤ) * 1000000000 + 1 : ℤ) : ℚ) ≤ ((d * n : ℤ) : ℚ) := by
      exact_mod_cast this
    push_cast at h2 ⊢
    linarith
  have hhi' : seconds d * n ≤ (m : ℚ) + 1 - 1 / 1000000000 := by
    rw [hP, div_le_iff₀ (by norm_num)]
    have : d * n + 1 ≤ ((m : ℤ) + 1) * 1000000000 := hhi
    have h2 : (((d * n + 1 : ℤ)) : ℚ) ≤ ((((m : ℤ) + 1) * 1000000000 : ℤ) : ℚ) := by
      exact_mod_cast this
    push_cast at h2 ⊢
    linarith
  have hmq : (m : ℚ) + 1 ≤ 2 ^ (20 : ℕ) := by
    have : m + 1 ≤ 2 ^ (20 : ℕ) := hm
    exact_mod_cast this
  have hm0 : (0 : ℚ) ≤ m := Nat.cast_nonneg m
  have hv0 : (0 : ℚ) ≤ (1 - 1 / (2 : ℚ) ^ (53 : ℕ)) ^ (4 : ℕ) := by norm_num
  have hv1 : (1 - 1 / (2 : ℚ) ^ (53 : ℕ)) ^ (4 : ℕ) ≤ 1 := by norm_num
  have hvn : (2 : ℚ) ^ (20 : ℕ) * (1 - (1 - 1 / (2 : ℚ) ^ (53 : ℕ)) ^ (4 : ℕ))
      ≤ 1 / 1000000000 * (1 - 1 / (2 : ℚ) ^ (53 : ℕ)) ^ (4 : ℕ) := by norm_num
  have hw0 : (0 : ℚ) ≤ (1 + 1 / (2 : ℚ) ^ (53 : ℕ)) ^ (4 : ℕ) := by norm_num
  have hw1 : 1 ≤ (1 + 1 / (2 : ℚ) ^ (53 : ℕ)) ^ (4 : ℕ) := by norm_num
  have hwn : (2 : ℚ) ^ (20 : ℕ) * ((1 + 1 / (2 : ℚ) ^ (53 : ℕ)) ^ (4 : ℕ) - 1)
      < 1 / 1000000000 * (1 + 1 / (2 : ℚ) ^ (53 : ℕ)) ^ (4 : ℕ) := by norm_num
  set P : ℚ := seconds d * n
  set V : ℚ := (1 - 1 / (2 : ℚ) ^ (53 : ℕ)) ^ (4 : ℕ)
  set W : ℚ := (1 + 1 / (2 : ℚ) ^ (53 : ℕ)) ^ (4 : ℕ)
  clear_value P V W
  constructor
  · refine le_trans ?_ hX1
    have e1 : ((m : ℚ) + 1 / 1000000000) * V ≤ P * V := mul_le_mul_of_nonneg_right hlo' hv0
    have e2 : (m : ℚ) * (1 - V) ≤ 2 ^ (20 : ℕ) * (1 - V) :=
      mul_le_mul_of_nonneg_right (by linarith) (by linarith)
    linarith
  · refine lt_of_le_of_lt hX2 ?_
    have e1 : P * W ≤ ((m : ℚ) + 1 - 1 / 1000000000) * W :=
      mul_le_mul_of_nonneg_right hhi' hw0
    have e2 : ((m : ℚ) + 1) * (W - 1) ≤ 2 ^ (20 : ℕ) * (W - 1) :=
      mul_le_mul_of_nonneg_right hmq (by linarith)
    linarith

/-- When `d * N` nanoseconds are exactly `m` seconds, `m ≤ 2^20`, the refill product in
`float64` lies between `m - 1` and `m + 1`. -/
theorem f64_refill_at_integer (n : ℕ) (d : Duration) (m : ℕ) (hd : 0 ≤ d)
    (hm : m ≤ 2 ^ (20 : ℕ)) (h : d * n = (m : ℤ) * 1000000000) :
    (m : ℚ) - 1 ≤ fl (F64.seconds d * n) ∧ fl (F64.seconds d * n) < (m : ℚ) + 1 := by
  obtain ⟨hX1, hX2⟩ := f64_product_bounds hd (Nat.cast_nonneg n : (0 : ℚ) ≤ n)
  have hP : seconds d * n = (m : ℚ) := by
    have h2 : ((d * n : ℤ) : ℚ) = (((m : ℤ) * 1000000000 : ℤ) : ℚ) := by rw [h]
    unfold seconds
    push_cast at h2 ⊢
    rw [div_mul_eq_mul_div, h2]
    field_simp
  rw [hP] at hX1 hX2
  have hmq : (m : ℚ) ≤ 2 ^ (20 : ℕ) := by exact_mod_cast hm
  have hm0 : (0 : ℚ) ≤ m := Nat.cast_nonneg m
  have hv1 : (1 - 1 / (2 : ℚ) ^ (53 : ℕ)) ^ (4 : ℕ) ≤ 1 := by norm_num
  have hvn : (2 : ℚ) ^ (20 : ℕ) * (1 - (1 - 1 / (2 : ℚ) ^ (53 : ℕ)) ^ (4 : ℕ)) ≤ 1 := by
    norm_num
  have hw1 : 1 ≤ (1 + 1 / (2 : ℚ) ^ (53 : ℕ)) ^ (4 : ℕ) := by norm_num
  have hwn : (2 : ℚ) ^ (20 : ℕ) * ((1 + 1 / (2 : ℚ) ^ (53 : ℕ)) ^ (4 : ℕ) - 1) < 1 := by
    norm_num
  set V : ℚ := (1 - 1 / (2 : ℚ) ^ (53 : ℕ)) ^ (4 : ℕ)
  set W : ℚ := (1 + 1 / (2 : ℚ) ^ (53 : ℕ)) ^ (4 : ℕ)
  clear_value V W
  constructor
  · refine le_trans ?_ hX1
    have e2 : (m : ℚ) * (1 - V) ≤ 2 ^ (20 : ℕ) * (1 - V) :=
      mul_le_mul_of_nonneg_right hmq (by linarith)
    linarith
  · refine lt_of_le_of_lt hX2 ?_
    have e2 : (m : ℚ) * (W - 1) ≤ 2 ^ (20 : ℕ) * (W - 1) :=
      mul_le_mul_of_nonneg_right hmq (by linarith)
    linarith

/-- Counterexample to C4 as stated. With `N = 50` the bucket is drained by 50 calls at
clock value 0; of 30 calls made 580 ms later only 28 are allowed, because `float64`
computes `0.58 * 50` as `28.999999999999996`, whereas `min(C, floor(d * R)) = 29`. And
with `N = 1`, after the drain a wait of `2/R = 2` seconds permits one call, not two. -/
theorem refill_after_drain_counterexample :
    (F64.run (F64.NewRateLimiter 50) (List.replicate 50 ⟨"a", 0, 0⟩)).2.clients "a"
      = some { tokens := 0, lastRefillTime := 0 } ∧
    (F64.run (F64.run (F64.NewRateLimiter 50) (List.replicate 50 ⟨"a", 0, 0⟩)).2
        (List.replicate 30 ⟨"a", 0, 0 + 580000000⟩)).1
      = List.replicate 28 true ++ List.replicate 2 false ∧
    min (50 : ℤ) (580000000 * 50 / 1000000000) = 29 ∧
    (F64.run (F64.NewRateLimiter 1) (List.replicate 1 ⟨"a", 0, 0⟩)).2.clients "a"
      = some { tokens := 0, lastRefillTime := 0 } ∧
    (F64.run (F64.run (F64.NewRateLimiter 1) (List.replicate 1 ⟨"a", 0, 0⟩)).2
        (List.replicate 2 ⟨"a", 0, 0 + 2000000000⟩)).1 = [true, false] := by
  obtain ⟨_, hb50, hR50, hC50⟩ := f64_drained 50 50 (by norm_num) (by norm_num)
    (by norm_num) "a" 0
  obtain ⟨_, hb1, hR1, hC1⟩ := f64_drained 1 1 (by norm_num) (by norm_num)
    (by norm_num) "a" 0
  have hbal : fl (F64.seconds 580000000 * ((50 : ℕ) : ℚ))
      = 8162774324609023 / 281474976710656 := by
    rw [f64_seconds_lt_second _ (by norm_num) (by norm_num)]
    norm_num
    rw [fl_580ms]
    norm_num
    exact fl_580ms_rate50
  refine ⟨hb50, ?_, by norm_num, hb1, ?_⟩
  · exact f64_drained_burst 50 (by norm_num) _ "a" 0 580000000 0 30 28 hR50 hC50 hb50
      (by rw [hbal]; norm_num) (by rw [hbal]; norm_num)
  · have h := f64_drained_burst 1 (by norm_num) _ "a" 0 2000000000 0 2 1 hR1 hC1 hb1
      (by rw [f64_refill_full 1 (by norm_num) _ (by norm_num)])
      (by rw [f64_refill_full 1 (by norm_num) _ (by norm_num)]; norm_num)
    rw [h]; rfl


/-- C4 (amended). Refill after drain in `float64`: for every `N` with `1 ≤ N ≤ 2^53`
(`R = C = N`) and every client whose bucket holds 0 tokens at instant `t`, if the next
`j` calls for that client all read the clock value `t + d` (`d ≥ 0` nanoseconds), the
first `floor(min(C, X))` of them return true and every later one returns false, where
`X` is `Seconds(d) * R` as `float64` computes it. That number is `min(C, floor(d * R))`
whenever `d * R` is not an integer and lies between `m` and `m + 1` with `m < 2^20`, and
whenever `d` is one second or more (`d ≥ C/R`, exactly `C`); when `d * R` is an integer
`m ≤ 2^20` and `d` is below one second it is `m` or `m - 1`. In particular `d = 1/R`
permits exactly one and `d = 2/R` exactly `min(C, 2)` (two when `N ≥ 2`, one when
`N = 1`). -/
theorem refill_after_drain_float (n : Nat) (hn : 1 ≤ n) (hn53 : n ≤ 2 ^ (53 : ℕ))
    (rl : RateLimiter) (k : String) (t d created : Time) (j : Nat)
    (hR : rl.rate = (n : ℚ)) (hC : rl.bucketSize = (n : ℚ))
    (hb : rl.clients k = some { tokens := 0, lastRefillTime := t }) (hd : 0 ≤ d) :
    (F64.run rl (List.replicate j ⟨k, created, t + d⟩)).1
        = List.replicate (min j ⌊min (n : ℚ) (fl (F64.seconds d * n))⌋₊) true
            ++ List.replicate (j - ⌊min (n : ℚ) (fl (F64.seconds d * n))⌋₊) false ∧
    (∀ m : ℕ, m < 2 ^ (20 : ℕ) → (m : ℤ) * 1000000000 < d * n →
      d * n < ((m : ℤ) + 1) * 1000000000 →
      (F64.run rl (List.replicate j ⟨k, created, t + d⟩)).1
        = List.replicate (min j (min n m)) true ++ List.replicate (j - min n m) false) ∧
    (∀ m : ℕ, 1 ≤ m → m ≤ 2 ^ (20 : ℕ) → d < 1000000000 → d * n = (m : ℤ) * 1000000000 →
      (F64.run rl (List.replicate j ⟨k, created, t + d⟩)).1
          = List.replicate (min j m) true ++ List.replicate (j - m) false ∨
      (F64.run rl (List.replicate j ⟨k, created, t + d⟩)).1
          = List.replicate (min j (m - 1)) true ++ List.replicate (j - (m - 1)) false) ∧
    (d * n = 1000000000 →
      (F64.run rl (List.replicate j ⟨k, created, t + d⟩)).1
        = List.replicate (min j 1) true ++ List.replicate (j - 1) false) ∧
    (d * n = 2000000000 →
      (F64.run rl (List.replicate j ⟨k, created, t + d⟩)).1
        = List.replicate (min j (min n 2)) true ++ List.replicate (j - min n 2) false) ∧
    (1000000000 ≤ d →
      (F64.run rl (List.replicate j ⟨k, created, t + d⟩)).1
        = List.replicate (min j n) true ++ List.replicate (j - n) false) := by
  have hn1 : (1 : ℚ) ≤ n := by exact_mod_cast hn
  have hfull : 1000000000 ≤ d →
      (F64.run rl (List.replicate j ⟨k, created, t + d⟩)).1
        = List.replicate (min j n) true ++ List.replicate (j - n) false := by
    intro h
    have e := f64_refill_full n hn53 d h
    exact f64_drained_burst n hn53 rl k t d created j n hR hC hb (by rw [e])
      (by rw [e]; linarith)
  have hX0 : (0 : ℚ) ≤ min (n : ℚ) (fl (F64.seconds d * n)) :=
    le_min (by positivity)
      (fl_nonneg (mul_nonneg (f64_seconds_nonneg hd) (by positivity)))
  refine ⟨?_, ?_, ?_, ?_, ?_, hfull⟩
  · exact f64_drained_burst n hn53 rl k t d created j _ hR hC hb
      (Nat.floor_le hX0) (Nat.lt_floor_add_one _)
  · intro m hm hlo hhi
    obtain ⟨hX1, hX2⟩ := f64_refill_between n d m hd hm hlo hhi
    rcases lt_or_le m n with hmn | hnm
    · have hmn' : (m : ℚ) + 1 ≤ n := by
        have : m + 1 ≤ n := hmn
        exact_mod_cast this
      rw [min_eq_right (le_of_lt hmn)]
      exact f64_drained_burst n hn53 rl k t d created j m hR hC hb
        (le_min (by linarith) hX1) (lt_of_le_of_lt (min_le_right _ _) hX2)
    · rw [min_eq_left hnm]
      apply hfull
      have h1 : (n : ℤ) * 1000000000 ≤ (m : ℤ) * 1000000000 := by
        have : (n : ℤ) ≤ m := by exact_mod_cast hnm
        linarith
      have h2 : 1000000000 * (n : ℤ) < d * n := by linarith
      have hnpos : (0 : ℤ) < n := by exact_mod_cast hn
      exact le_of_lt (lt_of_mul_lt_mul_right h2 (le_of_lt hnpos))
  · intro m hm1 hm hlt h
    obtain ⟨hX1, hX2⟩ := f64_refill_at_integer n d m hd hm h
    have hmn : m < n := by
      have hnpos : (0 : ℤ) < n := by exact_mod_cast hn
      have h1 : d * (n : ℤ) < 1000000000 * n := mul_lt_mul_of_pos_right hlt hnpos
      have h2 : (m : ℤ) * 1000000000 < (n : ℤ) * 1000000000 := by rw [← h]; linarith
      have h3 : (m : ℤ) < n := lt_of_mul_lt_mul_right h2 (by norm_num)
      exact_mod_cast h3
    have hmn' : (m : ℚ) + 1 ≤ n := by
      have : m + 1 ≤ n := hmn
      exact_mod_cast this
    have hcast : ((m - 1 : ℕ) : ℚ) = (m : ℚ) - 1 := by
      rw [Nat.cast_sub hm1]; norm_num
    rcases le_or_lt (m : ℚ) (fl (F64.seconds d * n)) with hge | hlt'
    · left
      exact f64_drained_burst n hn53 rl k t d created j m hR hC hb
        (le_min (by linarith) hge) (lt_of_le_of_lt (min_le_right _ _) hX2)
    · right
      exact f64_drained_burst n hn53 rl k t d created j (m - 1) hR hC hb
        (by rw [hcast]; exact le_min (by linarith) hX1)
        (by rw [hcast]; exact lt_of_le_of_lt (min_le_right _ _) (by linarith))
  · intro h
    rcases lt_or_le d 1000000000 with hlt | hge
    · have e := f64_wait_refill n d 0 hd hlt (by simpa using h)
      have e2 : min (n : ℚ) (fl (F64.seconds d * n)) = 1 := by
        rw [e]; norm_num; exact hn
      exact f64_drained_burst n hn53 rl k t d created j 1 hR hC hb
        (by rw [e2]; norm_num) (by rw [e2]; norm_num)
    · have hn' : n = 1 := by
        have h2 : d * (n : ℤ) ≤ d * 1 := by rw [h]; linarith
        have hdpos : (0 : ℤ) < d := by linarith
        have h3 : (n : ℤ) ≤ 1 := le_of_mul_le_mul_left h2 hdpos
        omega
      have := hfull hge
      rw [hn'] at this
      exact this
  · intro h
    rcases lt_or_le d 1000000000 with hlt | hge
    · have e := f64_wait_refill n d 1 hd hlt (by simpa using h)
      have hn3 : 2 ≤ n := by
        by_contra hcon
        have hn' : n = 1 := by omega
        rw [hn'] at h
        have : d = 2000000000 := by simpa using h
        linarith
      have e2 : min (n : ℚ) (fl (F64.seconds d * n)) = 2 := by
        rw [e]; norm_num; exact_mod_cast hn3
      have e3 : min n 2 = 2 := min_eq_right hn3
      rw [e3]
      exact f64_drained_burst n hn53 rl k t d created j 2 hR hC hb
        (by rw [e2]; norm_num) (by rw [e2]; norm_num)
    · have hn' : n ≤ 2 := by
        have h2 : d * (n : ℤ) ≤ d * 2 := by rw [h]; linarith
        have hdpos : (0 : ℤ) < d := by linarith
        have h3 : (n : ℤ) ≤ 2 := le_of_mul_le_mul_left h2 hdpos
        omega
      have e3 : min n 2 = n := min_eq_left hn'
      rw [e3]
      exact hfull hge

/-- Witness for the amended C4, with `N = 50` and a bucket drained at clock value 0: of
51 calls made one second later 50 are allowed; of 3 calls made 30 ms later
(`d * R = 1.5`) one is allowed; of 3 calls made 20 ms later (`d = 1/R`) one is
allowed. -/
theorem refill_after_drain_float_witness :
    1 ≤ 50 ∧ 50 ≤ 2 ^ (53 : ℕ) ∧ (oneClient 50 0 0).rate = ((50 : ℕ) : ℚ) ∧
    (oneClient 50 0 0).bucketSize = ((50 : ℕ) : ℚ) ∧
    (oneClient 50 0 0).clients "a" = some { tokens := 0, lastRefillTime := 0 } ∧
    (0 : Time) ≤ 1000000000 ∧
    (F64.run (oneClient 50 0 0) (List.replicate 51 ⟨"a", 0, 0 + 1000000000⟩)).1
      = List.replicate (min 51 50) true ++ List.replicate (51 - 50) false ∧
    (F64.run (oneClient 50 0 0) (List.replicate 3 ⟨"a", 0, 0 + 30000000⟩)).1
      = List.replicate (min 3 (min 50 1)) true ++ List.replicate (3 - min 50 1) false ∧
    (F64.run (oneClient 50 0 0) (List.replicate 3 ⟨"a", 0, 0 + 20000000⟩)).1
      = List.replicate (min 3 1) true ++ List.replicate (3 - 1) false :=
  ⟨by decide, by norm_num, by norm_num [oneClient], by norm_num [oneClient],
   by simp [oneClient], by decide,
   (refill_after_drain_float 50 (by decide) (by norm_num) (oneClient 50 0 0) "a" 0
      1000000000 0 51 (by norm_num [oneClient]) (by norm_num [oneClient])
      (by simp [oneClient]) (by decide)).2.2.2.2.2 (by decide),
   (refill_after_drain_float 50 (by decide) (by norm_num) (oneClient 50 0 0) "a" 0
      30000000 0 3 (by norm_num [oneClient]) (by norm_num [oneClient])
      (by simp [oneClient]) (by decide)).2.1 1 (by norm_num) (by norm_num) (by norm_num),
   (refill_after_drain_float 50 (by decide) (by norm_num) (oneClient 50 0 0) "a" 0
      20000000 0 3 (by norm_num [oneClient]) (by norm_num [oneClient])
      (by simp [oneClient]) (by decide)).2.2.2.1 (by norm_num)⟩

end Ratelimiter
